import Mathlib

/-!
# Standard MIDI File parser (midi_parser.h): embedding and verification

The C header `src/src/midi_parser.h` is embedded function by function.

Conventions of the embedding

* The byte source `FILE *` is a list of bytes with a read position; a byte is a
  natural number read modulo 256.  `getc`, `fread`, `fseek` and `ftell` act on it as
  the C library does on a regular file opened for reading.
* Unsigned machine integers are natural numbers reduced modulo `2^8`, `2^16` or
  `2^32` at the places where the C code stores them.  `long` and `size_t` are 64 bit
  wide and never overflow on the sizes considered, so they are unbounded here.
* The host is little-endian: `fread` into a `uint16_t` or `uint32_t` loads the bytes
  least significant first, which is what `reverse16` and `reverse32` undo.
* A call that does not return normally yields one of the three outcomes
  `Run.diverges` (a loop that never exits), `Run.aborts` (a failed `assert`) and
  `Run.undefined` (an indeterminate value is used, an array is indexed out of
  range, or a division by zero).
* `assert` is compiled in unless `NDEBUG` is defined; the flag `ndebug` says which.
* A C function returning a pointer that may be `NULL` returns the buffer it worked
  on together with a flag telling whether the pointer was non-`NULL`.
* The process-wide `midi_status` is threaded through explicitly.
-/

namespace Midi

/-! ## Outcomes -/

/-- Outcome of running a piece of C code. -/
inductive Run (α : Type) where
  | ret (a : α) : Run α
  | diverges : Run α
  | aborts : Run α
  | undefined : Run α
deriving DecidableEq, Repr

/-- Sequencing of outcomes: a fault of the first part is the fault of the whole. -/
def Run.bind {α β : Type} (x : Run α) (f : α → Run β) : Run β :=
  match x with
  | Run.ret a => f a
  | Run.diverges => Run.diverges
  | Run.aborts => Run.aborts
  | Run.undefined => Run.undefined

instance : Monad Run where
  pure := Run.ret
  bind := Run.bind

/-! ## Constants -/

def MIDI_HEADER_SIZE : Nat := 14
def MIDI_TRACK_HEADER_SIZE : Nat := 8

def MIDI_Success : Nat := 0
def MIDI_InvalidHeaderChunk : Nat := 1
def MIDI_InvalidTrackChunk : Nat := 2
def MIDI_PotentialBufferOverflow : Nat := 3
def MIDI_NoCaseMatch : Nat := 4
def MIDI_Unimplemented : Nat := 5

def EventNoteOff : Nat := 0x80
def EventNoteOn : Nat := 0x90
def EventKeyPressure : Nat := 0xA0
def EventControllerChange : Nat := 0xB0
def EventProgramChange : Nat := 0xC0
def EventChannelPressure : Nat := 0xD0
def EventPitchBend : Nat := 0xE0
def EventSystemExclusive : Nat := 0xF0

def MetaSequence : Nat := 0x00
def MetaText : Nat := 0x01
def MetaCopyright : Nat := 0x02
def MetaTrackName : Nat := 0x03
def MetaInstrumentName : Nat := 0x04
def MetaLyrics : Nat := 0x05
def MetaMarker : Nat := 0x06
def MetaCuePoint : Nat := 0x07
def MetaChannelPrefix : Nat := 0x20
def MetaEndOfTrack : Nat := 0x2F
def MetaSetTempo : Nat := 0x51
def MetaSMPTEOffset : Nat := 0x54
def MetaTimeSignature : Nat := 0x58
def MetaKeySignature : Nat := 0x59
def MetaSequencerSpecific : Nat := 0x7F

/-- The bytes of the chunk tag "MThd". -/
def MThd : List Nat := [0x4D, 0x54, 0x68, 0x64]

/-- The bytes of the chunk tag "MTrk". -/
def MTrk : List Nat := [0x4D, 0x54, 0x72, 0x6B]

/-- Modulus of `uint32_t`. -/
def U32 : Nat := 4294967296

/-- Macro `MIDI_MIN`. -/
def MIDI_MIN (x y : Nat) : Nat := if x ≤ y then x else y

/-- Conversion of an `int` to `uint8_t`. -/
def u8 (c : Int) : Nat := (c % 256).toNat

/-- Conversion of an `int` to `uint16_t`. -/
def u16 (c : Int) : Nat := (c % 65536).toNat

/-- Conversion of an `int` or `long` to `uint32_t`. -/
def u32 (c : Int) : Nat := (c % 4294967296).toNat

/-- Value of an unsigned integer object whose bytes in memory are `bs` (little-endian host). -/
def le_load : List Nat → Nat
  | [] => 0
  | b :: bs => b + 256 * le_load bs

/-- The four bytes in memory of a `uint32_t` holding `v` (little-endian host). -/
def le_bytes32 (v : Nat) : List Nat :=
  [v % 256, v / 256 % 256, v / 65536 % 256, v / 16777216 % 256]

/-- Memory after `rd` has been stored at the start of an object that held `old`. -/
def overlay (rd old : List Nat) : List Nat := rd ++ old.drop rd.length

/-- Assignment `buf[i] = v` in a byte buffer. -/
def write_at (buf : List Nat) (i v : Nat) : List Nat :=
  (buf ++ List.replicate (i + 1 - buf.length) 0).set i v

/-- Reverse the bytes of a 16 bit unsigned integer. -/
def reverse16 (n : Nat) : Nat :=
  ((n <<< 8) &&& 0xFF00) ||| ((n >>> 8) &&& 0x00FF)

/-- Reverse the bytes of a 32 bit unsigned integer. -/
def reverse32 (n : Nat) : Nat :=
  ((n <<< 24) &&& 0xFF000000) ||| ((n <<< 8) &&& 0x00FF0000)
    ||| ((n >>> 8) &&& 0x0000FF00) ||| ((n >>> 24) &&& 0x000000FF)

/-! ## The byte source -/

/-- A regular file opened for reading: its bytes and the read position. -/
structure FILE where
  data : List Nat
  pos : Nat
deriving DecidableEq, Repr

/-- C `getc`: the next byte as an `int`, or `EOF` (-1) at end of input, where the
position stays. -/
def getc (midi : FILE) : Int × FILE :=
  match midi.data[midi.pos]? with
  | some b => (((b % 256 : Nat) : Int), { midi with pos := midi.pos + 1 })
  | none => (-1, midi)

/-- C `fread` of `n` bytes: the bytes actually read (fewer at end of input). -/
def fread (midi : FILE) (n : Nat) : List Nat × FILE :=
  let rd := ((midi.data.drop midi.pos).take n).map (fun b => b % 256)
  (rd, { midi with pos := midi.pos + rd.length })

/-- C `ftell`. -/
def ftell (midi : FILE) : Nat := midi.pos

/-- C `fseek (midi, off, SEEK_SET)`. -/
def fseek_set (midi : FILE) (off : Nat) : FILE := { midi with pos := off }

/-- C `fseek (midi, off, SEEK_CUR)`: fails, leaving the position, when the target is
negative. -/
def fseek_cur (midi : FILE) (off : Int) : FILE :=
  if 0 ≤ (midi.pos : Int) + off then { midi with pos := ((midi.pos : Int) + off).toNat }
  else midi

/-! ## Data model -/

/-- C `struct midi_header`. -/
structure midi_header where
  format : Nat
  track_count : Nat
  time_division : Nat
deriving DecidableEq, Repr

/-- C `struct midi_event`.  The C union overlays `midi_data`, `sysex_data` and the meta
views in memory; here each view is a field of its own and holds what was last
written through that view. -/
structure midi_event where
  dtime : Nat
  status : Nat
  size : Nat
  midi_data : List Nat
  sysex_data : List Nat
  meta_type : Nat
  tempo : Nat
  channel_prefix : Nat
  sequence_number : Nat
  key_signature : List Nat
  time_signature : List Nat
  SMPTE_offset : List Nat
  sequencer_specific : List Nat
  text : List Nat
deriving DecidableEq, Repr

/-- C `struct midi_track`. -/
structure midi_track where
  start_position : Nat
  current_position : Nat
  size : Nat
  tempo : Nat
  end_of_track : Nat
  running_status : Nat
  next_event_timestamp : Nat
deriving DecidableEq, Repr

/-- C `struct midi_parser`, named `midi_parser_t` here (with `MIDI_TRACKS_ON_HEAP`
undefined: `tracks` is an array of 16 tracks). -/
structure midi_parser_t where
  format : Nat
  track_count : Nat
  time_division : Nat
  active_track_count : Nat
  ticks_per_quarter : Nat
  us_per_tick : Nat
  timestamp : Nat
  dtime : Nat
  end_of_file : Nat
  tracks : List midi_track
deriving DecidableEq, Repr

/-- An event buffer filled with zero bytes. -/
def midi_event_zero : midi_event :=
  { dtime := 0, status := 0, size := 0, midi_data := [0, 0],
    sysex_data := List.replicate 128 0, meta_type := 0, tempo := 0, channel_prefix := 0,
    sequence_number := 0, key_signature := [0, 0], time_signature := [0, 0, 0, 0],
    SMPTE_offset := [0, 0, 0, 0, 0], sequencer_specific := List.replicate 128 0,
    text := List.replicate 128 0 }

/-- A track filled with zero bytes. -/
def midi_track_zero : midi_track :=
  { start_position := 0, current_position := 0, size := 0, tempo := 0, end_of_track := 0,
    running_status := 0, next_event_timestamp := 0 }

/-- The parser `calloc` returns: every byte zero. -/
def midi_parser_zero : midi_parser_t :=
  { format := 0, track_count := 0, time_division := 0, active_track_count := 0,
    ticks_per_quarter := 0, us_per_tick := 0, timestamp := 0, dtime := 0, end_of_file := 0,
    tracks := List.replicate 16 midi_track_zero }

/-! ## Variable-length quantities -/

/-- Number of iterations after which the loop of `midi_value_read` has either exited
or reads at end of input for ever: one more than the bytes left. -/
def loop_fuel (midi : FILE) : Nat := midi.data.length - midi.pos + 1

/-- The loop of `midi_value_read`, entered with `buffer & 0x80` set.  Each iteration
uses one unit of fuel; running out of fuel stands for a loop that never exits. -/
def midi_value_read_loop : Nat → FILE → Nat → Run (Nat × FILE)
  | 0, _, _ => Run.diverges
  | fuel + 1, midi, value =>
    let c := getc midi
    let buffer := u8 c.1
    let value := ((value <<< 7) % U32) ||| (buffer &&& 0x7F)
    if buffer &&& 0x80 ≠ 0 then midi_value_read_loop fuel c.2 value
    else Run.ret (value, c.2)

/-- C `midi_value_read`: read a multi byte value from the MIDI file. -/
def midi_value_read (midi : FILE) : Run (Nat × FILE) :=
  midi_value_read_loop (loop_fuel midi) midi 0

/-- The loop of `midi_value_peek`; `count` is a `uint8_t`. -/
def midi_value_peek_loop : Nat → FILE → Nat → Nat → Run (Nat × Nat × FILE)
  | 0, _, _, _ => Run.diverges
  | fuel + 1, midi, value, count =>
    let c := getc midi
    let buffer := u8 c.1
    let value := ((value <<< 7) % U32) ||| (buffer &&& 0x7F)
    let count := (count + 1) % 256
    if buffer &&& 0x80 ≠ 0 then midi_value_peek_loop fuel c.2 value count
    else Run.ret (value, count, c.2)

/-- C `midi_value_peek`: decode a multi byte value, then seek back by `count`. -/
def midi_value_peek (midi : FILE) : Run (Nat × FILE) :=
  (midi_value_peek_loop (loop_fuel midi) midi 0 0).bind fun r =>
    Run.ret (r.1, fseek_cur r.2.2 (-1 * (r.2.1 : Int)))

/-! ## Tempo tracking -/

/-- C `midi_parser_update`: update parser state according to the event emitted.  The
division is C integer division; a zero divisor is undefined behaviour. -/
def midi_parser_update (self : midi_parser_t) (event : midi_event) : Run midi_parser_t :=
  if event.status &&& 0xF0 = EventSystemExclusive then
    if event.status = 0xFF then
      if event.meta_type = MetaSetTempo then
        if self.ticks_per_quarter = 0 then Run.undefined
        else Run.ret { self with us_per_tick := event.tempo / self.ticks_per_quarter }
      else Run.ret self
    else Run.ret self
  else Run.ret self

/-! ## Header -/

/-- What `midi_header_new` hands back: the header when the returned pointer is not
`NULL`, the value left in `midi_status`, and the stream. -/
structure header_result where
  header : Option midi_header
  midi_status : Nat
  midi : FILE
deriving DecidableEq, Repr

/-- C `midi_header_new`, called with a non-`NULL` uninitialised `self`.  `buffer32` and
`buffer16` are uninitialised locals: a short first read leaves them indeterminate. -/
def midi_header_new (midi : FILE) : Run header_result :=
  let r := fread midi 4
  if r.1.length < 4 then Run.undefined
  else if r.1 ≠ MThd then Run.ret ⟨none, MIDI_InvalidHeaderChunk, r.2⟩
  else
    let r := fread r.2 4
    let r := fread r.2 2
    if r.1.length < 2 then Run.undefined
    else
      let buffer16 := r.1
      let format := reverse16 (le_load buffer16)
      let r := fread r.2 2
      let buffer16 := overlay r.1 buffer16
      let track_count := reverse16 (le_load buffer16)
      let r := fread r.2 2
      let buffer16 := overlay r.1 buffer16
      let time_division := reverse16 (le_load buffer16)
      Run.ret ⟨some ⟨format, track_count, time_division⟩, MIDI_Success, r.2⟩

/-! ## Event decoder -/

/-- What the event constructors hand back: the caller's buffer after the call, whether
the returned pointer is non-`NULL`, the value left in `midi_status`, and the stream. -/
structure event_result where
  event : midi_event
  returned : Bool
  midi_status : Nat
  midi : FILE
deriving DecidableEq, Repr

/-- C `midi_event_midi_new` (non-`NULL` `self`). -/
def midi_event_midi_new (self : midi_event) (midi : FILE) (status : Nat) : event_result :=
  let self := { self with status := status }
  let type := status &&& 0xF0
  if type = EventNoteOff ∨ type = EventNoteOn ∨ type = EventKeyPressure
      ∨ type = EventControllerChange ∨ type = EventPitchBend then
    let self := { self with size := 2 }
    let r := fread midi self.size
    ⟨{ self with midi_data := overlay r.1 self.midi_data }, true, MIDI_Success, r.2⟩
  else if type = EventProgramChange ∨ type = EventChannelPressure then
    let self := { self with size := 1 }
    let r := fread midi self.size
    ⟨{ self with midi_data := overlay r.1 self.midi_data }, true, MIDI_Success, r.2⟩
  else ⟨self, false, MIDI_NoCaseMatch, midi⟩

/-- C `midi_event_sysex_new` (non-`NULL` `self`, `MIDI_SYSEX_EVENT` defined). -/
def midi_event_sysex_new (self : midi_event) (midi : FILE) : Run event_result :=
  (midi_value_read midi).bind fun v =>
    let self := { self with size := v.1 }
    let data_size := 128
    let read_size := MIDI_MIN self.size data_size
    let r := fread v.2 read_size
    let self := { self with sysex_data := overlay r.1 self.sysex_data }
    let midi := if data_size < self.size then fseek_cur r.2 ((self.size : Int) - data_size)
      else r.2
    Run.ret ⟨self, true, MIDI_Success, midi⟩

/-- C `midi_event_meta_new` (non-`NULL` `self`, `MIDI_META_EVENT` = 3).  The operands of
the tempo and sequence number expressions are evaluated left to right. -/
def midi_event_meta_new (self : midi_event) (midi : FILE) : Run event_result :=
  let c := getc midi
  let self := { self with meta_type := u8 c.1 }
  (midi_value_read c.2).bind fun v =>
    let self := { self with size := v.1 }
    let midi := v.2
    let t := self.meta_type
    if t = MetaEndOfTrack then Run.ret ⟨self, true, MIDI_Success, midi⟩
    else if t = MetaSetTempo then
      let c0 := getc midi
      let c1 := getc c0.2
      let c2 := getc c1.2
      Run.ret ⟨{ self with tempo := u32 (Int.lor (Int.lor (c0.1 * 65536) (c1.1 * 256)) c2.1) },
        true, MIDI_Success, c2.2⟩
    else if t = MetaSequence then
      let c0 := getc midi
      let c1 := getc c0.2
      Run.ret ⟨{ self with sequence_number := u16 (Int.lor (c0.1 * 256) c1.1) },
        true, MIDI_Success, c1.2⟩
    else if t = MetaChannelPrefix then
      let c0 := getc midi
      Run.ret ⟨{ self with channel_prefix := u8 c0.1 }, true, MIDI_Success, c0.2⟩
    else if t = MetaTimeSignature then
      let r := fread midi 4
      Run.ret ⟨{ self with time_signature := overlay r.1 self.time_signature },
        true, MIDI_Success, r.2⟩
    else if t = MetaKeySignature then
      let r := fread midi 2
      Run.ret ⟨{ self with key_signature := overlay r.1 self.key_signature },
        true, MIDI_Success, r.2⟩
    else if t = MetaSMPTEOffset then
      let r := fread midi 5
      Run.ret ⟨{ self with SMPTE_offset := overlay r.1 self.SMPTE_offset },
        true, MIDI_Success, r.2⟩
    else if t = MetaSequencerSpecific then
      let sequencer_specific_size := 128
      let read_size := MIDI_MIN self.size sequencer_specific_size
      let r := fread midi read_size
      let self := { self with sequencer_specific := overlay r.1 self.sequencer_specific }
      let midi := if sequencer_specific_size < self.size then
        fseek_cur r.2 ((self.size : Int) - sequencer_specific_size) else r.2
      Run.ret ⟨self, true, MIDI_Success, midi⟩
    else if t = MetaText ∨ t = MetaCopyright ∨ t = MetaTrackName ∨ t = MetaInstrumentName
        ∨ t = MetaLyrics ∨ t = MetaMarker ∨ t = MetaCuePoint then
      let text_size := 127
      let read_size := MIDI_MIN self.size text_size
      let r := fread midi read_size
      let self := { self with text := write_at (overlay r.1 self.text) read_size 0 }
      let midi := if text_size < self.size then
        fseek_cur r.2 ((self.size : Int) - text_size) else r.2
      Run.ret ⟨self, true, MIDI_Success, midi⟩
    else Run.ret ⟨self, true, MIDI_Success, fseek_cur midi (self.size : Int)⟩

/-- What `midi_event_new` hands back: as `event_result`, with the byte the
`running_status` pointer refers to. -/
structure decode_result where
  event : midi_event
  returned : Bool
  midi_status : Nat
  midi : FILE
  running_status : Nat
deriving DecidableEq, Repr

/-- C `midi_event_new` (non-`NULL` `self`): decode the event at the read position. -/
def midi_event_new (self : midi_event) (midi : FILE) (running_status : Nat) :
    Run decode_result :=
  (midi_value_read midi).bind fun v =>
    let self := { self with dtime := v.1 }
    let c := getc v.2
    let self := { self with status := u8 c.1 }
    let rewind := decide (self.status < 0x80)
    let self := if rewind then { self with status := running_status } else self
    let midi := if rewind then fseek_cur c.2 (-1) else c.2
    let running_status := self.status
    let type := self.status &&& 0xF0
    if type = EventNoteOff ∨ type = EventNoteOn ∨ type = EventKeyPressure
        ∨ type = EventControllerChange ∨ type = EventPitchBend
        ∨ type = EventProgramChange ∨ type = EventChannelPressure then
      let r := midi_event_midi_new self midi self.status
      if r.returned then Run.ret ⟨r.event, true, MIDI_Success, r.midi, running_status⟩
      else Run.ret ⟨r.event, false, r.midi_status, r.midi, running_status⟩
    else if type = EventSystemExclusive then
      let running_status := 0
      if self.status = 0xF0 ∨ self.status = 0xF7 then
        (midi_event_sysex_new self midi).bind fun r =>
          Run.ret ⟨r.event, true, MIDI_Success, r.midi, running_status⟩
      else if self.status = 0xFF then
        (midi_event_meta_new self midi).bind fun r =>
          Run.ret ⟨r.event, true, MIDI_Success, r.midi, running_status⟩
      else Run.ret ⟨self, true, MIDI_Success, midi, running_status⟩
    else Run.ret ⟨self, false, MIDI_NoCaseMatch, midi, running_status⟩

/-! ## Tracks -/

/-- C `midi_track_over`. -/
def midi_track_over (self : midi_track) : Bool :=
  decide (self.end_of_track ≠ 0) ||
    decide (self.current_position ≥
      (self.start_position + MIDI_TRACK_HEADER_SIZE + self.size) % U32)

/-- What `midi_track_new` hands back: the track written through `self` when the
returned pointer is not `NULL`, the value left in `midi_status`, and the stream. -/
structure track_result where
  track : Option midi_track
  midi_status : Nat
  midi : FILE
deriving DecidableEq, Repr

/-- The chunk-skipping loop of `midi_track_new`, with `n` iterations left.  `magic` holds
the bytes of the local of that name and `track_size` its value; both are `none` while
indeterminate.  A short `fread` overwrites only the leading bytes of its target.  The
result is `none` when the function returns `NULL` from inside the loop. -/
def midi_track_new_loop (ndebug : Bool) :
    Nat → Option (List Nat) → Option Nat → FILE → Run (Option Nat × FILE)
  | 0, _, track_size, midi =>
    match track_size with
    | some v => Run.ret (some v, midi)
    | none => Run.undefined
  | n + 1, magic, track_size, midi =>
    let r := fread midi 4
    let magic := if r.1.length = 4 then some r.1 else magic.map (overlay r.1)
    match magic with
    | none => Run.undefined
    | some m =>
      if m ≠ MTrk then
        if ndebug then Run.ret (none, r.2) else Run.aborts
      else
        let r := fread r.2 4
        let mem := if r.1.length = 4 then some r.1
          else track_size.map fun v => overlay r.1 (le_bytes32 v)
        match mem with
        | none => Run.undefined
        | some bs =>
          let track_size := reverse32 (le_load bs)
          midi_track_new_loop ndebug n (some m) (some track_size)
            (fseek_cur r.2 (track_size : Int))

/-- C `midi_track_new` (non-`NULL` `self`, every field of which is written). -/
def midi_track_new (ndebug : Bool) (midi : FILE) (track_number : Nat) : Run track_result :=
  let saved_position := ftell midi
  let midi := fseek_set midi MIDI_HEADER_SIZE
  (midi_track_new_loop ndebug (track_number + 1) none none midi).bind fun l =>
    match l.1 with
    | none => Run.ret ⟨none, MIDI_InvalidTrackChunk, l.2⟩
    | some track_size =>
      let midi := l.2
      let start_position :=
        u32 ((ftell midi : Int) - (track_size : Int) - (MIDI_TRACK_HEADER_SIZE : Int))
      let current_position := (start_position + MIDI_TRACK_HEADER_SIZE) % U32
      let midi := fseek_set midi current_position
      (midi_value_peek midi).bind fun p =>
        let self : midi_track :=
          { start_position := start_position, current_position := current_position,
            size := track_size, tempo := 500000, end_of_track := 0, running_status := 0,
            next_event_timestamp := p.1 }
        Run.ret ⟨some self, MIDI_Success, fseek_set p.2 saved_position⟩

/-- What `midi_track_next` hands back; the returned pointer is never `NULL`. -/
structure next_result where
  event : midi_event
  track : midi_track
  midi_status : Nat
  midi : FILE
deriving DecidableEq, Repr

/-- C `midi_track_next` (non-`NULL` `event`).  The result of `midi_event_new` is not
looked at; `midi_track_over` is evaluated before `current_position` is updated. -/
def midi_track_next (self : midi_track) (midi : FILE) (event : midi_event) :
    Run next_result :=
  let saved_position := ftell midi
  let midi := fseek_set midi self.current_position
  (midi_event_new event midi self.running_status).bind fun d =>
    let event := d.event
    let self := { self with running_status := d.running_status }
    let self :=
      if event.status = 0xFF then
        if event.meta_type = MetaEndOfTrack then { self with end_of_track := 1 }
        else if event.meta_type = MetaSetTempo then { self with tempo := event.tempo }
        else self
      else self
    let finish := fun (self : midi_track) (midi : FILE) =>
      let self := { self with current_position := ftell midi % U32 }
      (⟨event, self, MIDI_Success, fseek_set midi saved_position⟩ : next_result)
    if !midi_track_over self then
      (midi_value_peek d.midi).bind fun p =>
        Run.ret (finish { self with next_event_timestamp := p.1 } p.2)
    else Run.ret (finish self d.midi)

/-! ## Parser -/

/-- What `midi_parser_new` hands back: the parser when the returned pointer is not
`NULL`, the value left in `midi_status`, and the stream. -/
structure new_result where
  parser : Option midi_parser_t
  midi_status : Nat
  midi : FILE
deriving DecidableEq, Repr

/-- The track-loading loop of `midi_parser_new`, with `n` iterations left at index `i`.
The result of `midi_track_new` is not looked at; the array has 16 entries. -/
def midi_parser_new_loop (ndebug : Bool) :
    Nat → Nat → List midi_track → Nat → FILE → Run (List midi_track × Nat × FILE)
  | 0, _, tracks, midi_status, midi => Run.ret (tracks, midi_status, midi)
  | n + 1, i, tracks, _, midi =>
    if 16 ≤ i then Run.undefined
    else
      (midi_track_new ndebug midi i).bind fun r =>
        match r.track with
        | some t => midi_parser_new_loop ndebug n (i + 1) (tracks.set i t) r.midi_status r.midi
        | none => midi_parser_new_loop ndebug n (i + 1) tracks r.midi_status r.midi

/-- C `midi_parser_new`.  With `self` = `NULL` (`none`) the parser comes zeroed from
`calloc`; otherwise the fields the function does not assign (`us_per_tick`,
`end_of_file`, tracks it does not load) keep what the caller's memory held. -/
def midi_parser_new (ndebug : Bool) (self : Option midi_parser_t) (midi : FILE) :
    Run new_result :=
  if !ndebug && decide (ftell midi ≠ 0) then Run.aborts
  else
    (midi_header_new midi).bind fun h =>
      match h.header with
      | none => Run.ret ⟨none, h.midi_status, h.midi⟩
      | some header =>
        if header.time_division ≥ 0x8000 ∨ header.format ≥ 2 then
          Run.ret ⟨none, MIDI_Unimplemented, h.midi⟩
        else
          let self := match self with
            | some s => s
            | none => midi_parser_zero
          let self := { self with
            format := header.format, time_division := header.time_division,
            track_count := header.track_count,
            ticks_per_quarter := header.time_division &&& 0x7FFF,
            timestamp := 0, dtime := 0, active_track_count := header.track_count }
          (midi_parser_new_loop ndebug self.track_count 0 self.tracks h.midi_status h.midi).bind
            fun l => Run.ret ⟨some { self with tracks := l.1 }, l.2.1, l.2.2⟩

/-- Loop state of `midi_parser_next`: the parser fields other than the tracks, the
locals `active_track_count` and `chosen`, the event pointer (the caller's buffer), the
stream and `midi_status`.  `fired` is bookkeeping added to the model: the loop index at
which `chosen` was set. -/
structure next_loop where
  self : midi_parser_t
  active_track_count : Nat
  chosen : Nat
  event : midi_event
  midi : FILE
  midi_status : Nat
  fired : Option Nat
deriving DecidableEq, Repr

/-- The loop of `midi_parser_next` over `tracks[i], tracks[i+1], ...`: the tracks as the
loop leaves them and the final loop state.  The array is exhausted at index 16; reading
on is out of range. -/
def midi_parser_next_loop (ndebug : Bool) (track_count : Nat) :
    List midi_track → Nat → next_loop → Run (List midi_track × next_loop)
  | [], i, s => if i < track_count then Run.undefined else Run.ret ([], s)
  | track :: rest, i, s =>
    if midi_track_over track then
      (midi_parser_next_loop ndebug track_count rest (i + 1) s).bind fun r =>
        Run.ret (track :: r.1, r.2)
    else
      let s := { s with active_track_count := (s.active_track_count + 1) % 65536 }
      if !ndebug && decide (¬ s.self.timestamp ≤ track.next_event_timestamp) then Run.aborts
      else
        let fire : Run (midi_track × Bool × next_loop) :=
          if s.chosen = 0 ∧ s.self.timestamp = track.next_event_timestamp then
            (midi_track_next track s.midi s.event).bind fun r =>
              let track_over := midi_track_over r.track
              let track := { r.track with next_event_timestamp :=
                (r.track.next_event_timestamp + s.self.timestamp) % U32 }
              (midi_parser_update s.self r.event).bind fun self =>
                Run.ret (track, track_over, { s with
                  self := self, event := r.event, midi := r.midi,
                  midi_status := r.midi_status, chosen := 1, fired := some i })
          else Run.ret (track, false, s)
        fire.bind fun x =>
          let track := x.1
          let s := x.2.2
          let dtime := MIDI_MIN s.self.dtime
            ((track.next_event_timestamp + U32 - s.self.timestamp) % U32)
          let s := if !x.2.1 then { s with self := { s.self with dtime := dtime } } else s
          (midi_parser_next_loop ndebug track_count rest (i + 1) s).bind fun r =>
            Run.ret (track :: r.1, r.2)

/-- What `midi_parser_next` hands back: the parser, the caller's event buffer, whether
the returned pointer is non-`NULL`, `midi_status`, the stream, and from the loop the
final `chosen` and the index of the track that was decoded, if any. -/
structure parser_result where
  parser : midi_parser_t
  event : midi_event
  returned : Bool
  midi_status : Nat
  midi : FILE
  chosen : Nat
  fired : Option Nat
deriving DecidableEq, Repr

/-- C `midi_parser_next` (non-`NULL` `event`, as its caller in `main.c` passes). -/
def midi_parser_next (ndebug : Bool) (self : midi_parser_t) (midi : FILE) (event : midi_event)
    (midi_status : Nat) : Run parser_result :=
  if self.end_of_file ≠ 0 then Run.ret ⟨self, event, false, midi_status, midi, 0, none⟩
  else
    let self := { self with timestamp := (self.timestamp + self.dtime) % U32 }
    let self := { self with dtime := 0xFFFFFFFF }
    (midi_parser_next_loop ndebug self.track_count (self.tracks.take self.track_count) 0
        ⟨self, 0, 0, event, midi, midi_status, none⟩).bind fun r =>
      let s := r.2
      let self := { s.self with
        tracks := r.1 ++ self.tracks.drop self.track_count,
        end_of_file := if s.active_track_count = 0 then 1 else 0 }
      Run.ret ⟨self, s.event, true, s.midi_status, s.midi, s.chosen, s.fired⟩

/-- C `midi_parser_eof`. -/
def midi_parser_eof (self : midi_parser_t) : Bool := decide (self.end_of_file ≠ 0)

/-- C `midi_event_type`. -/
def midi_event_type (self : midi_event) : Nat := self.status &&& 0xF0

/-- C `midi_event_channel`. -/
def midi_event_channel (self : midi_event) : Nat := self.status &&& 0x0F

/-- C `midi_parser_delay`. -/
def midi_parser_delay (self : midi_parser_t) : Nat := (self.dtime * self.us_per_tick) % U32

/-! ## Sessions and concrete inputs -/

/-- The result of `n` successive calls `midi_parser_next (parser, midi, &event)` made on
the state `r`, each call taking over the parser, stream, event buffer and `midi_status`
the previous one left. -/
def midi_parser_calls (ndebug : Bool) : Nat → parser_result → Run parser_result
  | 0, r => Run.ret r
  | n + 1, r =>
    (midi_parser_calls ndebug n r).bind fun r =>
      midi_parser_next ndebug r.parser r.midi r.event r.midi_status

/-- The state in which the first call of `midi_parser_next` finds a parser `p`. -/
def session_start (p : midi_parser_t) (midi : FILE) (event : midi_event) (midi_status : Nat) :
    parser_result :=
  ⟨p, event, true, midi_status, midi, 0, none⟩

/-- Open the bytes `data` with `midi_parser_new (NULL, midi)` and make `n` calls of
`midi_parser_next` with an event buffer that starts zeroed; `none` when
`midi_parser_new` returns `NULL`. -/
def midi_session (ndebug : Bool) (data : List Nat) (n : Nat) : Run (Option parser_result) :=
  (midi_parser_new ndebug none ⟨data, 0⟩).bind fun o =>
    match o.parser with
    | none => Run.ret none
    | some p =>
      (midi_parser_calls ndebug n (session_start p o.midi midi_event_zero o.midi_status)).bind
        fun r => Run.ret (some r)

/-- Format 0, one track, 480 ticks per quarter note; the track holds
`[delta 0, NoteOn ch0 note 60 vel 64] [delta 100, NoteOff ch0 note 60 vel 0]
[delta 0, MetaEndOfTrack]`. -/
def scenario_file : List Nat :=
  [0x4D, 0x54, 0x68, 0x64, 0, 0, 0, 6, 0, 0, 0, 1, 0x01, 0xE0,
   0x4D, 0x54, 0x72, 0x6B, 0, 0, 0, 12,
   0x00, 0x90, 60, 64,
   0x64, 0x80, 60, 0,
   0x00, 0xFF, 0x2F, 0x00]

/-- Format 0, one track, 480 ticks per quarter note; the track holds
`[delta 100, NoteOn ch0 note 60 vel 64] [delta 0, MetaEndOfTrack]`. -/
def late_start_file : List Nat :=
  [0x4D, 0x54, 0x68, 0x64, 0, 0, 0, 6, 0, 0, 0, 1, 0x01, 0xE0,
   0x4D, 0x54, 0x72, 0x6B, 0, 0, 0, 8,
   0x64, 0x90, 60, 64,
   0x00, 0xFF, 0x2F, 0x00]

/-- Format 1, two tracks, 480 ticks per quarter note, both with a first event due at tick
100: track 0 holds `[delta 100, NoteOn ch0 note 60 vel 64] [delta 10, MetaEndOfTrack]`,
track 1 holds `[delta 100, NoteOn ch0 note 62 vel 64] [delta 0, MetaEndOfTrack]`. -/
def tie_file : List Nat :=
  [0x4D, 0x54, 0x68, 0x64, 0, 0, 0, 6, 0, 1, 0, 2, 0x01, 0xE0,
   0x4D, 0x54, 0x72, 0x6B, 0, 0, 0, 8,
   0x64, 0x90, 60, 64,
   0x0A, 0xFF, 0x2F, 0x00,
   0x4D, 0x54, 0x72, 0x6B, 0, 0, 0, 8,
   0x64, 0x90, 62, 64,
   0x00, 0xFF, 0x2F, 0x00]

/-- A variable-length quantity of 256 bytes: 255 continuation bytes and a final zero. -/
def long_vlq : List Nat := List.replicate 255 0x80 ++ [0]

/-- A valid header (format 0, one track, division 480) followed by an `MTrk` chunk of
length 0, after which the file ends. -/
def empty_track_file : List Nat :=
  [0x4D, 0x54, 0x68, 0x64, 0, 0, 0, 6, 0, 0, 0, 1, 0x01, 0xE0,
   0x4D, 0x54, 0x72, 0x6B, 0, 0, 0, 0]

/-- A header of format 2 (one track, division 480). -/
def format2_header : List Nat :=
  [0x4D, 0x54, 0x68, 0x64, 0, 0, 0, 6, 0, 2, 0, 1, 0x01, 0xE0]

/-- A header of format 1 with an SMPTE time division (top bit set). -/
def smpte_header : List Nat :=
  [0x4D, 0x54, 0x68, 0x64, 0, 0, 0, 6, 0, 1, 0, 1, 0xE7, 0x28]

/-! ## Notions of the specification -/

/-- The continuation bytes of the variable-length encoding of a number whose groups above
the last are `m`: 7 bits per byte, most significant group first, top bit set. -/
def vlq_high : Nat → List Nat
  | 0 => []
  | m + 1 => vlq_high ((m + 1) / 128) ++ [0x80 + (m + 1) % 128]
decreasing_by omega

/-- The standard MIDI variable-length encoding of `n`, as the specification words it: 7
bits per byte, most significant group first, the top bit set on every byte but the last;
a single zero byte for 0. -/
def vlq_encode (n : Nat) : List Nat := vlq_high (n / 128) ++ [n % 128]

/-- The big-endian 16 bit value at byte offsets `i` and `i + 1` of `data`. -/
def be16 (data : List Nat) (i : Nat) : Nat :=
  data.getD i 0 % 256 * 256 + data.getD (i + 1) 0 % 256

/-- Number of payload bytes of the channel message with status `s`: 1 for ProgramChange
and ChannelPressure, 2 for the others. -/
def channel_payload_size (s : Nat) : Nat :=
  if s &&& 0xF0 = EventProgramChange ∨ s &&& 0xF0 = EventChannelPressure then 1 else 2

/-- The bytes of NoteOn ch0 note 60 vel 64 at delta 0, followed at delta 0 by the
continuation `note 62 vel 70` with the status byte omitted. -/
def running_status_bytes : List Nat := [0x00, 0x90, 60, 64, 0x00, 62, 70]

/-! ## Notions used to describe the scheduler loop -/

/-- The wait `next_event_timestamp - timestamp` of a track, in `uint32_t` arithmetic, as
`midi_parser_next` folds it into `dtime`. -/
def track_wait (T : Nat) (t : midi_track) : Nat := (t.next_event_timestamp + U32 - T) % U32

/-- The value of `dtime` after the loop of `midi_parser_next`, running at timestamp `T`, has
folded the waits of the unfinished tracks of `ts` into `d`. -/
def min_wait (T : Nat) : List midi_track → Nat → Nat
  | [], d => d
  | t :: ts, d => min_wait T ts (if midi_track_over t then d else MIDI_MIN d (track_wait T t))

/-- The value of the 16 bit `active_track_count` after the loop has counted the unfinished
tracks of `ts` on top of `a`. -/
def live_fold : List midi_track → Nat → Nat
  | [], a => a
  | t :: ts, a => live_fold ts (if midi_track_over t then a else (a + 1) % 65536)

/-- The loop state after the loop has passed over the tracks `A` without decoding. -/
def loop_passed (s : next_loop) (A : List midi_track) : next_loop :=
  { s with
    active_track_count := live_fold A s.active_track_count,
    self := { s.self with dtime := min_wait s.self.timestamp A s.self.dtime } }

/-- The track as `midi_parser_next` leaves it after `midi_track_next` returned `r` at
timestamp `T`: the peeked delta-time made absolute. -/
def fired_track (r : next_result) (T : Nat) : midi_track :=
  { r.track with next_event_timestamp := (r.track.next_event_timestamp + T) % U32 }

/-- The loop state after the track at index `i` has been decoded, `midi_track_next` having
returned `r` and `midi_parser_update` the parser `q`. -/
def loop_fired (s : next_loop) (i : Nat) (r : next_result) (q : midi_parser_t) : next_loop :=
  let wait := track_wait q.timestamp (fired_track r s.self.timestamp)
  let dtime := if midi_track_over r.track then q.dtime else MIDI_MIN q.dtime wait
  { self := { q with dtime := dtime },
    active_track_count := (s.active_track_count + 1) % 65536,
    chosen := 1, event := r.event, midi := r.midi, midi_status := r.midi_status,
    fired := some i }

/-- The parser a call of `midi_parser_next` leaves when its loop ran at timestamp `T` and
left the tracks `tracks`: `dtime` is the least wait of the unfinished tracks. -/
def parser_after (p : midi_parser_t) (T us : Nat) (tracks : List midi_track) (eof : Nat) :
    midi_parser_t :=
  { p with
    timestamp := T, us_per_tick := us, tracks := tracks, end_of_file := eof,
    dtime := min_wait T (tracks.take p.track_count) 0xFFFFFFFF }

/-- Track 0 of `tie_file` as `midi_parser_new` indexes it. -/
def tie_track0 : midi_track := ⟨14, 22, 8, 500000, 0, 0, 100⟩

/-- Track 1 of `tie_file` as `midi_parser_new` indexes it. -/
def tie_track1 : midi_track := ⟨30, 38, 8, 500000, 0, 0, 100⟩

/-- The parser of `tie_file` after the first call of `midi_parser_next`: still at timestamp
0, with a pending wait of 100 ticks after which both tracks are due. -/
def tie_waiting : midi_parser_t :=
  { format := 1, track_count := 2, time_division := 480, active_track_count := 2,
    ticks_per_quarter := 480, us_per_tick := 0, timestamp := 0, dtime := 100, end_of_file := 0,
    tracks := tie_track0 :: tie_track1 :: List.replicate 14 midi_track_zero }

/-! ## Notions used to describe the decoder's frame -/

/-- The part of the result of `midi_event_new` that depends on the stream and the running
status only, not on what the event buffer held: stream, running status, return value,
`midi_status`, delta-time, status, and for a meta event its type and, for a tempo event,
the tempo. -/
def decode_core (d : decode_result) : FILE × Nat × Bool × Nat × Nat × Nat × Nat × Nat :=
  (d.midi, d.running_status, d.returned, d.midi_status, d.event.dtime, d.event.status,
    (if d.event.status = 0xFF then d.event.meta_type else 0),
    (if d.event.status = 0xFF ∧ d.event.meta_type = MetaSetTempo then d.event.tempo else 0))

/-- The part of the result of `midi_event_meta_new` that depends on the stream only. -/
def meta_core (r : event_result) : FILE × Nat × Nat × Nat × Nat :=
  (r.midi, r.event.dtime, r.event.status, r.event.meta_type,
    (if r.event.meta_type = MetaSetTempo then r.event.tempo else 0))

/-- A track with its lookahead `next_event_timestamp` blanked: the fields the decoder
reads and writes. -/
def track_core (t : midi_track) : midi_track := { t with next_event_timestamp := 0 }

/-- The effect of a decoded event on its track, as `midi_track_next` applies it. -/
def track_note_event (self : midi_track) (d : decode_result) : midi_track :=
  let self := { self with running_status := d.running_status }
  if d.event.status = 0xFF then
    if d.event.meta_type = MetaEndOfTrack then { self with end_of_track := 1 }
    else if d.event.meta_type = MetaSetTempo then { self with tempo := d.event.tempo }
    else self
  else self

/-- The end of `midi_track_next`: the lookahead unless the track is over, the new cursor, the
seek back to the saved position. -/
def track_lookahead (self : midi_track) (event : midi_event) (midi : FILE) (saved : Nat) :
    Run next_result :=
  if !midi_track_over self then
    (midi_value_peek midi).bind fun p =>
      Run.ret ⟨event, { self with next_event_timestamp := p.1, current_position := ftell p.2 % U32 },
        MIDI_Success, fseek_set p.2 saved⟩
  else
    Run.ret ⟨event, { self with current_position := ftell midi % U32 }, MIDI_Success,
      fseek_set midi saved⟩

/-! ## Notions used to describe the merge -/

/-- One decoded event as an observer of the calls records it: the parser timestamp at
which it came out (`tick`), the index of the track it came from, the offset in the file
at which its delta-time starts (`position`), and its delta-time and status byte. -/
structure fired_event where
  tick : Nat
  track : Nat
  position : Nat
  dtime : Nat
  status : Nat
deriving DecidableEq, Repr

/-- The event a call of `midi_parser_next` decoded, if it decoded one: `before` is the
state the call found and `after` the one it left. -/
def call_entry (before after : parser_result) : List fired_event :=
  match after.fired with
  | some i =>
    [⟨after.parser.timestamp, i,
      (before.parser.tracks.getD i midi_track_zero).current_position,
      after.event.dtime, after.event.status⟩]
  | none => []

/-- The loop of `main.c`, `for (...; !midi_parser_eof (parser);) midi_parser_next (...)`,
with `n` evaluations of its condition left: the events the calls fired, in call order,
and the state in which the loop exits.  Running out of fuel stands for a loop that does
not exit. -/
def midi_parser_trace (ndebug : Bool) : Nat → parser_result → Run (List fired_event × parser_result)
  | 0, _ => Run.diverges
  | n + 1, r =>
    if midi_parser_eof r.parser then Run.ret ([], r)
    else
      (midi_parser_next ndebug r.parser r.midi r.event r.midi_status).bind fun r1 =>
        (midi_parser_trace ndebug n r1).bind fun x => Run.ret (call_entry r r1 ++ x.1, x.2)

/-- The events of track `i` as the lookahead of the scheduler times them: `midi_track_next`
run on the track `t` again and again until `midi_track_over`, each event placed at `base`
plus the value `next_event_timestamp` held before it was decoded, which is what
`midi_value_peek` found there.  This is the bookkeeping of the scheduler proof;
`track_events` below gives the ticks as sums of decoded delta-times, and
`schedule_eq_events` relates the two. -/
def track_schedule (data : List Nat) (i : Nat) : Nat → midi_track → Nat → Run (List fired_event)
  | 0, _, _ => Run.diverges
  | fuel + 1, t, base =>
    if midi_track_over t then Run.ret []
    else
      (midi_track_next t ⟨data, 0⟩ midi_event_zero).bind fun r =>
        (track_schedule data i fuel r.track (base + t.next_event_timestamp)).bind fun es =>
          Run.ret (⟨base + t.next_event_timestamp, i, t.current_position, r.event.dtime,
            r.event.status⟩ :: es)

/-- The events of track `i` on their own, each with its absolute tick: `midi_track_next` run
on the track `t` again and again until `midi_track_over`, as the scheduler runs it but with
no other track in between.  `base` is the sum of the delta-times of the events already
decoded; the tick of an event is `base` plus the delta-time `dtime` decoded for it, that is
the sum of the delta-times of the track up to and including it, taken in the naturals.
Running out of fuel stands for a track that is never over. -/
def track_events (data : List Nat) (i : Nat) : Nat → midi_track → Nat → Run (List fired_event)
  | 0, _, _ => Run.diverges
  | fuel + 1, t, base =>
    if midi_track_over t then Run.ret []
    else
      (midi_track_next t ⟨data, 0⟩ midi_event_zero).bind fun r =>
        (track_events data i fuel r.track (base + r.event.dtime)).bind fun es =>
          Run.ret (⟨base + r.event.dtime, i, t.current_position, r.event.dtime,
            r.event.status⟩ :: es)

/-- The lookahead of the track `t` is in step with the bytes `data`: unless the track is
over, `next_event_timestamp` is the quantity `midi_value_read` decodes at the cursor. -/
def lookahead_ok (data : List Nat) (t : midi_track) : Prop :=
  midi_track_over t = false →
    ∃ m, midi_value_read ⟨data, t.current_position⟩ = Run.ret (t.next_event_timestamp, m)

/-- Track `a` of the scheduler stands where the events `es` of track `i` remain: it
agrees, next-event tick apart, with a track `t` from which the track decoded alone yields
`es`, and its next-event tick is the absolute tick of the first of them. -/
def track_matches (data : List Nat) (i : Nat) (a : midi_track) (es : List fired_event) : Prop :=
  ∃ t base fuel, track_core a = track_core t ∧ track_schedule data i fuel t base = Run.ret es ∧
    (midi_track_over t = false → a.next_event_timestamp = base + t.next_event_timestamp)

/-- The invariant of the scheduler between two calls: `rem i` are the events track `i`
has not yet produced, and no live track is due before the time the next call moves to. -/
structure sched_inv (data : List Nat) (n : Nat) (p : midi_parser_t) (midi : FILE)
    (rem : Nat → List fired_event) : Prop where
  eof : p.end_of_file = 0
  count_eq : p.track_count = n
  count_le : n ≤ p.tracks.length
  small : n ≤ 16
  tpq : p.ticks_per_quarter ≠ 0
  data_eq : midi.data = data
  tracks : ∀ i < n, track_matches data i (p.tracks.getD i midi_track_zero) (rem i)
  ticks : ∀ i < n, ∀ e ∈ rem i, e.tick < U32
  ahead : ∀ i < n, midi_track_over (p.tracks.getD i midi_track_zero) = false →
    (p.timestamp + p.dtime) % U32 ≤ (p.tracks.getD i midi_track_zero).next_event_timestamp

/-- Order of the merge: by tick, then by track index. -/
def fired_le (a b : fired_event) : Prop :=
  a.tick < b.tick ∨ (a.tick = b.tick ∧ a.track ≤ b.track)

/-- The list `tr` merges the lists `rem i` of the tracks below `n`: filtered by track it
gives each of them back, and it is sorted by `fired_le`. -/
def merges (n : Nat) (rem : Nat → List fired_event) (tr : List fired_event) : Prop :=
  (∀ i < n, tr.filter (fun e => e.track = i) = rem i) ∧ (∀ e ∈ tr, e.track < n) ∧
    tr.Pairwise fired_le

/-- The parser `midi_parser_new` returns for `tie_file`. -/
def tie_opened : midi_parser_t := { tie_waiting with dtime := 0 }

/-- The events of the two tracks of `tie_file`, with their absolute ticks. -/
def tie_events (i : Nat) : List fired_event :=
  if i = 0 then [⟨100, 0, 22, 100, 0x90⟩, ⟨110, 0, 26, 10, 0xFF⟩]
  else if i = 1 then [⟨100, 1, 38, 100, 0x90⟩, ⟨100, 1, 42, 0, 0xFF⟩]
  else []

/-- Parser memory as a caller may hand it to `midi_parser_new`: `end_of_file` clear, but
`us_per_tick`, the timestamp and the pending wait holding leftovers. -/
def used_memory : midi_parser_t :=
  { midi_parser_zero with us_per_tick := 7, timestamp := 55, dtime := 9, track_count := 3 }

/-- Parser memory as a caller may hand it to `midi_parser_new`: all zero but for
`end_of_file`, which `midi_parser_new` does not assign. -/
def stale_memory : midi_parser_t := { midi_parser_zero with end_of_file := 1 }

/-! ## Inputs and notions for the decoder, the track index and the reachable states -/

/-- A text meta event as `midi_event_meta_new` finds it after the status byte: type
`MetaText`, declared length 200 (the two length bytes `0x81 0x48`), then the 200 payload
bytes 1, 2, ..., 200 and one byte more. -/
def long_text_meta : List Nat := [0x01, 0x81, 0x48] ++ (List.range 200).map (fun i => i + 1) ++ [0x99]

/-- A sysex event at delta-time 0 with declared length 130 (length bytes `0x81 0x02`),
the payload bytes 1, 2, ..., 130, and one byte more. -/
def long_sysex : List Nat := [0x00, 0xF0, 0x81, 0x02] ++ (List.range 130).map (fun i => i + 1) ++ [0x99]

/-- Format 0, one track whose first event, after the delta-time 0, starts with the data
byte 60 (no status byte, and no running status at the start of a track); then
`[delta 0, MetaEndOfTrack]`. -/
def bad_status_file : List Nat :=
  [0x4D, 0x54, 0x68, 0x64, 0, 0, 0, 6, 0, 0, 0, 1, 0x01, 0xE0,
   0x4D, 0x54, 0x72, 0x6B, 0, 0, 0, 7,
   0x00, 60, 64,
   0x00, 0xFF, 0x2F, 0x00]

/-- A valid header (format 0, one track, division 480) followed by a chunk tagged `MTrx`
instead of `MTrk`. -/
def bad_chunk_file : List Nat :=
  [0x4D, 0x54, 0x68, 0x64, 0, 0, 0, 6, 0, 0, 0, 1, 0x01, 0xE0,
   0x4D, 0x54, 0x72, 0x78, 0, 0, 0, 4,
   0x00, 0xFF, 0x2F, 0x00]

/-- The bytes `data` hold at offset `pos` a tempo event: a delta-time, the status byte
`0xFF`, the meta type `0x51`, a length, and then the three bytes `b0`, `b1`, `b2`. -/
def tempo_event_at (data : List Nat) (pos b0 b1 b2 : Nat) : Prop :=
  ∃ d m1 L m2, midi_value_read ⟨data, pos⟩ = Run.ret (d, m1) ∧
    data[m1.pos]? = some 0xFF ∧ data[m1.pos + 1]? = some 0x51 ∧
    midi_value_read ⟨data, m1.pos + 2⟩ = Run.ret (L, m2) ∧
    data[m2.pos]? = some b0 ∧ data[m2.pos + 1]? = some b1 ∧ data[m2.pos + 2]? = some b2 ∧
    b0 < 256 ∧ b1 < 256 ∧ b2 < 256

/-- Format 0, one track, 480 ticks per quarter note; the track holds
`[delta 0, MetaSetTempo 07 A1 20] [delta 0, MetaEndOfTrack]`, the tempo being 500000. -/
def tempo_file : List Nat :=
  [0x4D, 0x54, 0x68, 0x64, 0, 0, 0, 6, 0, 0, 0, 1, 0x01, 0xE0,
   0x4D, 0x54, 0x72, 0x6B, 0, 0, 0, 11,
   0x00, 0xFF, 0x51, 0x03, 0x07, 0xA1, 0x20,
   0x00, 0xFF, 0x2F, 0x00]

/-- The parser `midi_parser_new` returns for `tempo_file`. -/
def tempo_opened : midi_parser_t :=
  { format := 0, track_count := 1, time_division := 480, active_track_count := 1,
    ticks_per_quarter := 480, us_per_tick := 0, timestamp := 0, dtime := 0, end_of_file := 0,
    tracks := ⟨14, 22, 11, 500000, 0, 0, 0⟩ :: List.replicate 15 midi_track_zero }

/-- The four bytes of the big-endian 32 bit encoding of `n`. -/
def be32_bytes (n : Nat) : List Nat :=
  [n / 16777216 % 256, n / 65536 % 256, n / 256 % 256, n % 256]

/-- A track chunk holding the bytes `c`: the tag `MTrk`, the length of `c` as a big-endian
32 bit number, then `c`. -/
def chunk_bytes (c : List Nat) : List Nat := MTrk ++ be32_bytes c.length ++ c

/-- Offset of the chunk of index `n` in a file made of a 14 byte header followed by the
chunks `chunks`: 14 plus, for every earlier chunk, 8 plus its length. -/
def chunk_start (chunks : List (List Nat)) (n : Nat) : Nat :=
  MIDI_HEADER_SIZE + ((chunks.take n).map (fun c => MIDI_TRACK_HEADER_SIZE + c.length)).sum

/-- A state the calls of `midi_parser_next` can reach on a well-formed file: either the
invariant of the scheduler holds, or the end of the file has been flagged and every track
is over. -/
def reach_ok (data : List Nat) (n : Nat) (r : parser_result) : Prop :=
  (∃ rem, sched_inv data n r.parser r.midi rem) ∨
    (r.parser.end_of_file ≠ 0 ∧ r.parser.track_count = n ∧
      ∀ u ∈ r.parser.tracks.take n, midi_track_over u = true)

/-- What a call leaves when some track is unfinished: `dtime` is the fold of the waits of
the unfinished tracks, none of which is due before the timestamp. -/
def wait_ok (n : Nat) (r : parser_result) : Prop :=
  (∃ u ∈ r.parser.tracks.take n, midi_track_over u = false) →
    r.parser.dtime = min_wait r.parser.timestamp (r.parser.tracks.take n) 0xFFFFFFFF ∧
      ∀ u ∈ r.parser.tracks.take n, midi_track_over u = false →
        r.parser.timestamp ≤ u.next_event_timestamp ∧ u.next_event_timestamp < U32

/-- Some byte at or after the read position, before the end of the source, has its top bit
clear (a byte being read modulo 256). -/
def clear_byte_ahead (f : FILE) : Bool :=
  (f.data.drop f.pos).any fun b => decide (b % 256 < 128)

/-- Format 0, one track, 480 ticks per quarter note; the track holds the single event
`[delta 100, NoteOn ch0 note 60 vel 64]`, has no `MetaEndOfTrack`, and ends where the file
ends. -/
def unterminated_file : List Nat :=
  [0x4D, 0x54, 0x68, 0x64, 0, 0, 0, 6, 0, 0, 0, 1, 0x01, 0xE0,
   0x4D, 0x54, 0x72, 0x6B, 0, 0, 0, 4,
   0x64, 0x90, 60, 64]

/-- Format 0, one track, time division 0; the track holds
`[delta 0, MetaSetTempo 07 A1 20] [delta 0, MetaEndOfTrack]`. -/
def zero_division_file : List Nat :=
  [0x4D, 0x54, 0x68, 0x64, 0, 0, 0, 6, 0, 0, 0, 1, 0x00, 0x00,
   0x4D, 0x54, 0x72, 0x6B, 0, 0, 0, 11,
   0x00, 0xFF, 0x51, 0x03, 0x07, 0xA1, 0x20,
   0x00, 0xFF, 0x2F, 0x00]

/-! ## Verification -/

/-! ### Bytes and the stream -/

theorem bind_ret {α β : Type} (a : α) (f : α → Run β) : (Run.ret a).bind f = f a := rfl

theorem u8_natCast (n : Nat) : u8 ((n : Nat) : Int) = n % 256 := by
  unfold u8; omega

set_option maxRecDepth 100000 in
theorem byte_top_bit : ∀ x, x < 256 → ((x &&& 0x80 ≠ 0) ↔ 128 ≤ x) := by decide

theorem byte_low_bits (x : Nat) : x &&& 0x7F = x % 128 :=
  Nat.and_pow_two_sub_one_eq_mod x 7

theorem getc_at (pre post : List Nat) (b : Nat) :
    getc ⟨pre ++ b :: post, pre.length⟩ = (((b % 256 : Nat) : Int), ⟨pre ++ b :: post, pre.length + 1⟩) := by
  have h : (pre ++ b :: post)[pre.length]? = some b := by
    rw [List.getElem?_append_right (Nat.le_refl _)]; simp
  simp only [getc, h]

theorem getc_eof (f : FILE) (h : f.data.length ≤ f.pos) : getc f = (-1, f) := by
  simp [getc, List.getElem?_eq_none h]

theorem vlq_step_value (v b : Nat) (hv : v < 2 ^ 25) :
    ((v <<< 7) % U32) ||| (b % 256 &&& 0x7F) = v * 128 + b % 256 % 128 := by
  rw [byte_low_bits, Nat.shiftLeft_eq]
  have h1 : v * 2 ^ 7 % U32 = 2 ^ 7 * v := by
    unfold U32; rw [Nat.mod_eq_of_lt (by omega)]; ring
  rw [h1, ← Nat.mul_add_lt_is_or (Nat.mod_lt _ (by decide))]
  ring

theorem foldl_vlq_mono (cs : List Nat) : ∀ v, v ≤ cs.foldl (fun a c => a * 128 + c % 128) v := by
  induction cs with
  | nil => intro v; simp
  | cons c cs ih =>
    intro v
    simp only [List.foldl_cons]
    exact le_trans (by omega) (ih _)

theorem read_loop_spec (cs : List Nat) : ∀ (pre post : List Nat) (d v fuel : Nat),
    (∀ c ∈ cs, 128 ≤ c ∧ c < 256) → d < 128 → cs.length < fuel →
    cs.foldl (fun a c => a * 128 + c % 128) v < 2 ^ 25 →
    midi_value_read_loop fuel ⟨pre ++ cs ++ d :: post, pre.length⟩ v =
      Run.ret (cs.foldl (fun a c => a * 128 + c % 128) v * 128 + d,
        ⟨pre ++ cs ++ d :: post, pre.length + cs.length + 1⟩) := by
  induction cs with
  | nil =>
    intro pre post d v fuel _ hd hf hv
    obtain ⟨fuel, rfl⟩ : ∃ k, fuel = k + 1 := ⟨fuel - 1, by simp at hf; omega⟩
    simp only [List.foldl_nil] at hv
    have hd256 : d % 256 = d := Nat.mod_eq_of_lt (by omega)
    have htop : ¬ (d &&& 0x80 ≠ 0) := by
      rw [byte_top_bit d (by omega)]; omega
    simp only [midi_value_read_loop, List.append_nil, getc_at, u8_natCast, hd256]
    rw [if_neg htop]
    have := vlq_step_value v d hv
    rw [hd256, Nat.mod_eq_of_lt hd] at this
    simp [this]
  | cons c cs ih =>
    intro pre post d v fuel hcs hd hf hv
    obtain ⟨fuel, rfl⟩ : ∃ k, fuel = k + 1 := ⟨fuel - 1, by simp at hf; omega⟩
    have hc := hcs c (by simp)
    have hc256 : c % 256 = c := Nat.mod_eq_of_lt hc.2
    have htop : (c &&& 0x80 ≠ 0) := by
      rw [byte_top_bit c hc.2]; exact hc.1
    simp only [List.foldl_cons] at hv ⊢
    have hv0 : v < 2 ^ 25 := lt_of_le_of_lt (le_trans (by omega) (foldl_vlq_mono cs _)) hv
    have e1 : pre ++ c :: cs ++ d :: post = pre ++ c :: (cs ++ d :: post) := by simp
    have e2 : pre ++ c :: (cs ++ d :: post) = (pre ++ [c]) ++ cs ++ d :: post := by simp
    rw [e1]
    simp only [midi_value_read_loop, getc_at, u8_natCast, hc256]
    rw [if_pos htop]
    have := vlq_step_value v c hv0
    rw [hc256] at this
    rw [this, e2]
    have := ih (pre ++ [c]) post d (v * 128 + c % 128) fuel
      (fun x hx => hcs x (by simp [hx])) hd (by simp at hf; omega) hv
    simp only [List.length_append, List.length_singleton] at this
    rw [this]
    simp [Nat.add_assoc, Nat.add_comm 1]

theorem getc_some (f : FILE) (b : Nat) (h : f.data[f.pos]? = some b) :
    getc f = (((b % 256 : Nat) : Int), { f with pos := f.pos + 1 }) := by
  simp only [getc, h]

theorem u8_eof : u8 (-1) = 255 := by decide

theorem read_loop_eof (f : FILE) (h : f.data.length ≤ f.pos) :
    ∀ fuel v, midi_value_read_loop fuel f v = Run.diverges := by
  intro fuel
  induction fuel with
  | zero => intro v; rfl
  | succ k ih =>
    intro v
    simp only [midi_value_read_loop, getc_eof f h, u8_eof]
    rw [if_pos (by decide)]
    exact ih _

theorem peek_loop_eof (f : FILE) (h : f.data.length ≤ f.pos) :
    ∀ fuel v c, midi_value_peek_loop fuel f v c = Run.diverges := by
  intro fuel
  induction fuel with
  | zero => intro v c; rfl
  | succ k ih =>
    intro v c
    simp only [midi_value_peek_loop, getc_eof f h, u8_eof]
    rw [if_pos (by decide)]
    exact ih _ _

theorem getc_cases (f : FILE) :
    (f.data.length ≤ f.pos) ∨ ∃ b, f.data[f.pos]? = some b := by
  by_cases h : f.pos < f.data.length
  · exact Or.inr ⟨_, List.getElem?_eq_getElem h⟩
  · exact Or.inl (by omega)

theorem read_loop_pos : ∀ (fuel : Nat) (f : FILE) (v : Nat) (r : Nat × FILE),
    midi_value_read_loop fuel f v = Run.ret r → f.pos < r.2.pos ∧ r.2.data = f.data := by
  intro fuel
  induction fuel with
  | zero => intro f v r h; simp [midi_value_read_loop] at h
  | succ k ih =>
    intro f v r h
    rcases getc_cases f with he | ⟨b, hb⟩
    · rw [read_loop_eof f he] at h; cases h
    · simp only [midi_value_read_loop, getc_some f b hb] at h
      split at h
      · have := ih _ _ _ h
        simp only at this
        exact ⟨by omega, this.2⟩
      · cases h
        simp

theorem peek_loop_eq : ∀ (fuel : Nat) (f : FILE) (v c : Nat),
    midi_value_peek_loop fuel f v c =
      (midi_value_read_loop fuel f v).bind fun r =>
        Run.ret (r.1, (c + (r.2.pos - f.pos)) % 256, r.2) := by
  intro fuel
  induction fuel with
  | zero => intro f v c; rfl
  | succ k ih =>
    intro f v c
    rcases getc_cases f with he | ⟨b, hb⟩
    · rw [read_loop_eof f he, peek_loop_eof f he]; rfl
    · simp only [midi_value_read_loop, midi_value_peek_loop, getc_some f b hb]
      split
      · rw [ih]
        cases hr : midi_value_read_loop k { data := f.data, pos := f.pos + 1 }
            (v <<< 7 % U32 ||| u8 ↑(b % 256) &&& 127) with
        | ret r =>
          have := (read_loop_pos _ _ _ _ hr).1
          simp only at this
          simp only [Run.bind]
          have e : ((c + 1) % 256 + (r.2.pos - (f.pos + 1))) % 256
              = (c + (r.2.pos - f.pos)) % 256 := by omega
          rw [e]
        | diverges => rfl
        | aborts => rfl
        | undefined => rfl
      · simp only [Run.bind]
        have e : f.pos + 1 - f.pos = 1 := by omega
        rw [e]

/-! ### The variable-length encoding of the specification -/

theorem vlq_high_bytes (m : Nat) : ∀ c ∈ vlq_high m, 128 ≤ c ∧ c < 256 := by
  induction m using Nat.strong_induction_on with
  | _ m ih =>
    intro c hc
    cases m with
    | zero => simp [vlq_high] at hc
    | succ k =>
      rw [vlq_high] at hc
      simp only [List.mem_append, List.mem_singleton] at hc
      rcases hc with hc | hc
      · exact ih ((k + 1) / 128) (by omega) c hc
      · omega

theorem vlq_high_value (m : Nat) : (vlq_high m).foldl (fun a c => a * 128 + c % 128) 0 = m := by
  induction m using Nat.strong_induction_on with
  | _ m ih =>
    cases m with
    | zero => simp [vlq_high]
    | succ k =>
      rw [vlq_high, List.foldl_append, ih ((k + 1) / 128) (by omega)]
      simp only [List.foldl_cons, List.foldl_nil]
      omega

theorem vlq_high_length (m : Nat) : (vlq_high m).length ≤ m := by
  induction m using Nat.strong_induction_on with
  | _ m ih =>
    cases m with
    | zero => simp [vlq_high]
    | succ k =>
      rw [vlq_high]
      have := ih ((k + 1) / 128) (by omega)
      simp only [List.length_append, List.length_singleton]
      omega

theorem value_read_vlq_encode (n : Nat) (hn : n < 2 ^ 32) (pre post : List Nat) :
    midi_value_read ⟨pre ++ vlq_encode n ++ post, pre.length⟩ =
      Run.ret (n, ⟨pre ++ vlq_encode n ++ post, pre.length + (vlq_encode n).length⟩) := by
  unfold midi_value_read vlq_encode
  have e : pre ++ (vlq_high (n / 128) ++ [n % 128]) ++ post
      = pre ++ vlq_high (n / 128) ++ (n % 128) :: post := by simp
  rw [e, read_loop_spec (vlq_high (n / 128)) pre post (n % 128) 0 _ (vlq_high_bytes _)
    (Nat.mod_lt _ (by decide)) _ (by rw [vlq_high_value]; omega)]
  · rw [vlq_high_value]
    simp only [List.length_append, List.length_singleton]
    congr 2
    · omega
  · simp [loop_fuel]
    omega

/-- The encoding of 0 is a single zero byte, and the encodings of 127, 128 and 2^28 - 1 are
those of the MIDI standard. -/
theorem vlq_encode_examples :
    vlq_encode 0 = [0] ∧ vlq_encode 0x7F = [0x7F] ∧ vlq_encode 0x80 = [0x81, 0x00] ∧
      vlq_encode 0x0FFFFFFF = [0xFF, 0xFF, 0xFF, 0x7F] := by
  simp [vlq_encode, vlq_high]

/-- C6: for every `n` in `[0, 2^28 - 1]`, `midi_value_read` on a source positioned at the
start of the standard variable-length encoding of `n` (whatever bytes come before and
after it) returns `n` and leaves the read position advanced by exactly the length of the
encoding. -/
theorem vlq_round_trip (n : Nat) (hn : n < 2 ^ 28) (pre post : List Nat) :
    midi_value_read ⟨pre ++ vlq_encode n ++ post, pre.length⟩ =
      Run.ret (n, ⟨pre ++ vlq_encode n ++ post, pre.length + (vlq_encode n).length⟩) :=
  value_read_vlq_encode n (by omega) pre post

/-- Witness of C6 at `n` = 300, encoded between a leading and a trailing byte. -/
theorem vlq_round_trip_witness :
    300 < 2 ^ 28 ∧
      midi_value_read ⟨[0xFF] ++ vlq_encode 300 ++ [0x55], [0xFF].length⟩ =
        Run.ret (300, ⟨[0xFF] ++ vlq_encode 300 ++ [0x55],
          [0xFF].length + (vlq_encode 300).length⟩) :=
  ⟨by decide, vlq_round_trip 300 (by decide) [0xFF] [0x55]⟩

/-! ### Peek -/

/-- C7, amended: whenever `midi_value_read` returns from a position, having consumed at
most 255 bytes, `midi_value_peek` from that position returns the same value and leaves the
stream exactly as it was, position included. -/
theorem value_peek_restores (f : FILE) (v : Nat) (f' : FILE)
    (hread : midi_value_read f = Run.ret (v, f')) (hlen : f'.pos - f.pos ≤ 255) :
    midi_value_peek f = Run.ret (v, f) := by
  unfold midi_value_read at hread
  have hp := read_loop_pos _ _ _ _ hread
  simp only at hp
  unfold midi_value_peek
  rw [peek_loop_eq, hread]
  simp only [Run.bind, Nat.zero_add]
  have e : (f'.pos - f.pos) % 256 = f'.pos - f.pos := Nat.mod_eq_of_lt (by omega)
  rw [e]
  unfold fseek_cur
  have h0 : (0 : Int) ≤ (f'.pos : Int) + -1 * ((f'.pos - f.pos : Nat) : Int) := by omega
  rw [if_pos h0]
  have h1 : ((f'.pos : Int) + -1 * ((f'.pos - f.pos : Nat) : Int)).toNat = f.pos := by omega
  rw [h1]
  cases f; cases f'
  simp_all

/-- Witness of the amended C7: a two byte quantity followed by another byte. -/
theorem value_peek_restores_witness :
    midi_value_read ⟨[0x81, 0x00, 0x55], 0⟩ = Run.ret (128, ⟨[0x81, 0x00, 0x55], 2⟩) ∧
      (⟨[0x81, 0x00, 0x55], 2⟩ : FILE).pos - (⟨[0x81, 0x00, 0x55], 0⟩ : FILE).pos ≤ 255 ∧
      midi_value_peek ⟨[0x81, 0x00, 0x55], 0⟩ = Run.ret (128, ⟨[0x81, 0x00, 0x55], 0⟩) :=
  ⟨by decide, by decide,
    value_peek_restores ⟨[0x81, 0x00, 0x55], 0⟩ 128 ⟨[0x81, 0x00, 0x55], 2⟩ (by decide)
      (by decide)⟩

set_option maxRecDepth 1000000 in
/-- C7 fails as stated: on a quantity encoded in 256 bytes, which ends inside the source,
`midi_value_read` and `midi_value_peek` return the same value, but the 8 bit `count` of
`midi_value_peek` has wrapped to 0 and the read position is left at 256, not back at 0. -/
theorem value_peek_long_moves :
    midi_value_read ⟨long_vlq, 0⟩ = Run.ret (0, ⟨long_vlq, 256⟩) ∧
      midi_value_peek ⟨long_vlq, 0⟩ = Run.ret (0, ⟨long_vlq, 256⟩) ∧
      ¬ (midi_value_peek ⟨long_vlq, 0⟩ = Run.ret (0, ⟨long_vlq, 0⟩)) := by
  refine ⟨by decide, by decide, by decide⟩

/-! ### Header -/

theorem and_shift8 (a b : Nat) : (a <<< 8) &&& (b <<< 8) = (a &&& b) <<< 8 := by
  apply Nat.eq_of_testBit_eq
  intro i
  simp only [Nat.testBit_and, Nat.testBit_shiftLeft]
  cases decide (i ≥ 8) <;> simp

theorem reverse16_le_load (x y : Nat) (hx : x < 256) (hy : y < 256) :
    reverse16 (le_load [x, y]) = x * 256 + y := by
  have h0 : le_load [x, y] = x + 256 * y := by simp [le_load]
  have h1 : (x + 256 * y) >>> 8 = y := by
    rw [Nat.shiftRight_eq_div_pow]; omega
  have h2 : y &&& 0x00FF = y := by
    have := Nat.and_pow_two_sub_one_eq_mod y 8
    simp only [Nat.reducePow, Nat.add_one_sub_one] at this
    rw [this]; omega
  have h3 : ((x + 256 * y) <<< 8) &&& 0xFF00 = 2 ^ 8 * x := by
    have e : (0xFF00 : Nat) = 0xFF <<< 8 := by decide
    rw [e, and_shift8]
    have := Nat.and_pow_two_sub_one_eq_mod (x + 256 * y) 8
    simp only [Nat.reducePow, Nat.add_one_sub_one] at this
    rw [this, Nat.shiftLeft_eq]
    omega
  unfold reverse16
  rw [h0, h1, h2, h3, ← Nat.mul_add_lt_is_or (by omega)]
  omega

theorem drop_take_two (data : List Nat) : ∀ p, p + 2 ≤ data.length →
    (data.drop p).take 2 = [data.getD p 0, data.getD (p + 1) 0] := by
  induction data with
  | nil => intro p h; simp at h
  | cons a rest ih =>
    intro p h
    cases p with
    | zero =>
      cases rest with
      | nil => simp at h
      | cons b rest => simp
    | succ p =>
      have := ih p (by simp at h; omega)
      simpa using this

theorem fread_inside (data : List Nat) (p n : Nat) (h : p + n ≤ data.length) :
    fread ⟨data, p⟩ n = (((data.drop p).take n).map (fun b => b % 256), ⟨data, p + n⟩) := by
  have : min n (data.length - p) = n := by omega
  simp [fread, this]

/-- C8: on a source of at least 14 bytes read from its start, `midi_header_new` returns
`NULL` with `MIDI_InvalidHeaderChunk` exactly when the first four bytes are not
`M`, `T`, `h`, `d`; otherwise it succeeds with `format`, `track_count` and
`time_division` the big-endian 16 bit values at offsets 8, 10 and 12, whatever bytes 4 to
7 hold, and leaves the read position at offset 14. -/
theorem midi_header_new_spec (data : List Nat) (h : 14 ≤ data.length) :
    midi_header_new ⟨data, 0⟩ =
      if (data.take 4).map (fun b => b % 256) = MThd then
        Run.ret ⟨some ⟨be16 data 8, be16 data 10, be16 data 12⟩, MIDI_Success, ⟨data, 14⟩⟩
      else Run.ret ⟨none, MIDI_InvalidHeaderChunk, ⟨data, 4⟩⟩ := by
  have l4 : min 4 data.length = 4 := by omega
  unfold midi_header_new
  rw [fread_inside data 0 4 (by omega)]
  simp only [List.drop_zero, List.length_map, List.length_take, l4, Nat.lt_irrefl, if_false,
    Nat.zero_add]
  rw [fread_inside data 4 4 (by omega)]
  simp only [Nat.reduceAdd]
  rw [fread_inside data 8 2 (by omega)]
  simp only [Nat.reduceAdd]
  rw [fread_inside data 10 2 (by omega)]
  simp only [Nat.reduceAdd]
  rw [fread_inside data 12 2 (by omega)]
  simp only [Nat.reduceAdd, drop_take_two data 8 (by omega), drop_take_two data 10 (by omega),
    drop_take_two data 12 (by omega), List.map_cons, List.map_nil, List.length_cons,
    List.length_nil, overlay, List.drop_succ_cons, List.drop_nil, List.append_nil,
    Nat.lt_irrefl, if_false]
  have e1 : ∀ x y, le_load [x, y] = x + 256 * y := by intro x y; simp [le_load]
  have r := fun x y => reverse16_le_load (x % 256) (y % 256) (Nat.mod_lt _ (by decide))
    (Nat.mod_lt _ (by decide))
  simp only [r, be16, ne_eq, ite_not]

/-- Witness of C8 on the scenario file: format 0, one track, division 480. -/
theorem midi_header_new_spec_witness :
    14 ≤ scenario_file.length ∧
      midi_header_new ⟨scenario_file, 0⟩ =
        Run.ret ⟨some ⟨0, 1, 480⟩, MIDI_Success, ⟨scenario_file, 14⟩⟩ :=
  ⟨by decide, (midi_header_new_spec scenario_file (by decide)).trans (by decide)⟩

/-! ### Running status -/

set_option maxRecDepth 100000 in
theorem channel_status_type : ∀ s, s < 0xF0 → 0x80 ≤ s →
    (s &&& 0xF0 = 0x80 ∨ s &&& 0xF0 = 0x90 ∨ s &&& 0xF0 = 0xA0 ∨ s &&& 0xF0 = 0xB0
      ∨ s &&& 0xF0 = 0xE0) ∨ (s &&& 0xF0 = 0xC0 ∨ s &&& 0xF0 = 0xD0) := by
  decide

theorem fread_head (f : FILE) (d n : Nat) (h : f.data[f.pos]? = some d)
    (hn : f.pos + (n + 1) ≤ f.data.length) :
    ∃ tl, fread f (n + 1) = ((d % 256) :: tl, { f with pos := f.pos + (n + 1) })
      ∧ tl.length = n := by
  obtain ⟨data, pos⟩ := f
  simp only at h hn
  have hlt : pos < data.length := by omega
  have hd : data.drop pos = d :: data.drop (pos + 1) := by
    rw [List.getElem?_eq_getElem hlt] at h
    cases h
    exact List.drop_eq_getElem_cons hlt
  refine ⟨((data.drop (pos + 1)).take n).map (fun b => b % 256), ?_, ?_⟩
  · rw [fread_inside data pos (n + 1) hn, hd]
    simp
  · simp; omega

/-- C10: with a channel status byte `s` in `0x80..0xEF` held as running status, on an
event whose delta-time ends at `f1` and whose next byte `d` is a data byte (below `0x80`),
the payload bytes lying inside the source, `midi_event_new` succeeds with an event of
status `s` (type and channel those of `s`) whose first payload byte is `d`; the read
position ends right after the 1 or 2 payload bytes counted from the end of the delta-time,
so no status byte is consumed, and the running status is still `s`. -/
theorem running_status_decode (s : Nat) (hs : 0x80 ≤ s) (hs' : s ≤ 0xEF) (self : midi_event)
    (f f1 : FILE) (dt d : Nat) (hread : midi_value_read f = Run.ret (dt, f1))
    (hd : f1.data[f1.pos]? = some d) (hd' : d % 256 < 0x80)
    (hpay : f1.pos + channel_payload_size s ≤ f1.data.length) :
    ∃ ev, midi_event_new self f s =
        Run.ret ⟨ev, true, MIDI_Success, ⟨f1.data, f1.pos + channel_payload_size s⟩, s⟩ ∧
      ev.status = s ∧ midi_event_type ev = s &&& 0xF0 ∧ midi_event_channel ev = s &&& 0x0F ∧
      ev.dtime = dt ∧ ev.size = channel_payload_size s ∧
      ev.midi_data.head? = some (d % 256) := by
  have hrew : u8 ((d % 256 : Nat) : Int) < 0x80 := by
    rw [u8_natCast]; omega
  have hs80 : ¬ s < 0x80 := by omega
  have hseek : fseek_cur { f1 with pos := f1.pos + 1 } (-1) = f1 := by
    unfold fseek_cur
    have h0 : (0 : Int) ≤ ((f1.pos + 1 : Nat) : Int) + -1 := by omega
    have h1 : (((f1.pos + 1 : Nat) : Int) + -1).toNat = f1.pos := by omega
    simp only [h0, if_true, h1]
  unfold midi_event_new
  rw [hread]
  simp only [Run.bind, getc_some f1 d hd, hrew, decide_True, if_true, hseek]
  rcases channel_status_type s (by omega) hs with h2 | h1
  · have hsz : channel_payload_size s = 2 := by
      unfold channel_payload_size EventProgramChange EventChannelPressure
      rcases h2 with h | h | h | h | h <;> simp [h]
    rw [hsz] at hpay ⊢
    obtain ⟨tl, hfr, _⟩ := fread_head f1 d 1 hd hpay
    have hcond : s &&& 0xF0 = EventNoteOff ∨ s &&& 0xF0 = EventNoteOn ∨
        s &&& 0xF0 = EventKeyPressure ∨ s &&& 0xF0 = EventControllerChange ∨
        s &&& 0xF0 = EventPitchBend := h2
    have hcond' : s &&& 0xF0 = EventNoteOff ∨ s &&& 0xF0 = EventNoteOn ∨
        s &&& 0xF0 = EventKeyPressure ∨ s &&& 0xF0 = EventControllerChange ∨
        s &&& 0xF0 = EventPitchBend ∨ s &&& 0xF0 = EventProgramChange ∨
        s &&& 0xF0 = EventChannelPressure := by
      rcases h2 with h | h | h | h | h <;> simp [h, EventNoteOff, EventNoteOn,
        EventKeyPressure, EventControllerChange, EventPitchBend, EventProgramChange,
        EventChannelPressure]
    simp only [if_pos hcond', midi_event_midi_new, if_pos hcond, hfr]
    refine ⟨_, rfl, ?_⟩
    simp [midi_event_type, midi_event_channel, overlay]
  · have hsz : channel_payload_size s = 1 := by
      unfold channel_payload_size EventProgramChange EventChannelPressure
      rcases h1 with h | h <;> simp [h]
    rw [hsz] at hpay ⊢
    obtain ⟨tl, hfr, _⟩ := fread_head f1 d 0 hd hpay
    have hcond : s &&& 0xF0 = EventProgramChange ∨ s &&& 0xF0 = EventChannelPressure := h1
    have hncond : ¬ (s &&& 0xF0 = EventNoteOff ∨ s &&& 0xF0 = EventNoteOn ∨
        s &&& 0xF0 = EventKeyPressure ∨ s &&& 0xF0 = EventControllerChange ∨
        s &&& 0xF0 = EventPitchBend) := by
      rcases h1 with h | h <;> simp [h, EventNoteOff, EventNoteOn,
        EventKeyPressure, EventControllerChange, EventPitchBend]
    have hcond' : s &&& 0xF0 = EventNoteOff ∨ s &&& 0xF0 = EventNoteOn ∨
        s &&& 0xF0 = EventKeyPressure ∨ s &&& 0xF0 = EventControllerChange ∨
        s &&& 0xF0 = EventPitchBend ∨ s &&& 0xF0 = EventProgramChange ∨
        s &&& 0xF0 = EventChannelPressure := by
      rcases h1 with h | h <;> simp [h, EventNoteOff, EventNoteOn,
        EventKeyPressure, EventControllerChange, EventPitchBend, EventProgramChange,
        EventChannelPressure]
    simp only [if_pos hcond', midi_event_midi_new, if_neg hncond, if_pos hcond, hfr]
    refine ⟨_, rfl, ?_⟩
    simp [midi_event_type, midi_event_channel, overlay]

set_option maxRecDepth 100000 in
/-- Witness of C10: after NoteOn ch0 note 60 vel 64, decoded from offset 0 with no running
status, the continuation `note 62 vel 70` at offset 4 decodes under running status `0x90`
to a second NoteOn on channel 0, the stream going from offset 5 (end of the delta-time) to
offset 7: two payload bytes and no status byte. -/
theorem running_status_decode_witness :
    (∃ ev1, midi_event_new midi_event_zero ⟨running_status_bytes, 0⟩ 0 =
        Run.ret ⟨ev1, true, MIDI_Success, ⟨running_status_bytes, 4⟩, 0x90⟩ ∧
      midi_event_type ev1 = EventNoteOn ∧ midi_event_channel ev1 = 0 ∧
      ev1.midi_data = [60, 64]) ∧
    (0x80 ≤ 0x90 ∧ 0x90 ≤ 0xEF ∧
      midi_value_read ⟨running_status_bytes, 4⟩ = Run.ret (0, ⟨running_status_bytes, 5⟩) ∧
      running_status_bytes[5]? = some 62 ∧ 62 % 256 < 0x80 ∧
      5 + channel_payload_size 0x90 ≤ running_status_bytes.length) ∧
    ∃ ev2, midi_event_new midi_event_zero ⟨running_status_bytes, 4⟩ 0x90 =
        Run.ret ⟨ev2, true, MIDI_Success,
          ⟨running_status_bytes, 5 + channel_payload_size 0x90⟩, 0x90⟩ ∧
      ev2.status = 0x90 ∧ midi_event_type ev2 = 0x90 &&& 0xF0 ∧
      midi_event_channel ev2 = 0x90 &&& 0x0F ∧ ev2.dtime = 0 ∧
      ev2.size = channel_payload_size 0x90 ∧ ev2.midi_data.head? = some (62 % 256) :=
  ⟨⟨_, rfl, by decide⟩, by decide,
    running_status_decode 0x90 (by decide) (by decide) midi_event_zero
      ⟨running_status_bytes, 4⟩ ⟨running_status_bytes, 5⟩ 0 62 (by decide) (by decide)
      (by decide) (by decide)⟩

/-! ### Opening a file -/

theorem and_7FFF (x : Nat) (h : x < 0x8000) : x &&& 0x7FFF = x :=
  Nat.and_pow_two_sub_one_of_lt_two_pow (n := 15) h

/-- C9, amended: on a source of at least 14 bytes whose tag is `MThd`, read from its start,
`midi_parser_new` returns `NULL` with `MIDI_Unimplemented` when the time division has its
top bit set or the format is 2 or more; otherwise, whenever the loop that loads the declared
tracks returns, it returns a parser with `ticks_per_quarter` = `time_division`,
`track_count` the header's track count, and timestamp and `dtime` 0. -/
theorem midi_parser_new_gate (ndebug : Bool) (self : Option midi_parser_t) (data : List Nat)
    (h14 : 14 ≤ data.length) (htag : (data.take 4).map (fun b => b % 256) = MThd) :
    if 0x8000 ≤ be16 data 12 ∨ 2 ≤ be16 data 8 then
      midi_parser_new ndebug self ⟨data, 0⟩ = Run.ret ⟨none, MIDI_Unimplemented, ⟨data, 14⟩⟩
    else
      ∀ l, midi_parser_new_loop ndebug (be16 data 10) 0 (self.getD midi_parser_zero).tracks
          MIDI_Success ⟨data, 14⟩ = Run.ret l →
        ∃ p, midi_parser_new ndebug self ⟨data, 0⟩ = Run.ret ⟨some p, l.2.1, l.2.2⟩ ∧
          p.ticks_per_quarter = be16 data 12 ∧ p.track_count = be16 data 10 ∧
          p.format = be16 data 8 ∧ p.time_division = be16 data 12 ∧ p.tracks = l.1 ∧
          p.timestamp = 0 ∧ p.dtime = 0 := by
  have hh := midi_header_new_spec data h14
  rw [if_pos htag] at hh
  have h0 : (!ndebug && decide (ftell (⟨data, 0⟩ : FILE) ≠ 0)) = false := by
    simp [ftell]
  split
  · rename_i hc
    unfold midi_parser_new
    rw [h0]
    simp only [Bool.false_eq_true, if_false, hh, Run.bind]
    rw [if_pos (by simpa using hc)]
  · rename_i hc
    have htd : be16 data 12 < 0x8000 := by omega
    intro l hl
    unfold midi_parser_new
    rw [h0]
    simp only [Bool.false_eq_true, if_false, hh, Run.bind]
    rw [if_neg (by simpa using hc)]
    cases self with
    | none =>
      simp only [Option.getD] at hl
      simp only
      rw [hl]
      exact ⟨_, rfl, and_7FFF _ htd, rfl, rfl, rfl, rfl, rfl, rfl⟩
    | some s =>
      simp only [Option.getD] at hl
      simp only
      rw [hl]
      exact ⟨_, rfl, and_7FFF _ htd, rfl, rfl, rfl, rfl, rfl, rfl⟩

set_option maxRecDepth 100000 in
/-- Witness of the amended C9: the scenario file is accepted with 480 ticks per quarter
note and one track; a format 2 header and an SMPTE header are rejected. -/
theorem midi_parser_new_gate_witness :
    (14 ≤ scenario_file.length ∧ (scenario_file.take 4).map (fun b => b % 256) = MThd ∧
      ∃ p, midi_parser_new false none ⟨scenario_file, 0⟩ =
          Run.ret ⟨some p, MIDI_Success, ⟨scenario_file, 14⟩⟩ ∧
        p.ticks_per_quarter = 480 ∧ p.track_count = 1 ∧ p.format = 0) ∧
    (14 ≤ format2_header.length ∧ (format2_header.take 4).map (fun b => b % 256) = MThd ∧
      midi_parser_new false none ⟨format2_header, 0⟩ =
        Run.ret ⟨none, MIDI_Unimplemented, ⟨format2_header, 14⟩⟩) ∧
    (14 ≤ smpte_header.length ∧ (smpte_header.take 4).map (fun b => b % 256) = MThd ∧
      midi_parser_new false none ⟨smpte_header, 0⟩ =
        Run.ret ⟨none, MIDI_Unimplemented, ⟨smpte_header, 14⟩⟩) := by
  refine ⟨⟨by decide, by decide, ?_⟩, ⟨by decide, by decide, ?_⟩, ⟨by decide, by decide, ?_⟩⟩
  · have h := midi_parser_new_gate false none scenario_file (by decide) (by decide)
    rw [if_neg (by decide)] at h
    obtain ⟨p, hp, h1, h2, h3, _⟩ := h _ rfl
    exact ⟨p, hp, h1.trans (by decide), h2.trans (by decide), h3.trans (by decide)⟩
  · have h := midi_parser_new_gate false none format2_header (by decide) (by decide)
    rw [if_pos (by decide)] at h
    exact h
  · have h := midi_parser_new_gate false none smpte_header (by decide) (by decide)
    rw [if_pos (by decide)] at h
    exact h

set_option maxRecDepth 100000 in
/-- C9 fails as stated: `empty_track_file` has the tag `MThd`, format 0 and division 480,
yet `midi_parser_new` does not succeed on it.  Loading its one track peeks a delta-time at
the end of the file, where `getc` yields `EOF` for ever: the call never returns, with or
without assertions. -/
theorem midi_parser_new_diverges :
    midi_header_new ⟨empty_track_file, 0⟩ =
        Run.ret ⟨some ⟨0, 1, 480⟩, MIDI_Success, ⟨empty_track_file, 14⟩⟩ ∧
      midi_parser_new false none ⟨empty_track_file, 0⟩ = Run.diverges ∧
      midi_parser_new true none ⟨empty_track_file, 0⟩ = Run.diverges := by
  refine ⟨by decide, by decide, by decide⟩

/-! ### The scheduler loop -/

theorem bind_assoc_ret {α β γ : Type} (x : Run α) (f : α → β) (g : β → Run γ) :
    (x.bind fun a => Run.ret (f a)).bind g = x.bind fun a => g (f a) := by
  cases x <;> rfl

theorem loop_nil (ndebug : Bool) (n i : Nat) (s : next_loop) (h : ¬ i < n) :
    midi_parser_next_loop ndebug n [] i s = Run.ret ([], s) := by
  simp only [midi_parser_next_loop, h, if_false]

theorem loop_over (ndebug : Bool) (n : Nat) (t : midi_track) (rest : List midi_track) (i : Nat)
    (s : next_loop) (h : midi_track_over t = true) :
    midi_parser_next_loop ndebug n (t :: rest) i s =
      (midi_parser_next_loop ndebug n rest (i + 1) s).bind fun r => Run.ret (t :: r.1, r.2) := by
  simp only [midi_parser_next_loop, h, if_true]

theorem loop_wait (ndebug : Bool) (n : Nat) (t : midi_track) (rest : List midi_track) (i : Nat)
    (s : next_loop) (h : midi_track_over t = false)
    (hassert : ndebug = true ∨ s.self.timestamp ≤ t.next_event_timestamp)
    (hno : ¬ (s.chosen = 0 ∧ s.self.timestamp = t.next_event_timestamp)) :
    midi_parser_next_loop ndebug n (t :: rest) i s =
      (midi_parser_next_loop ndebug n rest (i + 1) (loop_passed s [t])).bind fun r =>
        Run.ret (t :: r.1, r.2) := by
  have ha : (!ndebug && decide (¬ s.self.timestamp ≤ t.next_event_timestamp)) = false := by
    rcases hassert with h1 | h1
    · simp [h1]
    · simp [h1]
  simp only [midi_parser_next_loop, h, Bool.false_eq_true, if_false, ha, hno, Run.bind,
    Bool.not_false, if_true, loop_passed, min_wait, live_fold, track_wait]

theorem loop_fire (ndebug : Bool) (n : Nat) (t : midi_track) (rest : List midi_track) (i : Nat)
    (s : next_loop) (h : midi_track_over t = false)
    (hassert : ndebug = true ∨ s.self.timestamp ≤ t.next_event_timestamp)
    (hch : s.chosen = 0) (hdue : s.self.timestamp = t.next_event_timestamp)
    (r : next_result) (hr : midi_track_next t s.midi s.event = Run.ret r)
    (q : midi_parser_t) (hq : midi_parser_update s.self r.event = Run.ret q) :
    midi_parser_next_loop ndebug n (t :: rest) i s =
      (midi_parser_next_loop ndebug n rest (i + 1) (loop_fired s i r q)).bind fun res =>
        Run.ret (fired_track r s.self.timestamp :: res.1, res.2) := by
  have ha : (!ndebug && decide (¬ s.self.timestamp ≤ t.next_event_timestamp)) = false := by
    rcases hassert with h1 | h1
    · simp [h1]
    · simp [h1]
  simp only [midi_parser_next_loop, h, Bool.false_eq_true, if_false, ha, hch, hdue, and_self,
    if_true, hr, hq, Run.bind, loop_fired, fired_track, track_wait]
  cases hov : midi_track_over r.track <;> simp

theorem loop_passed_timestamp (s : next_loop) (A : List midi_track) :
    (loop_passed s A).self.timestamp = s.self.timestamp := rfl

theorem loop_passed_chosen (s : next_loop) (A : List midi_track) :
    (loop_passed s A).chosen = s.chosen := rfl

theorem loop_passed_cons_over (s : next_loop) (t : midi_track) (A : List midi_track)
    (h : midi_track_over t = true) : loop_passed s (t :: A) = loop_passed s A := by
  simp only [loop_passed, min_wait, live_fold, h, if_true]

theorem loop_passed_cons_live (s : next_loop) (t : midi_track) (A : List midi_track)
    (h : midi_track_over t = false) :
    loop_passed s (t :: A) = loop_passed (loop_passed s [t]) A := by
  simp only [loop_passed, min_wait, live_fold, h, Bool.false_eq_true, if_false]

theorem loop_passed_nil (s : next_loop) : loop_passed s [] = s := rfl

theorem loop_passive (ndebug : Bool) (n : Nat) : ∀ (A rest : List midi_track) (i : Nat)
    (s : next_loop),
    (∀ t ∈ A, midi_track_over t = false →
      (ndebug = true ∨ s.self.timestamp ≤ t.next_event_timestamp) ∧
        ¬ (s.chosen = 0 ∧ s.self.timestamp = t.next_event_timestamp)) →
    midi_parser_next_loop ndebug n (A ++ rest) i s =
      (midi_parser_next_loop ndebug n rest (i + A.length) (loop_passed s A)).bind fun r =>
        Run.ret (A ++ r.1, r.2) := by
  intro A
  induction A with
  | nil =>
    intro rest i s _
    simp only [List.nil_append, List.length_nil, Nat.add_zero, loop_passed_nil]
    cases midi_parser_next_loop ndebug n rest i s <;> rfl
  | cons t A ih =>
    intro rest i s h
    have hA : ∀ u ∈ A, midi_track_over u = false →
        (ndebug = true ∨ s.self.timestamp ≤ u.next_event_timestamp) ∧
          ¬ (s.chosen = 0 ∧ s.self.timestamp = u.next_event_timestamp) :=
      fun u hu => h u (List.mem_cons_of_mem _ hu)
    have e : i + (t :: A).length = i + 1 + A.length := by simp; omega
    cases hov : midi_track_over t with
    | true =>
      rw [List.cons_append, loop_over ndebug n t _ i s hov, ih rest (i + 1) s hA,
        bind_assoc_ret, loop_passed_cons_over s t A hov, e]
      rfl
    | false =>
      have ht := h t (List.mem_cons_self _ _) hov
      rw [List.cons_append, loop_wait ndebug n t _ i s hov ht.1 ht.2,
        ih rest (i + 1) (loop_passed s [t]) hA, bind_assoc_ret,
        loop_passed_cons_live s t A hov, e]
      rfl

theorem midi_parser_update_eq (self : midi_parser_t) (ev : midi_event) (q : midi_parser_t)
    (h : midi_parser_update self ev = Run.ret q) : q = { self with us_per_tick := q.us_per_tick } := by
  unfold midi_parser_update at h
  split at h
  · split at h
    · split at h
      · split at h
        · cases h
        · cases h; rfl
      · cases h; rfl
    · cases h; rfl
  · cases h; rfl

theorem live_fold_bounds : ∀ (ts : List midi_track) (a : Nat), a + ts.length < 65536 →
    a ≤ live_fold ts a ∧ live_fold ts a ≤ a + ts.length := by
  intro ts
  induction ts with
  | nil => intro a _; simp [live_fold]
  | cons t ts ih =>
    intro a h
    simp only [List.length_cons] at h
    simp only [live_fold, List.length_cons]
    split
    · have := ih a (by omega)
      omega
    · have e : (a + 1) % 65536 = a + 1 := Nat.mod_eq_of_lt (by omega)
      rw [e]
      have := ih (a + 1) (by omega)
      omega

theorem live_fold_all_over : ∀ (ts : List midi_track) (a : Nat),
    (∀ t ∈ ts, midi_track_over t = true) → live_fold ts a = a := by
  intro ts
  induction ts with
  | nil => intro a _; rfl
  | cons t ts ih =>
    intro a h
    simp only [live_fold, h t (List.mem_cons_self _ _), if_true]
    exact ih a fun u hu => h u (List.mem_cons_of_mem _ hu)

theorem live_fold_pos : ∀ (ts : List midi_track) (a : Nat), a + ts.length < 65536 →
    (∃ t ∈ ts, midi_track_over t = false) → a < live_fold ts a := by
  intro ts
  induction ts with
  | nil => intro a _ h; obtain ⟨t, ht, _⟩ := h; simp at ht
  | cons t ts ih =>
    intro a h hex
    simp only [List.length_cons] at h
    simp only [live_fold]
    cases hov : midi_track_over t with
    | true =>
      simp only [if_true]
      apply ih a (by omega)
      obtain ⟨u, hu, hu'⟩ := hex
      rcases List.mem_cons.mp hu with rfl | hu
      · rw [hov] at hu'; cases hu'
      · exact ⟨u, hu, hu'⟩
    | false =>
      simp only [Bool.false_eq_true, if_false]
      have e : (a + 1) % 65536 = a + 1 := Nat.mod_eq_of_lt (by omega)
      rw [e]
      have := (live_fold_bounds ts (a + 1) (by omega)).1
      omega

theorem min_wait_append (T : Nat) : ∀ (A B : List midi_track) (d : Nat),
    min_wait T (A ++ B) d = min_wait T B (min_wait T A d) := by
  intro A
  induction A with
  | nil => intro B d; rfl
  | cons t A ih => intro B d; simp only [List.cons_append, min_wait]; exact ih B _

theorem midi_track_over_fired (r : next_result) (T : Nat) :
    midi_track_over (fired_track r T) = midi_track_over r.track := rfl

/-- A call of `midi_parser_next`, not at end of stream, that finds no unfinished track due:
it decodes nothing and only recomputes `dtime` and `end_of_file`. -/
theorem call_idle (ndebug : Bool) (p : midi_parser_t) (midi : FILE) (event : midi_event)
    (midi_status : Nat) (heof : p.end_of_file = 0) (hn : p.track_count ≤ p.tracks.length)
    (h : ∀ t ∈ p.tracks.take p.track_count, midi_track_over t = false →
      (ndebug = true ∨ (p.timestamp + p.dtime) % U32 ≤ t.next_event_timestamp) ∧
        (p.timestamp + p.dtime) % U32 ≠ t.next_event_timestamp) :
    midi_parser_next ndebug p midi event midi_status =
      Run.ret ⟨parser_after p ((p.timestamp + p.dtime) % U32) p.us_per_tick p.tracks
          (if live_fold (p.tracks.take p.track_count) 0 = 0 then 1 else 0),
        event, true, midi_status, midi, 0, none⟩ := by
  unfold midi_parser_next
  rw [if_neg (by simp [heof])]
  simp only
  have hl := loop_passive ndebug p.track_count (p.tracks.take p.track_count) [] 0
    ⟨{ p with timestamp := (p.timestamp + p.dtime) % U32, dtime := 0xFFFFFFFF }, 0, 0, event,
      midi, midi_status, none⟩
    (fun t ht hov => ⟨(h t ht hov).1, fun hc => (h t ht hov).2 hc.2⟩)
  rw [List.append_nil] at hl
  rw [hl, loop_nil _ _ _ _ (by simp [List.length_take]; omega)]
  simp only [Run.bind, loop_passed, List.append_nil, List.take_append_drop, parser_after]

/-- A call of `midi_parser_next`, not at end of stream, that finds the track `t` at index
`A.length` due and no unfinished track before it due: it decodes one event from `t` and
leaves every other track as it was. -/
theorem call_fire (ndebug : Bool) (p : midi_parser_t) (midi : FILE) (event : midi_event)
    (midi_status : Nat) (heof : p.end_of_file = 0) (hn : p.track_count ≤ p.tracks.length)
    (hlen : p.track_count < 65536)
    (A B : List midi_track) (t : midi_track)
    (hsplit : p.tracks.take p.track_count = A ++ t :: B)
    (hA : ∀ u ∈ A, midi_track_over u = false →
      (ndebug = true ∨ (p.timestamp + p.dtime) % U32 ≤ u.next_event_timestamp) ∧
        (p.timestamp + p.dtime) % U32 ≠ u.next_event_timestamp)
    (hB : ∀ u ∈ B, midi_track_over u = false →
      (ndebug = true ∨ (p.timestamp + p.dtime) % U32 ≤ u.next_event_timestamp))
    (hov : midi_track_over t = false)
    (hdue : (p.timestamp + p.dtime) % U32 = t.next_event_timestamp)
    (r : next_result) (hr : midi_track_next t midi event = Run.ret r)
    (q : midi_parser_t)
    (hq : midi_parser_update
      { p with timestamp := (p.timestamp + p.dtime) % U32,
               dtime := min_wait ((p.timestamp + p.dtime) % U32) A 0xFFFFFFFF } r.event
        = Run.ret q) :
    midi_parser_next ndebug p midi event midi_status =
      Run.ret ⟨parser_after p ((p.timestamp + p.dtime) % U32) q.us_per_tick
          (A ++ fired_track r ((p.timestamp + p.dtime) % U32) :: B
            ++ p.tracks.drop p.track_count) 0,
        r.event, true, r.midi_status, r.midi, 1, some A.length⟩ := by
  have hlenAB : A.length + (B.length + 1) = p.track_count := by
    have := congrArg List.length hsplit
    simp only [List.length_take, List.length_append, List.length_cons] at this
    omega
  have hq' := midi_parser_update_eq _ _ _ hq
  unfold midi_parser_next
  rw [if_neg (by simp [heof])]
  simp only
  rw [hsplit]
  generalize hs0 : (⟨{ p with timestamp := (p.timestamp + p.dtime) % U32, dtime := 0xFFFFFFFF },
    0, 0, event, midi, midi_status, none⟩ : next_loop) = s0
  have hs0T : s0.self.timestamp = (p.timestamp + p.dtime) % U32 := by rw [← hs0]
  have hs0c : s0.chosen = 0 := by rw [← hs0]
  rw [loop_passive ndebug p.track_count A (t :: B) 0 s0
    (fun u hu hov => by
      rw [hs0T]
      exact ⟨(hA u hu hov).1, fun hc => (hA u hu hov).2 hc.2⟩)]
  have hr1 : midi_track_next t (loop_passed s0 A).midi (loop_passed s0 A).event = Run.ret r := by
    rw [← hs0]; exact hr
  have hq1 : midi_parser_update (loop_passed s0 A).self r.event = Run.ret q := by
    rw [← hs0]; exact hq
  have hdue1 : (loop_passed s0 A).self.timestamp = t.next_event_timestamp := by
    rw [loop_passed_timestamp, hs0T]; exact hdue
  rw [loop_fire ndebug p.track_count t B (0 + A.length) (loop_passed s0 A) hov
    (Or.inr (le_of_eq hdue1)) (by rw [loop_passed_chosen, hs0c]) hdue1 r hr1 q hq1]
  generalize hs1 : loop_fired (loop_passed s0 A) (0 + A.length) r q = s1
  have hs1T : s1.self.timestamp = (p.timestamp + p.dtime) % U32 := by
    rw [← hs1]
    simp only [loop_fired]
    rw [hq']
  have hs1c : s1.chosen = 1 := by rw [← hs1]; rfl
  rw [← List.append_nil B, loop_passive ndebug p.track_count B [] (0 + A.length + 1) s1
    (fun u hu hov => by
      rw [hs1T]
      exact ⟨hB u hu hov, fun hc => absurd hc.1 (by rw [hs1c]; decide)⟩),
    loop_nil _ _ _ _ (by omega)]
  simp only [Run.bind, List.append_nil]
  have htake : (A ++ fired_track r ((p.timestamp + p.dtime) % U32) :: B
      ++ p.tracks.drop p.track_count).take p.track_count
      = A ++ fired_track r ((p.timestamp + p.dtime) % U32) :: B := by
    apply List.take_left'
    simp only [List.length_append, List.length_cons]
    omega
  have hact : live_fold B ((live_fold A 0 + 1) % 65536) ≠ 0 := by
    have h1 := live_fold_bounds A 0 (by omega)
    have e : (live_fold A 0 + 1) % 65536 = live_fold A 0 + 1 := Nat.mod_eq_of_lt (by omega)
    rw [e]
    have h2 := live_fold_bounds B (live_fold A 0 + 1) (by omega)
    omega
  rw [← hs1, ← hs0]
  simp only [loop_passed, loop_fired, parser_after, Nat.zero_add]
  rw [htake, if_neg hact, min_wait_append]
  simp only [min_wait, midi_track_over_fired]
  rw [hq']

theorem midi_parser_update_returns (self : midi_parser_t) (ev : midi_event)
    (h : self.ticks_per_quarter ≠ 0 ∨ ¬ (ev.status = 0xFF ∧ ev.meta_type = MetaSetTempo)) :
    ∃ q, midi_parser_update self ev = Run.ret q := by
  unfold midi_parser_update
  split
  · split
    · split
      · split
        · rename_i h1 h2 h3
          rcases h with h | h
          · exact absurd h3 h
          · exact absurd ⟨h1, h2⟩ h
        · exact ⟨_, rfl⟩
      · exact ⟨_, rfl⟩
    · exact ⟨_, rfl⟩
  · exact ⟨_, rfl⟩

theorem MIDI_MIN_zero_right (x : Nat) : MIDI_MIN x 0 = 0 := by
  unfold MIDI_MIN; split <;> omega

theorem MIDI_MIN_zero_left (x : Nat) : MIDI_MIN 0 x = 0 := by
  unfold MIDI_MIN; split <;> omega

theorem min_wait_zero (T : Nat) : ∀ ts : List midi_track, min_wait T ts 0 = 0 := by
  intro ts
  induction ts with
  | nil => rfl
  | cons t ts ih =>
    simp only [min_wait, MIDI_MIN_zero_left, ite_self]
    exact ih

theorem min_wait_due (T : Nat) (u : midi_track) (hov : midi_track_over u = false)
    (hw : track_wait T u = 0) : ∀ (ts : List midi_track) (d : Nat), u ∈ ts →
    min_wait T ts d = 0 := by
  intro ts
  induction ts with
  | nil => intro d h; simp at h
  | cons t ts ih =>
    intro d h
    rcases List.mem_cons.mp h with rfl | h
    · simp only [min_wait, hov, Bool.false_eq_true, if_false, hw, MIDI_MIN_zero_right]
      exact min_wait_zero T ts
    · simp only [min_wait]
      exact ih _ h

theorem track_wait_due (T : Nat) (u : midi_track) (h : u.next_event_timestamp = T) :
    track_wait T u = 0 := by
  unfold track_wait
  rw [h]
  unfold U32 at *
  omega

/-- C4: in a state not at end of stream where the unfinished track `t` at index `A.length`
is due at the timestamp the step reaches, no unfinished track before it is due, and a
second unfinished track `u` after it is due as well, a call of `midi_parser_next` whose
assertion holds and whose decoder call on `t` returns decodes from `t` only: it returns
that event, leaves every other track (the cursor of `u` included) unchanged, sets `dtime`
to 0 and leaves `end_of_file` clear, so that the following call runs at the same
timestamp. -/
theorem tie_break (ndebug : Bool) (p : midi_parser_t) (midi : FILE) (event : midi_event)
    (midi_status : Nat) (heof : p.end_of_file = 0) (hn : p.track_count ≤ p.tracks.length)
    (hlen : p.track_count ≤ 16)
    (A B : List midi_track) (t u : midi_track)
    (hsplit : p.tracks.take p.track_count = A ++ t :: B)
    (hA : ∀ a ∈ A, midi_track_over a = true ∨
      a.next_event_timestamp ≠ (p.timestamp + p.dtime) % U32)
    (hov : midi_track_over t = false)
    (hdue : t.next_event_timestamp = (p.timestamp + p.dtime) % U32)
    (hu : u ∈ B) (huov : midi_track_over u = false)
    (hudue : u.next_event_timestamp = (p.timestamp + p.dtime) % U32)
    (hassert : ndebug = true ∨ ∀ a ∈ A ++ B, midi_track_over a = false →
      (p.timestamp + p.dtime) % U32 ≤ a.next_event_timestamp)
    (r : next_result) (hr : midi_track_next t midi event = Run.ret r)
    (hdiv : p.ticks_per_quarter ≠ 0 ∨
      ¬ (r.event.status = 0xFF ∧ r.event.meta_type = MetaSetTempo)) :
    ∃ res, midi_parser_next ndebug p midi event midi_status = Run.ret res ∧
      res.returned = true ∧ res.chosen = 1 ∧ res.fired = some A.length ∧
      res.event = r.event ∧
      res.parser.tracks = A ++ fired_track r ((p.timestamp + p.dtime) % U32) :: B
        ++ p.tracks.drop p.track_count ∧
      res.parser.timestamp = (p.timestamp + p.dtime) % U32 ∧
      res.parser.dtime = 0 ∧ res.parser.end_of_file = 0 ∧
      (res.parser.timestamp + res.parser.dtime) % U32 = (p.timestamp + p.dtime) % U32 := by
  obtain ⟨q, hq⟩ := midi_parser_update_returns
    { p with timestamp := (p.timestamp + p.dtime) % U32,
             dtime := min_wait ((p.timestamp + p.dtime) % U32) A 0xFFFFFFFF } r.event hdiv
  have hA' : ∀ a ∈ A, midi_track_over a = false →
      (ndebug = true ∨ (p.timestamp + p.dtime) % U32 ≤ a.next_event_timestamp) ∧
        (p.timestamp + p.dtime) % U32 ≠ a.next_event_timestamp := by
    intro a ha hao
    refine ⟨?_, ?_⟩
    · rcases hassert with h | h
      · exact Or.inl h
      · exact Or.inr (h a (List.mem_append_left _ ha) hao)
    · rcases hA a ha with h | h
      · rw [hao] at h; cases h
      · exact fun e => h e.symm
  have hB' : ∀ a ∈ B, midi_track_over a = false →
      (ndebug = true ∨ (p.timestamp + p.dtime) % U32 ≤ a.next_event_timestamp) := by
    intro a ha hao
    rcases hassert with h | h
    · exact Or.inl h
    · exact Or.inr (h a (List.mem_append_right _ ha) hao)
  have hcall := call_fire ndebug p midi event midi_status heof hn (by omega) A B t hsplit hA' hB'
    hov hdue.symm r hr q hq
  have htake : (A ++ fired_track r ((p.timestamp + p.dtime) % U32) :: B
      ++ p.tracks.drop p.track_count).take p.track_count
      = A ++ fired_track r ((p.timestamp + p.dtime) % U32) :: B := by
    apply List.take_left'
    have := congrArg List.length hsplit
    simp only [List.length_take, List.length_append, List.length_cons] at this ⊢
    omega
  have hd0 : min_wait ((p.timestamp + p.dtime) % U32)
      (A ++ fired_track r ((p.timestamp + p.dtime) % U32) :: B) 0xFFFFFFFF = 0 :=
    min_wait_due _ u huov (track_wait_due _ u hudue) _ _
      (List.mem_append_right _ (List.mem_cons_of_mem _ hu))
  refine ⟨_, hcall, rfl, rfl, rfl, rfl, rfl, rfl, ?_, rfl, ?_⟩
  · simp only [parser_after]
    rw [htake]
    exact hd0
  · simp only [parser_after]
    rw [htake, hd0, Nat.add_zero, Nat.mod_mod]

set_option maxRecDepth 100000 in
/-- Witness of C4 on `tie_file`, whose two tracks are both due at tick 100: the state
`tie_waiting` is the one the first call leaves; the next call fires track 0 at timestamp 100,
leaves track 1 untouched and sets `dtime` to 0; the call after it fires track 1, again at
timestamp 100. -/
theorem tie_break_witness :
    (∃ r1, midi_session false tie_file 1 = Run.ret (some r1) ∧ r1.parser = tie_waiting ∧
      r1.midi = ⟨tie_file, 14⟩ ∧ r1.event = midi_event_zero ∧ r1.midi_status = 0) ∧
    (∃ res, midi_parser_next false tie_waiting ⟨tie_file, 14⟩ midi_event_zero 0 = Run.ret res ∧
      res.returned = true ∧ res.chosen = 1 ∧ res.fired = some 0 ∧
      res.parser.tracks.drop 1 = tie_track1 :: List.replicate 14 midi_track_zero ∧
      res.parser.timestamp = 100 ∧ res.parser.dtime = 0 ∧ res.parser.end_of_file = 0) ∧
    (∃ r2 r3, midi_session false tie_file 2 = Run.ret (some r2) ∧
      midi_session false tie_file 3 = Run.ret (some r3) ∧
      r2.fired = some 0 ∧ r2.parser.timestamp = 100 ∧ r2.event.midi_data = [60, 64] ∧
      r3.fired = some 1 ∧ r3.parser.timestamp = 100 ∧ r3.event.midi_data = [62, 64]) := by
  refine ⟨⟨_, rfl, by decide⟩, ?_, ⟨_, _, rfl, rfl, by decide⟩⟩
  obtain ⟨res, h, h1, h2, h3, _, h5, h6, h7, h8, _⟩ :=
    tie_break false tie_waiting ⟨tie_file, 14⟩ midi_event_zero 0 rfl (by decide) (by decide)
      [] [tie_track1] tie_track0 tie_track1 (by decide) (by simp) (by decide) (by decide)
      (by simp) (by decide) (by decide) (Or.inr (by decide)) _ rfl (Or.inl (by decide))
  refine ⟨res, h, h1, h2, h3, ?_, h6, h7, h8⟩
  rw [h5]
  rfl

/-! ### The decoder reads the stream, not the event buffer -/

theorem run_bind_bind {α β γ : Type} (x : Run α) (f : α → Run β) (g : β → Run γ) :
    (x.bind f).bind g = x.bind fun a => (f a).bind g := by
  cases x <;> rfl

theorem run_bind_ret {α β : Type} (a : α) (f : α → Run β) : (Run.ret a).bind f = f a := rfl

theorem run_bind_congr {α β : Type} (x : Run α) (f g : α → Run β) (h : ∀ a, f a = g a) :
    x.bind f = x.bind g := by
  cases x <;> simp [Run.bind, h]

theorem meta_new_core (ev ev' : midi_event) (hd : ev.dtime = ev'.dtime)
    (hst : ev.status = ev'.status) (midi : FILE) :
    (midi_event_meta_new ev midi).bind (fun r => Run.ret (meta_core r)) =
      (midi_event_meta_new ev' midi).bind (fun r => Run.ret (meta_core r)) := by
  unfold midi_event_meta_new
  dsimp only
  simp only [run_bind_bind]
  apply run_bind_congr
  intro v
  dsimp only
  generalize u8 (getc midi).1 = t
  by_cases ht : t = MetaSetTempo
  · subst ht
    rw [if_neg (by decide), if_pos rfl, if_neg (by decide), if_pos rfl]
    simp only [Run.bind, meta_core, if_true, hd, hst]
  · by_cases c1 : t = MetaEndOfTrack
    · rw [if_pos c1, if_pos c1]
      simp only [Run.bind, meta_core, ht, if_false, hd, hst]
    rw [if_neg c1, if_neg c1, if_neg ht, if_neg ht]
    by_cases c2 : t = MetaSequence
    · rw [if_pos c2, if_pos c2]
      simp only [Run.bind, meta_core, ht, if_false, hd, hst]
    rw [if_neg c2, if_neg c2]
    by_cases c3 : t = MetaChannelPrefix
    · rw [if_pos c3, if_pos c3]
      simp only [Run.bind, meta_core, ht, if_false, hd, hst]
    rw [if_neg c3, if_neg c3]
    by_cases c4 : t = MetaTimeSignature
    · rw [if_pos c4, if_pos c4]
      simp only [Run.bind, meta_core, ht, if_false, hd, hst]
    rw [if_neg c4, if_neg c4]
    by_cases c5 : t = MetaKeySignature
    · rw [if_pos c5, if_pos c5]
      simp only [Run.bind, meta_core, ht, if_false, hd, hst]
    rw [if_neg c5, if_neg c5]
    by_cases c6 : t = MetaSMPTEOffset
    · rw [if_pos c6, if_pos c6]
      simp only [Run.bind, meta_core, ht, if_false, hd, hst]
    rw [if_neg c6, if_neg c6]
    by_cases c7 : t = MetaSequencerSpecific
    · rw [if_pos c7, if_pos c7]
      simp only [Run.bind, meta_core, ht, if_false, hd, hst]
    rw [if_neg c7, if_neg c7]
    by_cases c8 : t = MetaText ∨ t = MetaCopyright ∨ t = MetaTrackName ∨ t = MetaInstrumentName
        ∨ t = MetaLyrics ∨ t = MetaMarker ∨ t = MetaCuePoint
    · rw [if_pos c8, if_pos c8]
      simp only [Run.bind, meta_core, ht, if_false, hd, hst]
    rw [if_neg c8, if_neg c8]
    simp only [Run.bind, meta_core, ht, if_false, hd, hst]

theorem event_dispatch_core (ev ev' : midi_event) (hd : ev.dtime = ev'.dtime)
    (hst : ev.status = ev'.status) (midi : FILE) :
    ((if ev.status &&& 0xF0 = EventNoteOff ∨ ev.status &&& 0xF0 = EventNoteOn
        ∨ ev.status &&& 0xF0 = EventKeyPressure
        ∨ ev.status &&& 0xF0 = EventControllerChange ∨ ev.status &&& 0xF0 = EventPitchBend
        ∨ ev.status &&& 0xF0 = EventProgramChange ∨ ev.status &&& 0xF0 = EventChannelPressure then
      let r := midi_event_midi_new ev midi ev.status
      if r.returned then Run.ret ⟨r.event, true, MIDI_Success, r.midi, ev.status⟩
      else Run.ret ⟨r.event, false, r.midi_status, r.midi, ev.status⟩
    else if ev.status &&& 0xF0 = EventSystemExclusive then
      let running_status := 0
      if ev.status = 0xF0 ∨ ev.status = 0xF7 then
        (midi_event_sysex_new ev midi).bind fun r =>
          Run.ret ⟨r.event, true, MIDI_Success, r.midi, running_status⟩
      else if ev.status = 0xFF then
        (midi_event_meta_new ev midi).bind fun r =>
          Run.ret ⟨r.event, true, MIDI_Success, r.midi, running_status⟩
      else Run.ret ⟨ev, true, MIDI_Success, midi, running_status⟩
    else (Run.ret ⟨ev, false, MIDI_NoCaseMatch, midi, ev.status⟩ : Run decode_result)).bind
        fun d => Run.ret (decode_core d)) =
    ((if ev'.status &&& 0xF0 = EventNoteOff ∨ ev'.status &&& 0xF0 = EventNoteOn
        ∨ ev'.status &&& 0xF0 = EventKeyPressure
        ∨ ev'.status &&& 0xF0 = EventControllerChange ∨ ev'.status &&& 0xF0 = EventPitchBend
        ∨ ev'.status &&& 0xF0 = EventProgramChange ∨ ev'.status &&& 0xF0 = EventChannelPressure then
      let r := midi_event_midi_new ev' midi ev'.status
      if r.returned then Run.ret ⟨r.event, true, MIDI_Success, r.midi, ev'.status⟩
      else Run.ret ⟨r.event, false, r.midi_status, r.midi, ev'.status⟩
    else if ev'.status &&& 0xF0 = EventSystemExclusive then
      let running_status := 0
      if ev'.status = 0xF0 ∨ ev'.status = 0xF7 then
        (midi_event_sysex_new ev' midi).bind fun r =>
          Run.ret ⟨r.event, true, MIDI_Success, r.midi, running_status⟩
      else if ev'.status = 0xFF then
        (midi_event_meta_new ev' midi).bind fun r =>
          Run.ret ⟨r.event, true, MIDI_Success, r.midi, running_status⟩
      else Run.ret ⟨ev', true, MIDI_Success, midi, running_status⟩
    else (Run.ret ⟨ev', false, MIDI_NoCaseMatch, midi, ev'.status⟩ : Run decode_result)).bind
        fun d => Run.ret (decode_core d)) := by
  rw [← hst]
  generalize hs : ev.status = s at *
  dsimp only
  by_cases h1 : s &&& 0xF0 = EventNoteOff ∨ s &&& 0xF0 = EventNoteOn
        ∨ s &&& 0xF0 = EventKeyPressure
        ∨ s &&& 0xF0 = EventControllerChange ∨ s &&& 0xF0 = EventPitchBend
        ∨ s &&& 0xF0 = EventProgramChange ∨ s &&& 0xF0 = EventChannelPressure
  · -- channel message
    have hne : s ≠ 0xFF := by
      rintro rfl
      revert h1
      decide
    rw [if_pos h1, if_pos h1]
    unfold midi_event_midi_new
    dsimp only
    by_cases h5 : s &&& 0xF0 = EventNoteOff ∨ s &&& 0xF0 = EventNoteOn
        ∨ s &&& 0xF0 = EventKeyPressure
        ∨ s &&& 0xF0 = EventControllerChange ∨ s &&& 0xF0 = EventPitchBend
    · simp only [if_pos h5, if_true, Run.bind, decode_core, hne, if_false, false_and, hd]
    · have h2 : s &&& 0xF0 = EventProgramChange ∨ s &&& 0xF0 = EventChannelPressure := by
        rcases h1 with h | h | h | h | h | h | h
        · exact absurd (Or.inl h) h5
        · exact absurd (Or.inr (Or.inl h)) h5
        · exact absurd (Or.inr (Or.inr (Or.inl h))) h5
        · exact absurd (Or.inr (Or.inr (Or.inr (Or.inl h)))) h5
        · exact absurd (Or.inr (Or.inr (Or.inr (Or.inr h)))) h5
        · exact Or.inl h
        · exact Or.inr h
      simp only [if_neg h5, if_pos h2, if_true, Run.bind, decode_core, hne, if_false,
        false_and, hd]
  · rw [if_neg h1, if_neg h1]
    by_cases h2 : s &&& 0xF0 = EventSystemExclusive
    · rw [if_pos h2, if_pos h2]
      by_cases h3 : s = 0xF0 ∨ s = 0xF7
      · have hne : s ≠ 0xFF := by
          rintro rfl
          revert h3
          decide
        rw [if_pos h3, if_pos h3]
        unfold midi_event_sysex_new
        simp only [run_bind_bind]
        apply run_bind_congr
        intro v
        simp only [Run.bind, decode_core, hne, if_false, false_and, hd, hs, ← hst]
      · rw [if_neg h3, if_neg h3]
        by_cases h4 : s = 0xFF
        · rw [if_pos h4, if_pos h4]
          have hm := meta_new_core ev ev' hd (hs.trans hst) midi
          have e : ∀ x : midi_event, (midi_event_meta_new x midi).bind (fun r =>
              (Run.ret ⟨r.event, true, MIDI_Success, r.midi, 0⟩ : Run decode_result).bind
                fun d => Run.ret (decode_core d)) =
              ((midi_event_meta_new x midi).bind fun r => Run.ret (meta_core r)).bind fun c =>
                Run.ret (c.1, 0, true, MIDI_Success, c.2.1, c.2.2.1,
                  (if c.2.2.1 = 0xFF then c.2.2.2.1 else 0),
                  (if c.2.2.1 = 0xFF ∧ c.2.2.2.1 = MetaSetTempo then c.2.2.2.2 else 0)) := by
            intro x
            rw [run_bind_bind]
            apply run_bind_congr
            intro r
            simp only [Run.bind, decode_core, meta_core]
            by_cases hx : r.event.meta_type = MetaSetTempo <;> simp [hx]
          rw [run_bind_bind, run_bind_bind, e ev, e ev', hm]
        · rw [if_neg h4, if_neg h4]
          simp only [Run.bind, decode_core, h4, if_false, false_and, hd, hs, ← hst]
    · have hne : s ≠ 0xFF := by
        rintro rfl
        revert h2
        decide
      rw [if_neg h2, if_neg h2]
      simp only [Run.bind, decode_core, hne, if_false, false_and, hd, hs, ← hst]

theorem event_new_core (ev ev' : midi_event) (m : FILE) (rs : Nat) :
    (midi_event_new ev m rs).bind (fun d => Run.ret (decode_core d)) =
      (midi_event_new ev' m rs).bind (fun d => Run.ret (decode_core d)) := by
  unfold midi_event_new
  simp only [run_bind_bind]
  apply run_bind_congr
  intro v
  dsimp only
  by_cases hrw : u8 (getc v.2).1 < 128
  · simp only [hrw, decide_True, if_true]
    exact event_dispatch_core { ev with dtime := v.1, status := rs }
      { ev' with dtime := v.1, status := rs } rfl rfl _
  · simp only [hrw, decide_False, Bool.false_eq_true, if_false]
    exact event_dispatch_core { ev with dtime := v.1, status := u8 (getc v.2).1 }
      { ev' with dtime := v.1, status := u8 (getc v.2).1 } rfl rfl _

theorem bind_ret_eq_ret {α β : Type} (x : Run α) (f : α → β) (b : β)
    (h : (x.bind fun a => Run.ret (f a)) = Run.ret b) : ∃ a, x = Run.ret a ∧ f a = b := by
  cases x with
  | ret a => exact ⟨a, rfl, by simpa [Run.bind] using h⟩
  | diverges => cases h
  | aborts => cases h
  | undefined => cases h

theorem midi_track_over_core (t t' : midi_track) (h : track_core t = track_core t') :
    midi_track_over t = midi_track_over t' := by
  have h1 := congrArg midi_track.end_of_track h
  have h2 := congrArg midi_track.current_position h
  have h3 := congrArg midi_track.start_position h
  have h4 := congrArg midi_track.size h
  simp only [track_core] at h1 h2 h3 h4
  simp only [midi_track_over, h1, h2, h3, h4]

theorem midi_track_next_eq (t : midi_track) (f : FILE) (ev : midi_event) :
    midi_track_next t f ev =
      (midi_event_new ev (fseek_set f t.current_position) t.running_status).bind fun d =>
        track_lookahead (track_note_event t d) d.event d.midi (ftell f) := by
  unfold midi_track_next track_lookahead track_note_event
  rfl

theorem value_peek_data (m : FILE) (p : Nat × FILE) (h : midi_value_peek m = Run.ret p) :
    p.2.data = m.data := by
  unfold midi_value_peek at h
  rw [peek_loop_eq] at h
  cases hr : midi_value_read_loop (loop_fuel m) m 0 with
  | ret r =>
    rw [hr] at h
    simp only [Run.bind] at h
    cases h
    have := (read_loop_pos _ _ _ _ hr).2
    simp only [fseek_cur]
    split <;> exact this
  | diverges => rw [hr] at h; cases h
  | aborts => rw [hr] at h; cases h
  | undefined => rw [hr] at h; cases h

theorem track_note_event_core (t t0 : midi_track) (hcore : track_core t = track_core t0)
    (d d0 : decode_result) (hd : decode_core d = decode_core d0) :
    track_core (track_note_event t d) = track_core (track_note_event t0 d0) ∧
      (track_note_event t d).next_event_timestamp = t.next_event_timestamp ∧
      (track_note_event t0 d0).next_event_timestamp = t0.next_event_timestamp := by
  have c1 := congrArg midi_track.end_of_track hcore
  have c2 := congrArg midi_track.current_position hcore
  have c3 := congrArg midi_track.start_position hcore
  have c4 := congrArg midi_track.size hcore
  have c5 := congrArg midi_track.running_status hcore
  have c6 := congrArg midi_track.tempo hcore
  simp only [track_core] at c1 c2 c3 c4 c5 c6
  simp only [decode_core, Prod.mk.injEq] at hd
  obtain ⟨_, e2, _, _, _, e6, e7, e8⟩ := hd
  unfold track_note_event
  dsimp only
  rw [e6]
  by_cases hFF : d0.event.status = 0xFF
  · rw [e6] at e7 e8
    simp only [hFF, if_true, true_and] at e7 e8 ⊢
    rw [e7] at e8 ⊢
    by_cases h1 : d0.event.meta_type = MetaEndOfTrack
    · simp only [h1, if_true, track_core, c2, c3, c4, c6, e2, and_self]
    · simp only [h1, if_false]
      by_cases h2 : d0.event.meta_type = MetaSetTempo
      · simp only [h2, if_true] at e8 ⊢
        simp only [track_core, c1, c2, c3, c4, e2, e8, and_self]
      · simp only [h2, if_false, track_core, c1, c2, c3, c4, c6, e2, and_self]
  · simp only [hFF, if_false, track_core, c1, c2, c3, c4, c6, e2, and_self]

theorem track_lookahead_frame (s s0 : midi_track) (hcore : track_core s = track_core s0)
    (ev ev0 : midi_event) (m : FILE) (saved pos0 : Nat) (r0 : next_result)
    (h0 : track_lookahead s0 ev0 m pos0 = Run.ret r0) :
    ∃ r, track_lookahead s ev m saved = Run.ret r ∧
      track_core r.track = track_core r0.track ∧ r.midi = ⟨m.data, saved⟩ ∧
      r.midi_status = MIDI_Success ∧ r.event = ev ∧ r0.event = ev0 ∧
      (r0.track.end_of_track = s0.end_of_track) ∧
      (midi_track_over s0 = false →
        r.track.next_event_timestamp = r0.track.next_event_timestamp) := by
  have hov := midi_track_over_core s s0 hcore
  have c1 := congrArg midi_track.end_of_track hcore
  have c2 := congrArg midi_track.current_position hcore
  have c3 := congrArg midi_track.start_position hcore
  have c4 := congrArg midi_track.size hcore
  have c5 := congrArg midi_track.running_status hcore
  have c6 := congrArg midi_track.tempo hcore
  simp only [track_core] at c1 c2 c3 c4 c5 c6
  unfold track_lookahead at h0 ⊢
  rw [hov]
  cases ho : midi_track_over s0 with
  | true =>
    rw [ho] at h0
    simp only [Bool.not_true, Bool.false_eq_true, if_false] at h0 ⊢
    cases h0
    refine ⟨_, rfl, ?_, rfl, rfl, rfl, rfl, rfl, ?_⟩
    · simp only [track_core, c1, c2, c3, c4, c5, c6]
    · intro h; cases h
  | false =>
    rw [ho] at h0
    simp only [Bool.not_false, if_true] at h0 ⊢
    cases hp : midi_value_peek m with
    | ret p =>
      rw [hp] at h0
      simp only [Run.bind] at h0 ⊢
      cases h0
      refine ⟨_, rfl, ?_, ?_, rfl, rfl, rfl, rfl, ?_⟩
      · simp only [track_core, c1, c2, c3, c4, c5, c6]
      · simp only [fseek_set, value_peek_data m p hp]
      · intro _; rfl
    | diverges => rw [hp] at h0; cases h0
    | aborts => rw [hp] at h0; cases h0
    | undefined => rw [hp] at h0; cases h0

theorem run_bind_congr_ret {α β : Type} (x : Run α) (f g : α → Run β)
    (h : ∀ a, x = Run.ret a → f a = g a) : x.bind f = x.bind g := by
  cases x with
  | ret a => exact h a rfl
  | diverges => rfl
  | aborts => rfl
  | undefined => rfl

theorem getc_data (m : FILE) : (getc m).2.data = m.data := by
  unfold getc
  split <;> rfl

theorem fread_data (m : FILE) (n : Nat) : (fread m n).2.data = m.data := rfl

theorem fseek_cur_data (m : FILE) (o : Int) : (fseek_cur m o).data = m.data := by
  unfold fseek_cur
  split <;> rfl

theorem value_read_data (m : FILE) (v : Nat × FILE) (h : midi_value_read m = Run.ret v) :
    v.2.data = m.data :=
  (read_loop_pos _ _ _ _ h).2

theorem midi_new_data (ev : midi_event) (m : FILE) (s : Nat) :
    (midi_event_midi_new ev m s).midi.data = m.data := by
  unfold midi_event_midi_new
  dsimp only
  split
  · rfl
  · split <;> rfl

theorem sysex_new_data (ev : midi_event) (m : FILE) :
    (midi_event_sysex_new ev m).bind (fun r => Run.ret r.midi.data) =
      (midi_event_sysex_new ev m).bind (fun _ => Run.ret m.data) := by
  unfold midi_event_sysex_new
  simp only [run_bind_bind]
  apply run_bind_congr_ret
  intro v hv
  have := value_read_data m v hv
  simp only [Run.bind]
  split <;> simp only [fseek_cur_data, fread_data, this]

theorem meta_new_data (ev : midi_event) (m : FILE) :
    (midi_event_meta_new ev m).bind (fun r => Run.ret r.midi.data) =
      (midi_event_meta_new ev m).bind (fun _ => Run.ret m.data) := by
  unfold midi_event_meta_new
  dsimp only
  simp only [run_bind_bind]
  apply run_bind_congr_ret
  intro v hv
  have hv' := (value_read_data _ v hv).trans (getc_data m)
  generalize u8 (getc m).1 = t
  by_cases c1 : t = MetaEndOfTrack
  · rw [if_pos c1]; simp only [Run.bind, hv']
  rw [if_neg c1]
  by_cases c0 : t = MetaSetTempo
  · rw [if_pos c0]; simp only [Run.bind, getc_data, hv']
  rw [if_neg c0]
  by_cases c2 : t = MetaSequence
  · rw [if_pos c2]; simp only [Run.bind, getc_data, hv']
  rw [if_neg c2]
  by_cases c3 : t = MetaChannelPrefix
  · rw [if_pos c3]; simp only [Run.bind, getc_data, hv']
  rw [if_neg c3]
  by_cases c4 : t = MetaTimeSignature
  · rw [if_pos c4]; simp only [Run.bind, fread_data, hv']
  rw [if_neg c4]
  by_cases c5 : t = MetaKeySignature
  · rw [if_pos c5]; simp only [Run.bind, fread_data, hv']
  rw [if_neg c5]
  by_cases c6 : t = MetaSMPTEOffset
  · rw [if_pos c6]; simp only [Run.bind, fread_data, hv']
  rw [if_neg c6]
  by_cases c7 : t = MetaSequencerSpecific
  · rw [if_pos c7]
    simp only [Run.bind]
    split <;> simp only [fseek_cur_data, fread_data, hv']
  rw [if_neg c7]
  by_cases c8 : t = MetaText ∨ t = MetaCopyright ∨ t = MetaTrackName ∨ t = MetaInstrumentName
      ∨ t = MetaLyrics ∨ t = MetaMarker ∨ t = MetaCuePoint
  · rw [if_pos c8]
    simp only [Run.bind]
    split <;> simp only [fseek_cur_data, fread_data, hv']
  rw [if_neg c8]
  simp only [Run.bind, fseek_cur_data, hv']

theorem event_new_data (ev : midi_event) (m : FILE) (rs : Nat) :
    (midi_event_new ev m rs).bind (fun d => Run.ret d.midi.data) =
      (midi_event_new ev m rs).bind (fun _ => Run.ret m.data) := by
  unfold midi_event_new
  simp only [run_bind_bind]
  apply run_bind_congr_ret
  intro v hv
  have hv' := value_read_data m v hv
  dsimp only
  have hm : (if decide ((u8 (getc v.2).1) < 128) = true then fseek_cur (getc v.2).2 (-1)
      else (getc v.2).2).data = m.data := by
    split
    · rw [fseek_cur_data, getc_data, hv']
    · rw [getc_data, hv']
  generalize (if decide ((u8 (getc v.2).1) < 128) = true then fseek_cur (getc v.2).2 (-1)
      else (getc v.2).2) = m2 at hm ⊢
  generalize (if decide ((u8 (getc v.2).1) < 128) = true then
      ({ ev with dtime := v.1, status := rs } : midi_event)
      else { ev with dtime := v.1, status := u8 (getc v.2).1 }) = self
  split
  · split <;> simp only [Run.bind, midi_new_data, hm]
  · split
    · split
      · have := sysex_new_data self m2
        simp only [run_bind_bind, run_bind_ret] at this ⊢
        rw [hm] at this
        exact this
      · split
        · have := meta_new_data self m2
          simp only [run_bind_bind, run_bind_ret] at this ⊢
          rw [hm] at this
          exact this
        · simp only [Run.bind, hm]
    · simp only [Run.bind, hm]

theorem track_note_event_fields (t : midi_track) (d : decode_result) :
    (track_note_event t d).current_position = t.current_position ∧
      (track_note_event t d).start_position = t.start_position ∧
      (track_note_event t d).size = t.size := by
  unfold track_note_event
  dsimp only
  split
  · split
    · exact ⟨rfl, rfl, rfl⟩
    · split <;> exact ⟨rfl, rfl, rfl⟩
  · exact ⟨rfl, rfl, rfl⟩

/-- Frame property of `midi_track_next`: what the call does to the track and the stream
depends on the bytes and on the track's cursor and running status only, not on the event
buffer, the stream position or the track's lookahead. -/
theorem track_next_frame (t t0 : midi_track) (hcore : track_core t = track_core t0)
    (f : FILE) (ev ev0 : midi_event) (pos0 : Nat) (r0 : next_result)
    (h0 : midi_track_next t0 ⟨f.data, pos0⟩ ev0 = Run.ret r0) :
    ∃ r, midi_track_next t f ev = Run.ret r ∧ track_core r.track = track_core r0.track ∧
      r.midi = f ∧ r.midi_status = MIDI_Success ∧
      r.event.dtime = r0.event.dtime ∧ r.event.status = r0.event.status ∧
      (r.event.status = 0xFF → r.event.meta_type = r0.event.meta_type) ∧
      (midi_track_over t0 = false → r0.track.end_of_track = 0 →
        r.track.next_event_timestamp = r0.track.next_event_timestamp) := by
  have c2 := congrArg midi_track.current_position hcore
  have c5 := congrArg midi_track.running_status hcore
  simp only [track_core] at c2 c5
  rw [midi_track_next_eq] at h0 ⊢
  simp only [fseek_set, ftell] at h0 ⊢
  rw [c2, c5]
  cases hd0 : midi_event_new ev0 ⟨f.data, t0.current_position⟩ t0.running_status with
  | ret d0 =>
    rw [hd0] at h0
    have hcd := event_new_core ev ev0 ⟨f.data, t0.current_position⟩ t0.running_status
    rw [hd0] at hcd
    obtain ⟨d, hd, hdc⟩ := bind_ret_eq_ret _ _ _ hcd
    have hdata := event_new_data ev ⟨f.data, t0.current_position⟩ t0.running_status
    rw [hd] at hdata
    simp only [Run.bind, Run.ret.injEq] at hdata
    rw [hd]
    simp only [Run.bind] at h0 ⊢
    obtain ⟨hn1, _, _⟩ := track_note_event_core t t0 hcore d d0 hdc
    have hdc' := hdc
    simp only [decode_core, Prod.mk.injEq] at hdc'
    obtain ⟨e1, _, _, _, e5, e6, e7, _⟩ := hdc'
    rw [← e1] at h0
    obtain ⟨r, hr, k1, k2, k3, k4, k5, k6, k7⟩ :=
      track_lookahead_frame _ _ hn1 d.event d0.event d.midi f.pos pos0 r0 h0
    refine ⟨r, hr, k1, ?_, k3, ?_, ?_, ?_, ?_⟩
    · rw [k2, hdata]
    · rw [k4, k5]; exact e5
    · rw [k4, k5]; exact e6
    · rw [k4, k5]
      intro hFF
      have hFF0 : d0.event.status = 0xFF := e6 ▸ hFF
      simpa only [hFF, hFF0, if_true] using e7
    · intro hov heot
      apply k7
      have hf := track_note_event_fields t0 d0
      rw [k6] at heot
      have hov' := hov
      simp only [midi_track_over, Bool.or_eq_false_iff, decide_eq_false_iff_not] at hov' ⊢
      refine ⟨by simp [heot], ?_⟩
      rw [hf.1, hf.2.1, hf.2.2]
      exact hov'.2
  | diverges => rw [hd0] at h0; cases h0
  | aborts => rw [hd0] at h0; cases h0
  | undefined => rw [hd0] at h0; cases h0

/-! ### The merge of the tracks -/

theorem track_schedule_bound (data : List Nat) (i : Nat) : ∀ (fuel : Nat) (t : midi_track)
    (base : Nat) (es : List fired_event), track_schedule data i fuel t base = Run.ret es →
    ∀ e ∈ es, base + t.next_event_timestamp ≤ e.tick ∧ e.track = i := by
  intro fuel
  induction fuel with
  | zero => intro t base es h; cases h
  | succ k ih =>
    intro t base es h e he
    simp only [track_schedule] at h
    split at h
    · cases h; simp at he
    · cases hr : midi_track_next t ⟨data, 0⟩ midi_event_zero with
      | ret r =>
        rw [hr] at h
        simp only [Run.bind] at h
        cases hes : track_schedule data i k r.track (base + t.next_event_timestamp) with
        | ret es' =>
          rw [hes] at h
          simp only at h
          cases h
          rcases List.mem_cons.mp he with rfl | he'
          · exact ⟨le_refl _, rfl⟩
          · have := ih _ _ _ hes e he'
            exact ⟨by omega, this.2⟩
        | diverges => rw [hes] at h; cases h
        | aborts => rw [hes] at h; cases h
        | undefined => rw [hes] at h; cases h
      | diverges => rw [hr] at h; cases h
      | aborts => rw [hr] at h; cases h
      | undefined => rw [hr] at h; cases h

theorem track_matches_over (data : List Nat) (i : Nat) (a : midi_track)
    (es : List fired_event) (h : track_matches data i a es) (hov : midi_track_over a = true) :
    es = [] := by
  obtain ⟨t, base, fuel, hc, he, _⟩ := h
  rw [midi_track_over_core a t hc] at hov
  cases fuel with
  | zero => cases he
  | succ k =>
    simp only [track_schedule, hov, if_true] at he
    cases he
    rfl

theorem track_matches_live (data : List Nat) (i : Nat) (a : midi_track)
    (es : List fired_event) (h : track_matches data i a es) (hov : midi_track_over a = false) :
    ∃ t r0 fuel es', track_core a = track_core t ∧ midi_track_over t = false ∧
      midi_track_next t ⟨data, 0⟩ midi_event_zero = Run.ret r0 ∧
      track_schedule data i fuel r0.track a.next_event_timestamp = Run.ret es' ∧
      es = ⟨a.next_event_timestamp, i, a.current_position, r0.event.dtime, r0.event.status⟩
        :: es' := by
  obtain ⟨t, base, fuel, hc, he, hn⟩ := h
  have hov' := hov
  rw [midi_track_over_core a t hc] at hov'
  have hpos := congrArg midi_track.current_position hc
  simp only [track_core] at hpos
  cases fuel with
  | zero => cases he
  | succ k =>
    simp only [track_schedule, hov', Bool.false_eq_true, if_false] at he
    cases hr : midi_track_next t ⟨data, 0⟩ midi_event_zero with
    | ret r =>
      rw [hr] at he
      simp only [Run.bind] at he
      cases hes : track_schedule data i k r.track (base + t.next_event_timestamp) with
      | ret es' =>
        rw [hes] at he
        simp only at he
        cases he
        refine ⟨t, r, k, es', hc, hov', hr, ?_, ?_⟩
        · rw [hn hov']; exact hes
        · rw [hn hov', hpos]
      | diverges => rw [hes] at he; cases he
      | aborts => rw [hes] at he; cases he
      | undefined => rw [hes] at he; cases he
    | diverges => rw [hr] at he; cases he
    | aborts => rw [hr] at he; cases he
    | undefined => rw [hr] at he; cases he

theorem getD_mid {α : Type} (A C : List α) (x d : α) : (A ++ x :: C).getD A.length d = x := by
  rw [List.getD_append_right _ _ _ _ (Nat.le_refl _)]
  simp

theorem getD_other {α : Type} (A C : List α) (x y d : α) (j : Nat) (h : j ≠ A.length) :
    (A ++ x :: C).getD j d = (A ++ y :: C).getD j d := by
  rcases Nat.lt_or_gt_of_ne h with h1 | h1
  · rw [List.getD_append _ _ _ _ h1, List.getD_append _ _ _ _ h1]
  · rw [List.getD_append_right _ _ _ _ (Nat.le_of_lt h1),
      List.getD_append_right _ _ _ _ (Nat.le_of_lt h1)]
    obtain ⟨m, hm⟩ : ∃ m, j - A.length = m + 1 := ⟨j - A.length - 1, by omega⟩
    rw [hm]
    simp

theorem mem_left_getD {α : Type} (A C : List α) (d u : α) (h : u ∈ A) :
    ∃ j, j < A.length ∧ (A ++ C).getD j d = u := by
  obtain ⟨j, hj, rfl⟩ := List.mem_iff_getElem.mp h
  refine ⟨j, hj, ?_⟩
  rw [List.getD_append _ _ _ _ hj, List.getD_eq_getElem _ _ hj]

theorem mem_right_getD {α : Type} (A B D : List α) (x d u : α) (h : u ∈ B) :
    ∃ j, A.length < j ∧ j < A.length + 1 + B.length ∧ (A ++ x :: (B ++ D)).getD j d = u := by
  obtain ⟨j, hj, rfl⟩ := List.mem_iff_getElem.mp h
  refine ⟨A.length + 1 + j, by omega, by omega, ?_⟩
  rw [List.getD_append_right _ _ _ _ (by omega)]
  have e : A.length + 1 + j - A.length = j + 1 := by omega
  rw [e, List.getD_cons_succ, List.getD_append _ _ _ _ hj, List.getD_eq_getElem _ _ hj]

theorem getD_mem_split {α : Type} (A B D : List α) (x d : α) (j : Nat)
    (h : j < A.length + 1 + B.length) : (A ++ x :: (B ++ D)).getD j d ∈ A ++ x :: B := by
  have e : A ++ x :: (B ++ D) = (A ++ x :: B) ++ D := by simp
  rw [e, List.getD_append _ _ _ _ (by simp; omega), List.getD_eq_getElem _ _ (by simp; omega)]
  exact List.getElem_mem _

theorem MIDI_MIN_le_left (x y : Nat) : MIDI_MIN x y ≤ x := by
  unfold MIDI_MIN; split <;> omega

theorem MIDI_MIN_le_right (x y : Nat) : MIDI_MIN x y ≤ y := by
  unfold MIDI_MIN; split <;> omega

theorem MIDI_MIN_cases (x y : Nat) : MIDI_MIN x y = x ∨ MIDI_MIN x y = y := by
  unfold MIDI_MIN; split
  · exact Or.inl rfl
  · exact Or.inr rfl

theorem min_wait_le_init (T : Nat) : ∀ (L : List midi_track) (d : Nat), min_wait T L d ≤ d := by
  intro L
  induction L with
  | nil => intro d; exact le_refl _
  | cons t L ih =>
    intro d
    simp only [min_wait]
    split
    · exact ih d
    · exact le_trans (ih _) (MIDI_MIN_le_left _ _)

theorem min_wait_le (T : Nat) (u : midi_track) (hov : midi_track_over u = false) :
    ∀ (L : List midi_track) (d : Nat), u ∈ L → min_wait T L d ≤ track_wait T u := by
  intro L
  induction L with
  | nil => intro d h; simp at h
  | cons t L ih =>
    intro d h
    simp only [min_wait]
    rcases List.mem_cons.mp h with rfl | h
    · rw [hov]
      simp only [Bool.false_eq_true, if_false]
      exact le_trans (min_wait_le_init T L _) (MIDI_MIN_le_right _ _)
    · exact ih _ h

theorem min_wait_cases (T : Nat) : ∀ (L : List midi_track) (d : Nat),
    min_wait T L d = d ∨ ∃ u ∈ L, midi_track_over u = false ∧ min_wait T L d = track_wait T u := by
  intro L
  induction L with
  | nil => intro d; exact Or.inl rfl
  | cons t L ih =>
    intro d
    simp only [min_wait]
    cases hov : midi_track_over t with
    | true =>
      simp only [if_true]
      rcases ih d with h | ⟨u, hu, h1, h2⟩
      · exact Or.inl h
      · exact Or.inr ⟨u, List.mem_cons_of_mem _ hu, h1, h2⟩
    | false =>
      simp only [Bool.false_eq_true, if_false]
      rcases ih (MIDI_MIN d (track_wait T t)) with h | ⟨u, hu, h1, h2⟩
      · rcases MIDI_MIN_cases d (track_wait T t) with h' | h'
        · exact Or.inl (h.trans h')
        · exact Or.inr ⟨t, List.mem_cons_self _ _, hov, h.trans h'⟩
      · exact Or.inr ⟨u, List.mem_cons_of_mem _ hu, h1, h2⟩

theorem track_wait_lt (T : Nat) (u : midi_track) : track_wait T u < U32 :=
  Nat.mod_lt _ (by decide)

theorem min_wait_attained (T : Nat) (L : List midi_track)
    (h : ∃ u ∈ L, midi_track_over u = false) :
    ∃ u ∈ L, midi_track_over u = false ∧ min_wait T L 0xFFFFFFFF = track_wait T u := by
  rcases min_wait_cases T L 0xFFFFFFFF with h1 | h1
  · obtain ⟨u, hu, hov⟩ := h
    refine ⟨u, hu, hov, ?_⟩
    have h2 := min_wait_le T u hov L 0xFFFFFFFF hu
    have h3 := track_wait_lt T u
    unfold U32 at h3
    omega
  · exact h1

theorem track_wait_eq (T : Nat) (u : midi_track) (h1 : T ≤ u.next_event_timestamp)
    (h2 : u.next_event_timestamp < U32) : track_wait T u = u.next_event_timestamp - T := by
  unfold track_wait
  unfold U32 at *
  omega

theorem live_track_facts (data : List Nat) (i : Nat) (a : midi_track) (es : List fired_event)
    (h : track_matches data i a es) (hov : midi_track_over a = false)
    (hticks : ∀ e ∈ es, e.tick < U32) :
    a.next_event_timestamp < U32 ∧
      ∀ e ∈ es, a.next_event_timestamp ≤ e.tick ∧ e.track = i := by
  obtain ⟨t, r0, fuel, es', _, _, _, hes, rfl⟩ := track_matches_live data i a es h hov
  refine ⟨hticks _ (List.mem_cons_self _ _), ?_⟩
  intro e he
  rcases List.mem_cons.mp he with rfl | he'
  · exact ⟨le_refl _, rfl⟩
  · have := track_schedule_bound data i _ _ _ _ hes e he'
    exact ⟨by omega, this.2⟩

theorem midi_track_over_eot (t : midi_track) (h : midi_track_over t = false) :
    t.end_of_track = 0 := by
  simp only [midi_track_over, Bool.or_eq_false_iff, decide_eq_false_iff_not, ne_eq,
    not_not] at h
  exact h.1

theorem track_core_fired (r : next_result) (T : Nat) :
    track_core (fired_track r T) = track_core r.track := rfl

/-- A call in a state where a track is due fires the first such track. -/
theorem fire_step (ndebug : Bool) (data : List Nat) (n : Nat) (r : parser_result)
    (rem : Nat → List fired_event) (hinv : sched_inv data n r.parser r.midi rem)
    (A B : List midi_track) (t : midi_track)
    (hsplit : r.parser.tracks.take n = A ++ t :: B)
    (hA : ∀ u ∈ A, ¬ (midi_track_over u = false ∧
      u.next_event_timestamp = (r.parser.timestamp + r.parser.dtime) % U32))
    (ht : midi_track_over t = false ∧
      t.next_event_timestamp = (r.parser.timestamp + r.parser.dtime) % U32) :
    ∃ res e es', midi_parser_next ndebug r.parser r.midi r.event r.midi_status = Run.ret res ∧
      call_entry r res = [e] ∧ e.track = A.length ∧ A.length < n ∧
      rem A.length = e :: es' ∧
      sched_inv data n res.parser res.midi (Function.update rem A.length es') ∧
      (∀ j < n, ∀ e' ∈ Function.update rem A.length es' j, fired_le e e') := by
  obtain ⟨p, event, ret0, st, midi, ch0, fi0⟩ := r
  simp only at hinv hsplit hA ht ⊢
  generalize hT : (p.timestamp + p.dtime) % U32 = T at *
  have hTlt : T < U32 := by rw [← hT]; exact Nat.mod_lt _ (by decide)
  have hn := hinv.count_eq
  have hlen : A.length + 1 + B.length = n := by
    have := congrArg List.length hsplit
    have h2 := hinv.count_le
    simp only [List.length_take, List.length_append, List.length_cons] at this
    omega
  have hk : A.length < n := by omega
  have htr : p.tracks = A ++ t :: (B ++ p.tracks.drop n) := by
    have := List.take_append_drop n p.tracks
    rw [hsplit] at this
    exact this.symm.trans (by simp)
  have hgk : p.tracks.getD A.length midi_track_zero = t := by
    rw [htr]; exact getD_mid _ _ _ _
  -- the events of the firing track
  have hm := hinv.tracks A.length hk
  rw [hgk] at hm
  obtain ⟨t0, r0, fuel, es', hc, hov0, hr0, hes', hrem⟩ :=
    track_matches_live data A.length t (rem A.length) hm ht.1
  have hr0' : midi_track_next t0 ⟨midi.data, 0⟩ midi_event_zero = Run.ret r0 := by
    rw [hinv.data_eq]; exact hr0
  obtain ⟨rr, hrr, f1, f2, f3, f4, f5, _, f7⟩ :=
    track_next_frame t t0 hc midi event midi_event_zero 0 r0 hr0'
  obtain ⟨q, hq⟩ := midi_parser_update_returns
    { p with timestamp := T, dtime := min_wait T A 0xFFFFFFFF } rr.event (Or.inl hinv.tpq)
  -- the waiting tracks
  have hahead : ∀ u ∈ A ++ t :: B, midi_track_over u = false → T ≤ u.next_event_timestamp := by
    intro u hu hov
    obtain ⟨j, hj, rfl⟩ := List.mem_iff_getElem.mp hu
    have hj' : j < n := by simp only [List.length_append, List.length_cons] at hj; omega
    have e : p.tracks.getD j midi_track_zero = (A ++ t :: B)[j] := by
      rw [htr]
      have e2 : A ++ t :: (B ++ p.tracks.drop n) = (A ++ t :: B) ++ p.tracks.drop n := by simp
      rw [e2, List.getD_append _ _ _ _ hj, List.getD_eq_getElem _ _ hj]
    have := hinv.ahead j hj'
    rw [e, hT] at this
    exact this hov
  have hA' : ∀ u ∈ A, midi_track_over u = false →
      (ndebug = true ∨ (p.timestamp + p.dtime) % U32 ≤ u.next_event_timestamp) ∧
        (p.timestamp + p.dtime) % U32 ≠ u.next_event_timestamp := by
    intro u hu hov
    rw [hT]
    exact ⟨Or.inr (hahead u (List.mem_append_left _ hu) hov),
      fun e => hA u hu ⟨hov, e.symm⟩⟩
  have hB' : ∀ u ∈ B, midi_track_over u = false →
      (ndebug = true ∨ (p.timestamp + p.dtime) % U32 ≤ u.next_event_timestamp) := by
    intro u hu hov
    rw [hT]
    exact Or.inr (hahead u (List.mem_append_right _ (List.mem_cons_of_mem _ hu)) hov)
  have hcall := call_fire ndebug p midi event st hinv.eof (by rw [hn]; exact hinv.count_le)
    (by rw [hn]; have := hinv.small; omega) A B t (by rw [hn]; exact hsplit) hA' hB' ht.1
    (by rw [hT]; exact ht.2.symm) rr hrr q (by rw [hT]; exact hq)
  rw [hT, hn] at hcall
  -- the new state
  have hL : A ++ fired_track rr T :: B ++ p.tracks.drop n
      = A ++ fired_track rr T :: (B ++ p.tracks.drop n) := by simp
  rw [hL] at hcall
  have hgetk : (A ++ fired_track rr T :: (B ++ p.tracks.drop n)).getD A.length midi_track_zero
      = fired_track rr T := getD_mid _ _ _ _
  have hgetj : ∀ j, j ≠ A.length →
      (A ++ fired_track rr T :: (B ++ p.tracks.drop n)).getD j midi_track_zero
        = p.tracks.getD j midi_track_zero := by
    intro j hj
    rw [getD_other A _ (fired_track rr T) t midi_track_zero j hj, ← htr]
  have hremk : rem A.length
      = ⟨T, A.length, t.current_position, r0.event.dtime, r0.event.status⟩ :: es' := by
    rw [hrem, ht.2]
  have hticksk : ∀ e' ∈ es', e'.tick < U32 := by
    intro e' he'
    apply hinv.ticks A.length hk
    rw [hremk]
    exact List.mem_cons_of_mem _ he'
  have hes'' : track_schedule data A.length fuel r0.track T = Run.ret es' := by
    rw [← ht.2]; exact hes'
  have hnext : midi_track_over r0.track = false →
      (fired_track rr T).next_event_timestamp = T + r0.track.next_event_timestamp := by
    intro hov
    have hm2 : track_matches data A.length
        { r0.track with next_event_timestamp := T + r0.track.next_event_timestamp } es' :=
      ⟨r0.track, T, fuel, rfl, hes'', fun _ => rfl⟩
    have hlt := (live_track_facts data A.length _ es' hm2 hov hticksk).1
    simp only at hlt
    simp only [fired_track]
    rw [f7 hov0 (midi_track_over_eot _ hov), Nat.add_comm, Nat.mod_eq_of_lt hlt]
  have hmk : track_matches data A.length (fired_track rr T) es' :=
    ⟨r0.track, T, fuel, (track_core_fired rr T).trans f1, hes'', hnext⟩
  have htracks : ∀ j < n, track_matches data j
      ((A ++ fired_track rr T :: (B ++ p.tracks.drop n)).getD j midi_track_zero)
      (Function.update rem A.length es' j) := by
    intro j hj
    by_cases hjk : j = A.length
    · subst hjk
      rw [hgetk, Function.update_same]
      exact hmk
    · rw [hgetj j hjk, Function.update_noteq hjk]
      exact hinv.tracks j hj
  have hticks : ∀ j < n, ∀ e' ∈ Function.update rem A.length es' j, e'.tick < U32 := by
    intro j hj e' he'
    by_cases hjk : j = A.length
    · subst hjk
      rw [Function.update_same] at he'
      exact hticksk e' he'
    · rw [Function.update_noteq hjk] at he'
      exact hinv.ticks j hj e' he'
  -- every unfinished track of the new state is due at T or later
  have hlater : ∀ j < n,
      midi_track_over ((A ++ fired_track rr T :: (B ++ p.tracks.drop n)).getD j
        midi_track_zero) = false →
      T ≤ ((A ++ fired_track rr T :: (B ++ p.tracks.drop n)).getD j
        midi_track_zero).next_event_timestamp ∧
      (j < A.length → T < ((A ++ fired_track rr T :: (B ++ p.tracks.drop n)).getD j
        midi_track_zero).next_event_timestamp) := by
    intro j hj hov
    by_cases hjk : j = A.length
    · subst hjk
      rw [hgetk] at hov ⊢
      have hov2 : midi_track_over r0.track = false := by
        rw [← midi_track_over_core _ _ ((track_core_fired rr T).trans f1)]; exact hov
      rw [hnext hov2]
      exact ⟨by omega, fun h => absurd h (lt_irrefl _)⟩
    · rw [hgetj j hjk] at hov ⊢
      have h1 := hinv.ahead j hj hov
      rw [hT] at h1
      refine ⟨h1, fun hlt => ?_⟩
      have hmem : p.tracks.getD j midi_track_zero ∈ A := by
        rw [htr, List.getD_append _ _ _ _ hlt, List.getD_eq_getElem _ _ hlt]
        exact List.getElem_mem _
      have := hA _ hmem
      rcases Nat.lt_or_eq_of_le h1 with h2 | h2
      · exact h2
      · exact absurd ⟨hov, h2.symm⟩ this
  have htake : (A ++ fired_track rr T :: (B ++ p.tracks.drop n)).take n
      = A ++ fired_track rr T :: B := by
    rw [← hL]
    apply List.take_left'
    simp only [List.length_append, List.length_cons]
    omega
  refine ⟨_, ⟨T, A.length, t.current_position, r0.event.dtime, r0.event.status⟩, es', hcall,
    ?_, rfl, hk, hremk, ?_, ?_⟩
  · simp only [call_entry, parser_after, hgk, f4, f5]
  · refine ⟨rfl, hn, ?_, hinv.small, hinv.tpq, ?_, htracks, hticks, ?_⟩
    · simp only [parser_after]
      rw [← hL]
      have := hinv.count_le
      rw [htr] at this
      simp only [List.length_append, List.length_cons] at this ⊢
      omega
    · rw [f2]; exact hinv.data_eq
    · intro j hj hov
      simp only [parser_after] at hov ⊢
      rw [hn, htake]
      have hmem := getD_mem_split A B (p.tracks.drop n) (fired_track rr T) midi_track_zero j
        (by omega)
      have hw := min_wait_le T _ hov _ 0xFFFFFFFF hmem
      have hl := (hlater j hj hov).1
      have hlt := (live_track_facts data j _ _ (htracks j hj) hov (hticks j hj)).1
      rw [track_wait_eq T _ hl hlt] at hw
      have : T + min_wait T (A ++ fired_track rr T :: B) 0xFFFFFFFF < U32 := by omega
      rw [Nat.mod_eq_of_lt this]
      omega
  · intro j hj e' he'
    have hov : midi_track_over ((A ++ fired_track rr T :: (B ++ p.tracks.drop n)).getD j
        midi_track_zero) = false := by
      cases h : midi_track_over ((A ++ fired_track rr T :: (B ++ p.tracks.drop n)).getD j
        midi_track_zero) with
      | false => rfl
      | true =>
        have := track_matches_over data j _ _ (htracks j hj) h
        rw [this] at he'
        simp at he'
    have hf := (live_track_facts data j _ _ (htracks j hj) hov (hticks j hj)).2 e' he'
    have hl := hlater j hj hov
    unfold fired_le
    simp only
    rcases Nat.lt_trichotomy j A.length with h | h | h
    · exact Or.inl (lt_of_lt_of_le (hl.2 h) hf.1)
    · rcases Nat.lt_or_eq_of_le (le_trans hl.1 hf.1) with h2 | h2
      · exact Or.inl h2
      · exact Or.inr ⟨h2, by rw [hf.2, h]⟩
    · rcases Nat.lt_or_eq_of_le (le_trans hl.1 hf.1) with h2 | h2
      · exact Or.inl h2
      · exact Or.inr ⟨h2, by rw [hf.2]; omega⟩

theorem first_split {α : Type} (P : α → Prop) [DecidablePred P] : ∀ L : List α,
    (∀ u ∈ L, ¬ P u) ∨ ∃ A t B, L = A ++ t :: B ∧ (∀ u ∈ A, ¬ P u) ∧ P t := by
  intro L
  induction L with
  | nil => exact Or.inl (fun u hu => by simp at hu)
  | cons x L ih =>
    by_cases hx : P x
    · exact Or.inr ⟨[], x, L, rfl, fun u hu => by simp at hu, hx⟩
    · rcases ih with h | ⟨A, t, B, rfl, hA, ht⟩
      · refine Or.inl (fun u hu => ?_)
        rcases List.mem_cons.mp hu with rfl | hu
        · exact hx
        · exact h u hu
      · refine Or.inr ⟨x :: A, t, B, rfl, fun u hu => ?_, ht⟩
        rcases List.mem_cons.mp hu with rfl | hu
        · exact hx
        · exact hA u hu

theorem take_mem_getD {α : Type} (L : List α) (n : Nat) (d u : α) (h : u ∈ L.take n) :
    ∃ j, j < n ∧ L.getD j d = u := by
  obtain ⟨j, hj, rfl⟩ := List.mem_iff_getElem.mp h
  have hj' := hj
  simp only [List.length_take] at hj'
  refine ⟨j, by omega, ?_⟩
  rw [List.getD_eq_getElem _ _ (by omega), List.getElem_take L]

theorem getD_mem_take {α : Type} (L : List α) (n : Nat) (d : α) (j : Nat) (hj : j < n)
    (hn : n ≤ L.length) : L.getD j d ∈ L.take n := by
  rw [List.getD_eq_getElem _ _ (by omega)]
  have : j < (L.take n).length := by simp only [List.length_take]; omega
  have e : (L.take n)[j] = L[j] := List.getElem_take L
  rw [← e]
  exact List.getElem_mem _

/-- A call in a state where no unfinished track is due decodes nothing. -/
theorem idle_step (ndebug : Bool) (data : List Nat) (n : Nat) (r : parser_result)
    (rem : Nat → List fired_event) (hinv : sched_inv data n r.parser r.midi rem)
    (hno : ∀ u ∈ r.parser.tracks.take n, ¬ (midi_track_over u = false ∧
      u.next_event_timestamp = (r.parser.timestamp + r.parser.dtime) % U32)) :
    ∃ res, midi_parser_next ndebug r.parser r.midi r.event r.midi_status = Run.ret res ∧
      call_entry r res = [] ∧
      ((∀ u ∈ r.parser.tracks.take n, midi_track_over u = true) → res.parser.end_of_file = 1) ∧
      ((∃ u ∈ r.parser.tracks.take n, midi_track_over u = false) →
        sched_inv data n res.parser res.midi rem ∧
        ∃ u ∈ res.parser.tracks.take n, midi_track_over u = false ∧
          u.next_event_timestamp = (res.parser.timestamp + res.parser.dtime) % U32) := by
  obtain ⟨p, event, ret0, st, midi, ch0, fi0⟩ := r
  simp only at hinv hno ⊢
  generalize hT : (p.timestamp + p.dtime) % U32 = T at *
  have hn := hinv.count_eq
  have hahead : ∀ u ∈ p.tracks.take n, midi_track_over u = false →
      T ≤ u.next_event_timestamp ∧ u.next_event_timestamp < U32 := by
    intro u hu hov
    obtain ⟨j, hj, rfl⟩ := take_mem_getD p.tracks n midi_track_zero u hu
    have h1 := hinv.ahead j hj hov
    rw [hT] at h1
    exact ⟨h1, (live_track_facts data j _ _ (hinv.tracks j hj) hov (hinv.ticks j hj)).1⟩
  have hcall := call_idle ndebug p midi event st hinv.eof (by rw [hn]; exact hinv.count_le)
    (by
      rw [hn, hT]
      intro u hu hov
      exact ⟨Or.inr (hahead u hu hov).1, fun e => hno u hu ⟨hov, e.symm⟩⟩)
  rw [hT, hn] at hcall
  refine ⟨_, hcall, rfl, ?_, ?_⟩
  · intro hall
    simp only [parser_after]
    rw [live_fold_all_over _ 0 hall]
    rfl
  · intro hex
    have hlen : (p.tracks.take n).length = n := by
      simp only [List.length_take]
      have := hinv.count_le
      omega
    have hpos := live_fold_pos (p.tracks.take n) 0
      (by rw [hlen]; have := hinv.small; omega) hex
    have hne : live_fold (p.tracks.take n) 0 ≠ 0 := by omega
    constructor
    · refine ⟨?_, hn, hinv.count_le, hinv.small, hinv.tpq, hinv.data_eq, hinv.tracks,
        hinv.ticks, ?_⟩
      · simp only [parser_after, if_neg hne]
      · intro j hj hov
        simp only [parser_after] at hov ⊢
        rw [hn]
        have hmem := getD_mem_take p.tracks n midi_track_zero j hj hinv.count_le
        have hw := min_wait_le T _ hov _ 0xFFFFFFFF hmem
        have hb := hahead _ hmem hov
        rw [track_wait_eq T _ hb.1 hb.2] at hw
        have : T + min_wait T (p.tracks.take n) 0xFFFFFFFF < U32 := by omega
        rw [Nat.mod_eq_of_lt this]
        omega
    · obtain ⟨u, hu, hov, hmin⟩ := min_wait_attained T (p.tracks.take n) hex
      refine ⟨u, hu, hov, ?_⟩
      have hb := hahead u hu hov
      simp only [parser_after]
      rw [hn, hmin, track_wait_eq T _ hb.1 hb.2]
      have : T + (u.next_event_timestamp - T) = u.next_event_timestamp := by omega
      rw [this, Nat.mod_eq_of_lt hb.2]

theorem trace_succ (ndebug : Bool) (N : Nat) (r res : parser_result)
    (tr : List fired_event) (rf : parser_result) (h0 : r.parser.end_of_file = 0)
    (h1 : midi_parser_next ndebug r.parser r.midi r.event r.midi_status = Run.ret res)
    (h2 : midi_parser_trace ndebug N res = Run.ret (tr, rf)) :
    midi_parser_trace ndebug (N + 1) r = Run.ret (call_entry r res ++ tr, rf) := by
  simp only [midi_parser_trace, midi_parser_eof, h0, h1, h2, Run.bind]
  simp

theorem sum_update_rem (n k : Nat) (hk : k < n) (rem : Nat → List fired_event)
    (e : fired_event) (es : List fired_event) (h : rem k = e :: es) :
    (∑ i in Finset.range n, (Function.update rem k es i).length) + 1
      = ∑ i in Finset.range n, (rem i).length := by
  have hmem : k ∈ Finset.range n := Finset.mem_range.mpr hk
  have h1 := Finset.add_sum_erase (Finset.range n) (fun i => (rem i).length) hmem
  have h2 := Finset.add_sum_erase (Finset.range n)
    (fun i => (Function.update rem k es i).length) hmem
  have h3 : ∑ x in (Finset.range n).erase k, (Function.update rem k es x).length
      = ∑ x in (Finset.range n).erase k, (rem x).length :=
    Finset.sum_congr rfl (fun x hx => by rw [Function.update_noteq (Finset.ne_of_mem_erase hx)])
  simp only [Function.update_same, h] at h1 h2
  simp only [List.length_cons] at h1
  omega

theorem fire_then (ndebug : Bool) (data : List Nat) (n : Nat) (M : Nat)
    (ih : ∀ (r : parser_result) (rem : Nat → List fired_event),
      sched_inv data n r.parser r.midi rem → (∑ i in Finset.range n, (rem i).length) = M →
      ∃ N tr rf, midi_parser_trace ndebug N r = Run.ret (tr, rf) ∧
        rf.parser.end_of_file = 1 ∧ merges n rem tr)
    (r : parser_result) (rem : Nat → List fired_event)
    (hinv : sched_inv data n r.parser r.midi rem)
    (hsum : (∑ i in Finset.range n, (rem i).length) = M + 1)
    (A B : List midi_track) (t : midi_track)
    (hsplit : r.parser.tracks.take n = A ++ t :: B)
    (hA : ∀ u ∈ A, ¬ (midi_track_over u = false ∧
      u.next_event_timestamp = (r.parser.timestamp + r.parser.dtime) % U32))
    (ht : midi_track_over t = false ∧
      t.next_event_timestamp = (r.parser.timestamp + r.parser.dtime) % U32) :
    ∃ N tr rf, midi_parser_trace ndebug N r = Run.ret (tr, rf) ∧
      rf.parser.end_of_file = 1 ∧ merges n rem tr := by
  obtain ⟨res, e, es', hcall, hentry, hetr, hk, hrem, hinv', hle⟩ :=
    fire_step ndebug data n r rem hinv A B t hsplit hA ht
  have hsum' := sum_update_rem n A.length hk rem e es' hrem
  obtain ⟨N, tr, rf, htrace, heof, hfilter, htrack, hpair⟩ :=
    ih res (Function.update rem A.length es') hinv' (by omega)
  refine ⟨N + 1, e :: tr, rf, ?_, heof, ?_, ?_, ?_⟩
  · rw [trace_succ ndebug N r res tr rf hinv.eof hcall htrace, hentry]
    rfl
  · intro i hi
    by_cases hik : i = A.length
    · subst hik
      have := hfilter A.length hi
      rw [Function.update_same] at this
      rw [List.filter_cons, if_pos (by simp [hetr]), this, hrem]
    · have := hfilter i hi
      rw [Function.update_noteq hik] at this
      rw [List.filter_cons, if_neg (by simp [hetr]; exact fun h => hik h.symm), this]
  · intro e' he'
    rcases List.mem_cons.mp he' with rfl | he'
    · rw [hetr]; exact hk
    · exact htrack e' he'
  · rw [List.pairwise_cons]
    refine ⟨fun e' he' => ?_, hpair⟩
    have hlt := htrack e' he'
    apply hle e'.track hlt
    rw [← hfilter e'.track hlt]
    exact List.mem_filter.mpr ⟨he', by simp⟩

/-- From any state satisfying the invariant, the scheduler fires the remaining events of
all tracks in merge order and then sets `end_of_file`. -/
theorem run_merges (ndebug : Bool) (data : List Nat) (n : Nat) : ∀ (M : Nat)
    (r : parser_result) (rem : Nat → List fired_event),
    sched_inv data n r.parser r.midi rem → (∑ i in Finset.range n, (rem i).length) = M →
    ∃ N tr rf, midi_parser_trace ndebug N r = Run.ret (tr, rf) ∧
      rf.parser.end_of_file = 1 ∧ merges n rem tr := by
  intro M
  induction M with
  | zero =>
    intro r rem hinv hsum
    -- every track is over
    have hnil : ∀ i < n, rem i = [] := by
      intro i hi
      have := (Finset.sum_eq_zero_iff.mp hsum) i (Finset.mem_range.mpr hi)
      exact List.length_eq_zero.mp this
    have hover : ∀ u ∈ r.parser.tracks.take n, midi_track_over u = true := by
      intro u hu
      obtain ⟨j, hj, rfl⟩ := take_mem_getD r.parser.tracks n midi_track_zero u hu
      cases h : midi_track_over (r.parser.tracks.getD j midi_track_zero) with
      | true => rfl
      | false =>
        obtain ⟨_, _, _, _, _, _, _, _, he⟩ :=
          track_matches_live data j _ _ (hinv.tracks j hj) h
        rw [hnil j hj] at he
        cases he
    obtain ⟨res, hcall, hentry, heof, _⟩ := idle_step ndebug data n r rem hinv
      (fun u hu hc => by rw [hover u hu] at hc; cases hc.1)
    have hlast : midi_parser_trace ndebug 1 res = Run.ret ([], res) := by
      simp [midi_parser_trace, midi_parser_eof, heof hover]
    refine ⟨2, [], res, ?_, heof hover, ?_, ?_, List.Pairwise.nil⟩
    · rw [trace_succ ndebug 1 r res [] res hinv.eof hcall hlast, hentry]
      rfl
    · intro i hi
      rw [hnil i hi]
      rfl
    · intro e he
      simp at he
  | succ M ih =>
    intro r rem hinv hsum
    rcases first_split (fun u : midi_track => midi_track_over u = false ∧
        u.next_event_timestamp = (r.parser.timestamp + r.parser.dtime) % U32)
        (r.parser.tracks.take n) with hno | ⟨A, t, B, hsplit, hA, ht⟩
    · -- nothing is due: one idle call, then a track is due
      have hex : ∃ u ∈ r.parser.tracks.take n, midi_track_over u = false := by
        by_contra hcon
        have hover : ∀ i < n, rem i = [] := by
          intro i hi
          apply track_matches_over data i _ _ (hinv.tracks i hi)
          cases h : midi_track_over (r.parser.tracks.getD i midi_track_zero) with
          | true => rfl
          | false =>
            exact absurd ⟨_, getD_mem_take r.parser.tracks n midi_track_zero i hi
              hinv.count_le, h⟩ hcon
        have : (∑ i in Finset.range n, (rem i).length) = 0 :=
          Finset.sum_eq_zero (fun i hi => by
            rw [hover i (Finset.mem_range.mp hi)]; rfl)
        omega
      obtain ⟨res, hcall, hentry, _, hnext⟩ := idle_step ndebug data n r rem hinv hno
      obtain ⟨hinv', u, hu, hudue⟩ := hnext hex
      rcases first_split (fun u : midi_track => midi_track_over u = false ∧
          u.next_event_timestamp = (res.parser.timestamp + res.parser.dtime) % U32)
          (res.parser.tracks.take n) with hno' | ⟨A, t, B, hsplit, hA, ht⟩
      · exact absurd hudue (hno' u hu)
      · obtain ⟨N, tr, rf, htrace, heof, hm⟩ :=
          fire_then ndebug data n M ih res rem hinv' hsum A B t hsplit hA ht
        refine ⟨N + 1, tr, rf, ?_, heof, hm⟩
        rw [trace_succ ndebug N r res tr rf hinv.eof hcall htrace, hentry]
        rfl
    · exact fire_then ndebug data n M ih r rem hinv hsum A B t hsplit hA ht

theorem track_new_loop_data (ndebug : Bool) : ∀ (n : Nat) (magic : Option (List Nat))
    (ts : Option Nat) (m : FILE) (l : Option Nat × FILE),
    midi_track_new_loop ndebug n magic ts m = Run.ret l → l.2.data = m.data := by
  intro n
  induction n with
  | zero =>
    intro magic ts m l h
    cases ts with
    | none => cases h
    | some v => simp only [midi_track_new_loop] at h; cases h; rfl
  | succ k ih =>
    intro magic ts m l h
    simp only [midi_track_new_loop] at h
    split at h
    · cases h
    · split at h
      · split at h
        · cases h; rfl
        · cases h
      · split at h
        · cases h
        · have := ih _ _ _ _ h
          rw [this, fseek_cur_data]
          rfl

theorem track_new_data (ndebug : Bool) (m : FILE) (i : Nat) (r : track_result)
    (h : midi_track_new ndebug m i = Run.ret r) : r.midi.data = m.data := by
  unfold midi_track_new at h
  dsimp only at h
  cases hl : midi_track_new_loop ndebug (i + 1) none none (fseek_set m MIDI_HEADER_SIZE) with
  | ret l =>
    rw [hl] at h
    have hd := track_new_loop_data ndebug _ _ _ _ _ hl
    simp only [Run.bind] at h
    split at h
    · cases h; exact hd
    · rename_i v hv
      cases hp : midi_value_peek (fseek_set l.2
          ((u32 ((ftell l.2 : Int) - (v : Int) - (MIDI_TRACK_HEADER_SIZE : Int))
            + MIDI_TRACK_HEADER_SIZE) % U32)) with
      | ret p =>
        rw [hp] at h
        simp only at h
        cases h
        have := value_peek_data _ _ hp
        simp only [fseek_set] at this ⊢
        rw [this]; exact hd
      | diverges => rw [hp] at h; cases h
      | aborts => rw [hp] at h; cases h
      | undefined => rw [hp] at h; cases h
  | diverges => rw [hl] at h; cases h
  | aborts => rw [hl] at h; cases h
  | undefined => rw [hl] at h; cases h

theorem parser_new_loop_spec (ndebug : Bool) : ∀ (n i : Nat) (tracks : List midi_track)
    (st : Nat) (m : FILE) (l : List midi_track × Nat × FILE),
    midi_parser_new_loop ndebug n i tracks st m = Run.ret l →
    (n = 0 ∨ i + n ≤ 16) ∧ l.1.length = tracks.length ∧ l.2.2.data = m.data := by
  intro n
  induction n with
  | zero =>
    intro i tracks st m l h
    simp only [midi_parser_new_loop] at h
    cases h
    exact ⟨Or.inl rfl, rfl, rfl⟩
  | succ k ih =>
    intro i tracks st m l h
    simp only [midi_parser_new_loop] at h
    split at h
    · cases h
    · rename_i hi
      cases hr : midi_track_new ndebug m i with
      | ret r =>
        rw [hr] at h
        simp only [Run.bind] at h
        have hd := track_new_data ndebug m i r hr
        split at h
        · obtain ⟨h1, h2, h3⟩ := ih _ _ _ _ _ h
          refine ⟨Or.inr ?_, ?_, ?_⟩
          · rcases h1 with h1 | h1
            · omega
            · omega
          · rw [h2, List.length_set]
          · rw [h3, hd]
        · obtain ⟨h1, h2, h3⟩ := ih _ _ _ _ _ h
          refine ⟨Or.inr ?_, h2, ?_⟩
          · rcases h1 with h1 | h1
            · omega
            · omega
          · rw [h3, hd]
      | diverges => rw [hr] at h; cases h
      | aborts => rw [hr] at h; cases h
      | undefined => rw [hr] at h; cases h

theorem header_new_data (m : FILE) (h : header_result) (hh : midi_header_new m = Run.ret h) :
    h.midi.data = m.data := by
  unfold midi_header_new at hh
  dsimp only at hh
  split at hh
  · cases hh
  · split at hh
    · cases hh; rfl
    · split at hh
      · cases hh
      · rw [← Run.ret.inj hh]
        simp only [fread_data]

/-- The state in which `midi_parser_new (NULL, midi)` leaves a parser it returns. -/
theorem parser_new_state (ndebug : Bool) (m : FILE) (p : midi_parser_t) (st : Nat) (f : FILE)
    (h : midi_parser_new ndebug none m = Run.ret ⟨some p, st, f⟩) :
    p.end_of_file = 0 ∧ p.timestamp = 0 ∧ p.dtime = 0 ∧ p.track_count ≤ 16 ∧
      p.tracks.length = 16 ∧ f.data = m.data := by
  unfold midi_parser_new at h
  split at h
  · cases h
  · cases hh : midi_header_new m with
    | ret hd =>
      rw [hh] at h
      have hdata := header_new_data m hd hh
      simp only [Run.bind] at h
      split at h
      · cases h
      · rename_i header hhe
        split at h
        · cases h
        · cases hl : midi_parser_new_loop ndebug header.track_count 0 midi_parser_zero.tracks
              hd.midi_status hd.midi with
          | ret l =>
            rw [hl] at h
            simp only at h
            cases h
            obtain ⟨h1, h2, h3⟩ := parser_new_loop_spec ndebug _ _ _ _ _ _ hl
            refine ⟨rfl, rfl, rfl, ?_, ?_, ?_⟩
            · show header.track_count ≤ 16
              omega
            · show l.1.length = 16
              rw [h2]; rfl
            · rw [h3, hdata]
          | diverges => rw [hl] at h; cases h
          | aborts => rw [hl] at h; cases h
          | undefined => rw [hl] at h; cases h
    | diverges => rw [hh] at h; cases h
    | aborts => rw [hh] at h; cases h
    | undefined => rw [hh] at h; cases h

/-! ### Text and sysex payloads -/

theorem MIDI_MIN_eq_min (x y : Nat) : MIDI_MIN x y = min x y := by
  unfold MIDI_MIN
  split
  · omega
  · omega

theorem fread_inside_file (f : FILE) (n : Nat) (h : f.pos + n ≤ f.data.length) :
    fread f n = (((f.data.drop f.pos).take n).map (fun b => b % 256), ⟨f.data, f.pos + n⟩) :=
  fread_inside f.data f.pos n h

theorem overlay_write_at (rd old : List Nat) (h : rd.length < old.length) :
    write_at (overlay rd old) rd.length 0 = rd ++ 0 :: old.drop (rd.length + 1) := by
  unfold write_at overlay
  have hl : (rd ++ old.drop rd.length).length = old.length := by
    simp only [List.length_append, List.length_drop]; omega
  have h0 : rd.length + 1 - (rd ++ old.drop rd.length).length = 0 := by omega
  rw [h0]
  simp only [List.replicate_zero, List.append_nil]
  rw [List.set_append_right _ _ (Nat.le_refl _)]
  simp only [Nat.sub_self]
  rw [List.drop_eq_getElem_cons h]
  rfl

/-- C11 (text truncation).  Let the read position stand at the type byte of a meta event
of the text family (type 1 to 7), let `midi_value_read` decode the length `L` after it, and
let the `L` payload bytes lie inside the source.  Then `midi_event_meta_new`, given an event
whose text buffer has 128 bytes, returns the event with that type, `size` = `L`, and a text
buffer holding the first min(`L`, 127) payload bytes, then a zero byte, then what the buffer
held before; the buffer still has 128 bytes, no other field changes, and the read position
is left right after the `L` payload bytes. -/
theorem text_truncation (self : midi_event) (midi : FILE) (b L : Nat) (m : FILE)
    (hb : midi.data[midi.pos]? = some b) (ht : 1 ≤ b % 256 ∧ b % 256 ≤ 7)
    (hlen : midi_value_read ⟨midi.data, midi.pos + 1⟩ = Run.ret (L, m))
    (hin : m.pos + L ≤ midi.data.length) (htext : self.text.length = 128) :
    ∃ r, midi_event_meta_new self midi = Run.ret r ∧ r.returned = true ∧
      r.midi_status = MIDI_Success ∧
      r.event = { self with
        meta_type := b % 256, size := L,
        text := ((midi.data.drop m.pos).take (min L 127)).map (fun x => x % 256) ++
          0 :: self.text.drop (min L 127 + 1) } ∧
      r.event.text.length = 128 ∧ r.midi = ⟨midi.data, m.pos + L⟩ := by
  have hdata : m.data = midi.data := value_read_data _ _ hlen
  obtain ⟨t, ht'⟩ : ∃ t, t = b % 256 := ⟨_, rfl⟩
  have hrd : (fread m (min L 127)) =
      (((midi.data.drop m.pos).take (min L 127)).map (fun x => x % 256),
        ⟨midi.data, m.pos + min L 127⟩) := by
    rw [fread_inside_file m _ (by rw [hdata]; omega), hdata]
  have hrl : (((midi.data.drop m.pos).take (min L 127)).map (fun x => x % 256)).length
      = min L 127 := by
    simp only [List.length_map, List.length_take, List.length_drop]; omega
  unfold midi_event_meta_new
  rw [getc_some midi b hb]
  simp only [u8_natCast, Nat.mod_mod]
  have e : ({ midi with pos := midi.pos + 1 } : FILE) = ⟨midi.data, midi.pos + 1⟩ := rfl
  rw [e, hlen]
  simp only [Run.bind, MIDI_MIN_eq_min]
  rw [← ht'] at ht ⊢
  have hcase : t = MetaText ∨ t = MetaCopyright ∨ t = MetaTrackName ∨ t = MetaInstrumentName
      ∨ t = MetaLyrics ∨ t = MetaMarker ∨ t = MetaCuePoint := by
    simp only [MetaText, MetaCopyright, MetaTrackName, MetaInstrumentName, MetaLyrics,
      MetaMarker, MetaCuePoint]
    omega
  rw [if_neg (by simp only [MetaEndOfTrack]; omega), if_neg (by simp only [MetaSetTempo]; omega),
    if_neg (by simp only [MetaSequence]; omega),
    if_neg (by simp only [MetaChannelPrefix]; omega),
    if_neg (by simp only [MetaTimeSignature]; omega),
    if_neg (by simp only [MetaKeySignature]; omega),
    if_neg (by simp only [MetaSMPTEOffset]; omega),
    if_neg (by simp only [MetaSequencerSpecific]; omega), if_pos hcase]
  rw [hrd]
  simp only
  have hw := overlay_write_at (((midi.data.drop m.pos).take (min L 127)).map (fun x => x % 256))
    self.text (by rw [hrl, htext]; omega)
  rw [hrl] at hw
  rw [hw]
  refine ⟨_, rfl, rfl, rfl, rfl, ?_, ?_⟩
  · simp only [List.length_append, hrl, List.length_cons, List.length_drop, htext]
    omega
  · simp only
    split
    · rename_i h127
      unfold fseek_cur
      simp only
      rw [if_pos (by omega)]
      congr 1
      omega
    · congr 1
      omega

set_option maxRecDepth 100000 in
/-- The theorem `text_truncation` at `long_text_meta`, a text event of declared length 200:
the buffer receives the 127 bytes 1, ..., 127 and a zero byte, `size` is 200, and the read
position ends at offset 203, after the 200th payload byte. -/
theorem text_truncation_witness :
    midi_value_read ⟨long_text_meta, 1⟩ = Run.ret (200, ⟨long_text_meta, 3⟩) ∧
      ∃ r, midi_event_meta_new midi_event_zero ⟨long_text_meta, 0⟩ = Run.ret r ∧
        r.event.size = 200 ∧
        r.event.text = (List.range 127).map (fun i => i + 1) ++ [0] ∧
        r.midi = ⟨long_text_meta, 203⟩ := by
  refine ⟨by decide, ?_⟩
  obtain ⟨r, h1, _, _, h4, _, h6⟩ := text_truncation midi_event_zero ⟨long_text_meta, 0⟩ 1 200
    ⟨long_text_meta, 3⟩ (by decide) (by decide) (by decide) (by decide) (by decide)
  refine ⟨r, h1, ?_, ?_, h6⟩
  · rw [h4]
  · rw [h4]; decide

/-- C18 (sysex truncate-and-skip).  Let `midi_value_read` decode a delta-time `d` at the read
position, let the next byte be the status `0xF0` or `0xF7`, let `midi_value_read` decode the
length `L` after it, and let the `L` payload bytes lie inside the source.  Then
`midi_event_new`, given an event whose sysex buffer has 128 bytes and whatever running
status, returns a non-`NULL` event with `MIDI_Success`, sets the running status to 0, and
the event is the one passed in with `dtime` = `d`, that status, `size` = `L`, and the first
min(`L`, 128) payload bytes at the start of the sysex buffer, the rest of which is unchanged;
the buffer still has 128 bytes, and the read position is left right after the `L` payload
bytes. -/
theorem sysex_truncate_skip (self : midi_event) (midi : FILE) (running_status : Nat)
    (d : Nat) (m1 : FILE) (b L : Nat) (m2 : FILE)
    (hd : midi_value_read midi = Run.ret (d, m1))
    (hb : midi.data[m1.pos]? = some b) (hs : b % 256 = 0xF0 ∨ b % 256 = 0xF7)
    (hlen : midi_value_read ⟨midi.data, m1.pos + 1⟩ = Run.ret (L, m2))
    (hin : m2.pos + L ≤ midi.data.length) (hbuf : self.sysex_data.length = 128) :
    ∃ r, midi_event_new self midi running_status = Run.ret r ∧ r.returned = true ∧
      r.midi_status = MIDI_Success ∧ r.running_status = 0 ∧
      r.event = { self with
        dtime := d, status := b % 256, size := L,
        sysex_data := ((midi.data.drop m2.pos).take (min L 128)).map (fun x => x % 256) ++
          self.sysex_data.drop (min L 128) } ∧
      r.event.sysex_data.length = 128 ∧ r.midi = ⟨midi.data, m2.pos + L⟩ := by
  have hdata1 : m1.data = midi.data := value_read_data _ _ hd
  have hdata2 : m2.data = midi.data := value_read_data _ _ hlen
  obtain ⟨s, hs'⟩ : ∃ s, s = b % 256 := ⟨_, rfl⟩
  have hrd : (fread m2 (min L 128)) =
      (((midi.data.drop m2.pos).take (min L 128)).map (fun x => x % 256),
        ⟨midi.data, m2.pos + min L 128⟩) := by
    rw [fread_inside_file m2 _ (by rw [hdata2]; omega), hdata2]
  have hrl : (((midi.data.drop m2.pos).take (min L 128)).map (fun x => x % 256)).length
      = min L 128 := by
    simp only [List.length_map, List.length_take, List.length_drop]; omega
  unfold midi_event_new
  rw [hd]
  simp only [Run.bind]
  rw [getc_some m1 b (by rw [hdata1]; exact hb)]
  simp only [u8_natCast, Nat.mod_mod]
  rw [← hs'] at hs ⊢
  have hge : ¬ s < 0x80 := by omega
  simp only [hge, decide_False, Bool.false_eq_true, if_false]
  have htype : s &&& 0xF0 = 0xF0 := by
    rcases hs with h | h <;> rw [h] <;> decide
  rw [htype]
  rw [if_neg (by decide), if_pos (by decide), if_pos hs]
  unfold midi_event_sysex_new
  have e : ({ m1 with pos := m1.pos + 1 } : FILE) = ⟨midi.data, m1.pos + 1⟩ := by
    rw [← hdata1]
  rw [e, hlen]
  simp only [Run.bind, MIDI_MIN_eq_min]
  rw [hrd]
  simp only
  refine ⟨_, rfl, rfl, rfl, rfl, ?_, ?_, ?_⟩
  · simp only [overlay, hrl]
  · simp only [overlay, List.length_append, hrl, List.length_drop, hbuf]
    omega
  · simp only
    split
    · unfold fseek_cur
      simp only
      rw [if_pos (by omega)]
      congr 1
      omega
    · congr 1
      omega

set_option maxRecDepth 100000 in
/-- The theorem `sysex_truncate_skip` at `long_sysex`, a sysex event of declared length 130
decoded with running status `0x90`: the running status is cleared, `size` is 130, the buffer
holds the 128 bytes 1, ..., 128, and the read position ends at offset 134. -/
theorem sysex_truncate_skip_witness :
    midi_value_read ⟨long_sysex, 0⟩ = Run.ret (0, ⟨long_sysex, 1⟩) ∧
      midi_value_read ⟨long_sysex, 2⟩ = Run.ret (130, ⟨long_sysex, 4⟩) ∧
      ∃ r, midi_event_new midi_event_zero ⟨long_sysex, 0⟩ 0x90 = Run.ret r ∧
        r.running_status = 0 ∧ r.event.size = 130 ∧
        r.event.sysex_data = (List.range 128).map (fun i => i + 1) ∧
        r.midi = ⟨long_sysex, 134⟩ := by
  refine ⟨by decide, by decide, ?_⟩
  obtain ⟨r, h1, _, _, h3, h4, _, h6⟩ := sysex_truncate_skip midi_event_zero ⟨long_sysex, 0⟩
    0x90 0 ⟨long_sysex, 1⟩ 0xF0 130 ⟨long_sysex, 4⟩ (by decide) (by decide) (by decide)
    (by decide) (by decide) (by decide)
  refine ⟨r, h1, h3, ?_, ?_, h6⟩
  · rw [h4]
  · rw [h4]; decide

/-! ### One call of the scheduler, whatever the state -/

theorem bind_eq_ret {α β : Type} (x : Run α) (f : α → Run β) (b : β)
    (h : x.bind f = Run.ret b) : ∃ a, x = Run.ret a ∧ f a = Run.ret b := by
  cases x with
  | ret a => exact ⟨a, rfl, h⟩
  | diverges => cases h
  | aborts => cases h
  | undefined => cases h

/-- One iteration of the loop of `midi_parser_next`, read off a run that returned: the
track is over and skipped, or it is passed over without decoding, or it is decoded. -/
theorem loop_cons_cases (ndebug : Bool) (n : Nat) (t : midi_track) (rest : List midi_track)
    (i : Nat) (s : next_loop) (ts' : List midi_track) (s' : next_loop)
    (h : midi_parser_next_loop ndebug n (t :: rest) i s = Run.ret (ts', s')) :
    ∃ t' s1 rest', ts' = t' :: rest' ∧
      midi_parser_next_loop ndebug n rest (i + 1) s1 = Run.ret (rest', s') ∧
      ((midi_track_over t = true ∧ t' = t ∧ s1 = s) ∨
       (midi_track_over t = false ∧ t' = t ∧ s1 = loop_passed s [t] ∧
          (ndebug = true ∨ s.self.timestamp ≤ t.next_event_timestamp)) ∨
       (midi_track_over t = false ∧ s.chosen = 0 ∧
          s.self.timestamp = t.next_event_timestamp ∧
          ∃ r q, midi_track_next t s.midi s.event = Run.ret r ∧
            midi_parser_update s.self r.event = Run.ret q ∧
            t' = fired_track r s.self.timestamp ∧ s1 = loop_fired s i r q)) := by
  cases hov : midi_track_over t with
  | true =>
    rw [loop_over ndebug n t rest i s hov] at h
    obtain ⟨a, ha, hb⟩ := bind_eq_ret _ _ _ h
    cases hb
    exact ⟨t, s, a.1, rfl, ha, Or.inl ⟨rfl, rfl, rfl⟩⟩
  | false =>
    by_cases hassert : ndebug = true ∨ s.self.timestamp ≤ t.next_event_timestamp
    · by_cases hfire : s.chosen = 0 ∧ s.self.timestamp = t.next_event_timestamp
      · cases hr : midi_track_next t s.midi s.event with
        | ret r =>
          cases hq : midi_parser_update s.self r.event with
          | ret q =>
            rw [loop_fire ndebug n t rest i s hov hassert hfire.1 hfire.2 r hr q hq] at h
            obtain ⟨a, ha, hb⟩ := bind_eq_ret _ _ _ h
            cases hb
            exact ⟨_, _, a.1, rfl, ha, Or.inr (Or.inr ⟨rfl, hfire.1, hfire.2, r, q, rfl, hq,
              rfl, rfl⟩)⟩
          | diverges =>
            simp [midi_parser_next_loop, hov, hfire, hr, hq, Run.bind] at h
          | aborts =>
            simp [midi_parser_next_loop, hov, hfire, hr, hq, Run.bind] at h
          | undefined =>
            simp [midi_parser_next_loop, hov, hfire, hr, hq, Run.bind] at h
        | diverges => simp [midi_parser_next_loop, hov, hfire, hr, Run.bind] at h
        | aborts => simp [midi_parser_next_loop, hov, hfire, hr, Run.bind] at h
        | undefined => simp [midi_parser_next_loop, hov, hfire, hr, Run.bind] at h
      · rw [loop_wait ndebug n t rest i s hov hassert hfire] at h
        obtain ⟨a, ha, hb⟩ := bind_eq_ret _ _ _ h
        cases hb
        exact ⟨t, _, a.1, rfl, ha, Or.inr (Or.inl ⟨rfl, rfl, rfl, hassert⟩)⟩
    · have ha : (!ndebug && decide (¬ s.self.timestamp ≤ t.next_event_timestamp)) = true := by
        cases ndebug with
        | true => exact absurd (Or.inl rfl) hassert
        | false =>
          have : ¬ s.self.timestamp ≤ t.next_event_timestamp := fun hc => hassert (Or.inr hc)
          simp [this]
      simp only [midi_parser_next_loop, hov, Bool.false_eq_true, if_false, ha, if_true] at h
      cases h

theorem track_next_stream (t : midi_track) (f : FILE) (ev : midi_event) (r : next_result)
    (h : midi_track_next t f ev = Run.ret r) : r.midi = f ∧ r.midi_status = MIDI_Success := by
  obtain ⟨r', h1, _, h3, h4, _⟩ := track_next_frame t t rfl f ev ev f.pos r h
  rw [h] at h1
  cases h1
  exact ⟨h3, h4⟩

theorem update_fields (self : midi_parser_t) (ev : midi_event) (q : midi_parser_t)
    (h : midi_parser_update self ev = Run.ret q) :
    q.timestamp = self.timestamp ∧ q.dtime = self.dtime ∧
      q.ticks_per_quarter = self.ticks_per_quarter ∧ q.track_count = self.track_count := by
  have := midi_parser_update_eq self ev q h
  rw [this]
  exact ⟨rfl, rfl, rfl, rfl⟩

/-- What the loop of `midi_parser_next` leaves alone: the stream, the timestamp, every track
that is over, and every track other than the one it decodes; and what it computes:
`dtime` is the fold of the waits of the tracks it leaves unfinished. -/
theorem loop_frame (ndebug : Bool) (n : Nat) : ∀ (ts : List midi_track) (i : Nat)
    (s : next_loop) (ts' : List midi_track) (s' : next_loop),
    midi_parser_next_loop ndebug n ts i s = Run.ret (ts', s') →
    ts'.length = ts.length ∧ s'.midi = s.midi ∧ s'.self.timestamp = s.self.timestamp ∧
      s'.self.dtime = min_wait s.self.timestamp ts' s.self.dtime ∧
      (s.chosen ≠ 0 → ts' = ts ∧ s'.fired = s.fired ∧ s'.chosen = s.chosen) ∧
      (∀ j, ts'.getD j midi_track_zero ≠ ts.getD j midi_track_zero →
        midi_track_over (ts.getD j midi_track_zero) = false ∧ s'.fired = some (i + j)) := by
  intro ts
  induction ts with
  | nil =>
    intro i s ts' s' h
    simp only [midi_parser_next_loop] at h
    split at h
    · cases h
    · cases h
      exact ⟨rfl, rfl, rfl, rfl, fun _ => ⟨rfl, rfl, rfl⟩, fun j hj => absurd rfl hj⟩
  | cons t rest ih =>
    intro i s ts' s' h
    obtain ⟨t', s1, rest', rfl, hrest, hcase⟩ := loop_cons_cases ndebug n t rest i s ts' s' h
    obtain ⟨h1, h2, h3, h4, h5, h6⟩ := ih (i + 1) s1 rest' s' hrest
    rcases hcase with ⟨hov, rfl, rfl⟩ | ⟨hov, rfl, rfl, _⟩ | ⟨hov, hch, hdue, r, q, hr, hq, rfl, rfl⟩
    · refine ⟨by simp [h1], h2, h3, ?_, ?_, ?_⟩
      · simp only [min_wait, hov, if_true]
        exact h4
      · intro hc
        obtain ⟨e1, e2, e3⟩ := h5 hc
        exact ⟨by rw [e1], e2, e3⟩
      · intro j hj
        cases j with
        | zero => exact absurd rfl hj
        | succ j =>
          simp only [List.getD_cons_succ] at hj ⊢
          have := h6 j hj
          exact ⟨this.1, by rw [this.2]; congr 1; omega⟩
    · refine ⟨by simp [h1], h2, h3, ?_, ?_, ?_⟩
      · rw [h4]
        simp only [loop_passed, min_wait, hov, Bool.false_eq_true, if_false]
      · intro hc
        obtain ⟨e1, e2, e3⟩ := h5 hc
        exact ⟨by rw [e1], e2, e3⟩
      · intro j hj
        cases j with
        | zero => exact absurd rfl hj
        | succ j =>
          simp only [List.getD_cons_succ] at hj ⊢
          have := h6 j hj
          exact ⟨this.1, by rw [this.2]; congr 1; omega⟩
    · obtain ⟨q1, q2, _, _⟩ := update_fields _ _ _ hq
      obtain ⟨e1, e2, e3⟩ := h5 (by simp [loop_fired])
      have hm := (track_next_stream t s.midi s.event r hr).1
      refine ⟨by simp [h1], ?_, ?_, ?_, fun hc => absurd hch hc, ?_⟩
      · rw [h2]; exact hm
      · rw [h3]; exact q1
      · rw [h4]
        simp only [min_wait, midi_track_over_fired, loop_fired, q1, q2]
      · intro j hj
        cases j with
        | zero =>
          refine ⟨hov, ?_⟩
          rw [e2]
          rfl
        | succ j =>
          simp only [List.getD_cons_succ] at hj
          rw [e1] at hj
          exact absurd rfl hj

/-- The loop of `midi_parser_next` returns only if the array holds `track_count` tracks, and
of the parser it changes `dtime` and `us_per_tick` only. -/
theorem loop_self (ndebug : Bool) (n : Nat) : ∀ (ts : List midi_track) (i : Nat)
    (s : next_loop) (ts' : List midi_track) (s' : next_loop),
    midi_parser_next_loop ndebug n ts i s = Run.ret (ts', s') →
    n ≤ i + ts.length ∧
      s'.self = { s.self with dtime := s'.self.dtime, us_per_tick := s'.self.us_per_tick } := by
  intro ts
  induction ts with
  | nil =>
    intro i s ts' s' h
    simp only [midi_parser_next_loop] at h
    split at h
    · cases h
    · cases h
      exact ⟨by simp; omega, rfl⟩
  | cons t rest ih =>
    intro i s ts' s' h
    obtain ⟨t', s1, rest', rfl, hrest, hcase⟩ := loop_cons_cases ndebug n t rest i s ts' s' h
    obtain ⟨h1, h2⟩ := ih (i + 1) s1 rest' s' hrest
    refine ⟨by simp only [List.length_cons]; omega, ?_⟩
    rcases hcase with ⟨_, _, rfl⟩ | ⟨_, _, rfl, _⟩ | ⟨_, _, _, r, q, _, hq, _, rfl⟩
    · exact h2
    · rw [h2]
      rfl
    · rw [h2]
      have := midi_parser_update_eq _ _ _ hq
      simp only [loop_fired]
      rw [this]

/-- What a call of `midi_parser_next` leaves alone and what it computes, read off a call
that returned: the stream is where it was; a track that differs after the call was not over
and is the one track decoded; and unless the parser was at end of file, the timestamp has
advanced by the pending wait and `dtime` is the fold of the waits of the tracks left
unfinished. -/
theorem next_frame (ndebug : Bool) (p : midi_parser_t) (midi : FILE) (event : midi_event)
    (st : Nat) (res : parser_result)
    (h : midi_parser_next ndebug p midi event st = Run.ret res) :
    res.midi = midi ∧ res.parser.tracks.length = p.tracks.length ∧
      (∀ j, res.parser.tracks.getD j midi_track_zero ≠ p.tracks.getD j midi_track_zero →
        midi_track_over (p.tracks.getD j midi_track_zero) = false ∧ res.fired = some j ∧
          j < p.track_count) ∧
      res.parser.track_count = p.track_count ∧
      res.parser.ticks_per_quarter = p.ticks_per_quarter ∧
      (p.end_of_file = 0 → p.track_count ≤ p.tracks.length ∧
        res.parser.timestamp = (p.timestamp + p.dtime) % U32 ∧
        res.parser.dtime = min_wait res.parser.timestamp
          (res.parser.tracks.take p.track_count) 0xFFFFFFFF) := by
  unfold midi_parser_next at h
  split at h
  · rename_i heof
    cases h
    exact ⟨rfl, rfl, fun j hj => absurd rfl hj, rfl, rfl, fun hc => absurd hc heof⟩
  · simp only at h
    obtain ⟨a, ha, hb⟩ := bind_eq_ret _ _ _ h
    obtain ⟨ts', s'⟩ := a
    cases hb
    obtain ⟨h1, h2, h3, h4, _, h6⟩ := loop_frame ndebug _ _ _ _ _ _ ha
    obtain ⟨h7, h8⟩ := loop_self ndebug _ _ _ _ _ _ ha
    simp only [List.length_take, Nat.zero_add] at h7 h1
    have hn : p.track_count ≤ p.tracks.length := by omega
    have hlen : ts'.length = p.track_count := by omega
    refine ⟨h2, ?_, ?_, ?_, ?_, fun _ => ⟨hn, h3, ?_⟩⟩
    · simp only [List.length_append, List.length_drop]
      omega
    · intro j hj
      simp only at hj
      by_cases hjn : j < p.track_count
      · have e1 : (ts' ++ p.tracks.drop p.track_count).getD j midi_track_zero
            = ts'.getD j midi_track_zero := List.getD_append _ _ _ _ (by omega)
        have e2 : p.tracks.getD j midi_track_zero
            = (p.tracks.take p.track_count).getD j midi_track_zero := by
          conv_lhs => rw [← List.take_append_drop p.track_count p.tracks]
          exact List.getD_append _ _ _ _ (by simp only [List.length_take]; omega)
        rw [e1, e2] at hj
        have := h6 j hj
        rw [← e2, Nat.zero_add] at this
        exact ⟨this.1, this.2, hjn⟩
      · exfalso
        apply hj
        have e1 : (ts' ++ p.tracks.drop p.track_count).getD j midi_track_zero
            = (p.tracks.drop p.track_count).getD (j - ts'.length) midi_track_zero :=
          List.getD_append_right _ _ _ _ (by omega)
        rw [e1]
        conv_rhs => rw [← List.take_append_drop p.track_count p.tracks]
        rw [List.getD_append_right _ _ _ _ (by simp only [List.length_take]; omega)]
        simp only [List.length_take]
        congr 1
        omega
    · simp only
      rw [h8]
    · simp only
      rw [h8]
    · simp only
      rw [List.take_left' hlen]
      rw [h4]
      rw [h3]

/-! ### Failures that do not reach the caller -/

set_option maxRecDepth 100000 in
/-- C13 does not hold of the code.  In `bad_status_file` the first event of the track starts,
after its delta-time, with the data byte 60 while the running status is 0.
`midi_event_new` fails as claimed: it returns `NULL` with `MIDI_NoCaseMatch`.  But
`midi_track_next` does not look at that result: it returns the event buffer (status 0) with
`midi_status` set back to `MIDI_Success` and moves the cursor on by one byte; and the first
call of `midi_parser_next` returns that buffer as an event of track 0, with
`MIDI_Success`. -/
theorem unrecognised_status_is_swallowed :
    (∃ d, midi_event_new midi_event_zero ⟨bad_status_file, 22⟩ 0 = Run.ret d ∧
      d.returned = false ∧ d.midi_status = MIDI_NoCaseMatch) ∧
    (∃ r, midi_track_next ⟨14, 22, 7, 500000, 0, 0, 0⟩ ⟨bad_status_file, 14⟩ midi_event_zero
        = Run.ret r ∧
      r.midi_status = MIDI_Success ∧ r.event.status = 0 ∧ r.track.current_position = 23) ∧
    (∃ r, midi_session false bad_status_file 1 = Run.ret (some r) ∧
      r.returned = true ∧ r.midi_status = MIDI_Success ∧ r.fired = some 0 ∧
      r.event.status = 0 ∧ r.parser.end_of_file = 0) :=
  ⟨⟨_, rfl, by decide⟩, ⟨_, rfl, by decide⟩, ⟨_, rfl, by decide⟩⟩

set_option maxRecDepth 100000 in
/-- C14 does not hold of the code.  `bad_chunk_file` has a valid header declaring one track,
and its first chunk is tagged `MTrx`.  With assertions compiled out, `midi_track_new` for
track 0 returns `NULL` with `MIDI_InvalidTrackChunk` as claimed, but `midi_parser_new` does
not look at that result: it returns a parser with `track_count` = 1 whose track 0 is the
zeroed memory of `calloc`.  With assertions compiled in, the `assert` on the tag stops the
program inside `midi_track_new`: neither function returns. -/
theorem invalid_track_chunk_not_fatal :
    (∃ h, midi_header_new ⟨bad_chunk_file, 0⟩ = Run.ret ⟨some h, MIDI_Success,
        ⟨bad_chunk_file, 14⟩⟩ ∧ h.format = 0 ∧ h.track_count = 1 ∧ h.time_division = 480) ∧
    (bad_chunk_file.drop 14).take 4 ≠ MTrk ∧
    midi_track_new true ⟨bad_chunk_file, 14⟩ 0 =
      Run.ret ⟨none, MIDI_InvalidTrackChunk, ⟨bad_chunk_file, 18⟩⟩ ∧
    (∃ p, midi_parser_new true none ⟨bad_chunk_file, 0⟩ =
        Run.ret ⟨some p, MIDI_InvalidTrackChunk, ⟨bad_chunk_file, 18⟩⟩ ∧
      p.track_count = 1 ∧ p.tracks.getD 0 midi_track_zero = midi_track_zero) ∧
    midi_track_new false ⟨bad_chunk_file, 14⟩ 0 = Run.aborts ∧
    midi_parser_new false none ⟨bad_chunk_file, 0⟩ = Run.aborts :=
  ⟨⟨_, rfl, by decide⟩, by decide, by decide, ⟨_, rfl, by decide⟩, by decide, by decide⟩

set_option maxRecDepth 100000 in
/-- C15 does not hold of the code.  `midi_parser_new` never assigns `us_per_tick`: for
`late_start_file` (480 ticks per quarter note) the parser it returns from `calloc` memory
has `us_per_tick` = 0, not 500000 / 480 = 1041; and after the first call of
`midi_parser_next`, which yields no event and leaves `dtime` = 100, `midi_parser_delay`
returns 0 and not 100 * 1041 = 104100. -/
theorem default_tempo_not_applied :
    (∃ p, midi_parser_new false none ⟨late_start_file, 0⟩ =
        Run.ret ⟨some p, MIDI_Success, ⟨late_start_file, 14⟩⟩ ∧
      p.ticks_per_quarter = 480 ∧ p.us_per_tick = 0 ∧ 500000 / p.ticks_per_quarter = 1041) ∧
    (∃ r, midi_session false late_start_file 1 = Run.ret (some r) ∧ r.fired = none ∧
      r.parser.dtime = 100 ∧ r.parser.us_per_tick = 0 ∧ midi_parser_delay r.parser = 0 ∧
      r.parser.dtime * (500000 / r.parser.ticks_per_quarter) = 104100) :=
  ⟨⟨_, rfl, by decide⟩, ⟨_, rfl, by decide⟩⟩

/-! ### The cursor and the end of the chunk -/

theorem track_new_stream (ndebug : Bool) (m : FILE) (i : Nat) (r : track_result)
    (tr : midi_track) (h : midi_track_new ndebug m i = Run.ret r) (htr : r.track = some tr) :
    r.midi = m := by
  have hdata := track_new_data ndebug m i r h
  unfold midi_track_new at h
  dsimp only at h
  obtain ⟨l, hl, h⟩ := bind_eq_ret _ _ _ h
  split at h
  · cases h
    cases htr
  · obtain ⟨pk, hpk, h⟩ := bind_eq_ret _ _ _ h
    cases h
    simp only [fseek_set, ftell] at hdata ⊢
    rw [hdata]

set_option maxRecDepth 100000 in
/-- C19 does not hold of the code.  `midi_track_new` saves the read position on entry and
seeks back to it before it returns a track, but not before it returns `NULL` from inside
its chunk-skipping loop.  With assertions compiled out, the call for track 0 of
`bad_chunk_file`, made at read position 14, finds the tag `MTrx`, returns `NULL` with
`MIDI_InvalidTrackChunk`, and leaves the read position at 18. -/
theorem track_new_failure_moves_stream :
    midi_track_new true ⟨bad_chunk_file, 14⟩ 0 =
        Run.ret ⟨none, MIDI_InvalidTrackChunk, ⟨bad_chunk_file, 18⟩⟩ ∧
      ftell (⟨bad_chunk_file, 18⟩ : FILE) ≠ ftell (⟨bad_chunk_file, 14⟩ : FILE) :=
  ⟨by decide, by decide⟩

/-- What the calls leave of the stream and of the other tracks, for every stream and every
parser state: a call of `midi_track_next` that returns, a call of `midi_track_new` that
returns a track, and a call of `midi_parser_next` that returns each leave the stream, read
position included, as they found it; and `midi_parser_next` leaves every track other than
the one it decoded exactly as it was.  The call of `midi_track_new` that returns `NULL` is
the exception: see `track_new_failure_moves_stream`. -/
theorem track_isolation (ndebug : Bool) (midi : FILE) :
    (∀ (t : midi_track) (event : midi_event) (rn : next_result),
      midi_track_next t midi event = Run.ret rn → rn.midi = midi) ∧
    (∀ (n : Nat) (rt : track_result) (tr : midi_track),
      midi_track_new ndebug midi n = Run.ret rt → rt.track = some tr → rt.midi = midi) ∧
    (∀ (p : midi_parser_t) (event : midi_event) (st : Nat) (res : parser_result),
      midi_parser_next ndebug p midi event st = Run.ret res →
      res.midi = midi ∧ ∀ j, res.fired ≠ some j →
        res.parser.tracks.getD j midi_track_zero = p.tracks.getD j midi_track_zero) := by
  refine ⟨fun t event rn h => (track_next_stream t midi event rn h).1,
    fun n rt tr h htr => track_new_stream ndebug midi n rt tr h htr,
    fun p event st res h => ⟨(next_frame ndebug p midi event st res h).1, fun j hj => ?_⟩⟩
  by_contra hne
  exact hj ((next_frame ndebug p midi event st res h).2.2.1 j hne).2.1

set_option maxRecDepth 100000 in
/-- The theorem `track_isolation` at `bad_chunk_file` with assertions compiled out, where
`midi_track_new` returns no track: `midi_track_next` on the zeroed track 0 and the first
call of `midi_parser_next` both return and leave the stream at offset 18; and at
`tie_file`, where `midi_track_new` for track 1 leaves the stream at offset 14. -/
theorem track_isolation_witness :
    (∃ rn, midi_track_next midi_track_zero ⟨bad_chunk_file, 18⟩ midi_event_zero = Run.ret rn ∧
      rn.midi = ⟨bad_chunk_file, 18⟩) ∧
    (∃ p res, midi_parser_new true none ⟨bad_chunk_file, 0⟩ =
        Run.ret ⟨some p, MIDI_InvalidTrackChunk, ⟨bad_chunk_file, 18⟩⟩ ∧
      midi_parser_next true p ⟨bad_chunk_file, 18⟩ midi_event_zero MIDI_InvalidTrackChunk
        = Run.ret res ∧ res.fired = some 0 ∧ res.midi = ⟨bad_chunk_file, 18⟩ ∧
      res.parser.tracks.getD 1 midi_track_zero = p.tracks.getD 1 midi_track_zero) ∧
    (∃ rt, midi_track_new false ⟨tie_file, 14⟩ 1 = Run.ret rt ∧ rt.track = some tie_track1 ∧
      rt.midi = ⟨tie_file, 14⟩) :=
  by
  refine ⟨?_, ?_, ?_⟩
  · have h : ∃ rn, midi_track_next midi_track_zero ⟨bad_chunk_file, 18⟩ midi_event_zero
        = Run.ret rn := ⟨_, rfl⟩
    obtain ⟨rn, hrn⟩ := h
    exact ⟨rn, hrn, (track_isolation true ⟨bad_chunk_file, 18⟩).1 _ _ _ hrn⟩
  · have h : ∃ p, midi_parser_new true none ⟨bad_chunk_file, 0⟩ =
          Run.ret ⟨some p, MIDI_InvalidTrackChunk, ⟨bad_chunk_file, 18⟩⟩ ∧
        ∃ res, midi_parser_next true p ⟨bad_chunk_file, 18⟩ midi_event_zero
          MIDI_InvalidTrackChunk = Run.ret res ∧ res.fired = some 0 :=
      ⟨_, rfl, _, rfl, by decide⟩
    obtain ⟨p, hp, res, hres, hf⟩ := h
    have hi := (track_isolation true ⟨bad_chunk_file, 18⟩).2.2 _ _ _ _ hres
    exact ⟨p, res, hp, hres, hf, hi.1, hi.2 1 (by rw [hf]; decide)⟩
  · have h : ∃ rt, midi_track_new false ⟨tie_file, 14⟩ 1 = Run.ret rt ∧
        rt.track = some tie_track1 := ⟨_, rfl, by decide⟩
    obtain ⟨rt, hrt, htr⟩ := h
    exact ⟨rt, hrt, htr, (track_isolation false ⟨tie_file, 14⟩).2.1 1 _ tie_track1 hrt htr⟩

/-! ### Tempo -/

theorem u32_natCast (n : Nat) : u32 ((n : Nat) : Int) = n % 4294967296 := by
  unfold u32; omega

theorem tempo_bytes (b0 b1 b2 : Nat) (h0 : b0 < 256) (h1 : b1 < 256) (h2 : b2 < 256) :
    u32 (Int.lor (Int.lor (((b0 : Nat) : Int) * 65536) (((b1 : Nat) : Int) * 256))
      ((b2 : Nat) : Int)) = b0 * 65536 + b1 * 256 + b2 := by
  have e0 : ((b0 : Nat) : Int) * 65536 = ((b0 * 65536 : Nat) : Int) := by push_cast; rfl
  have e1 : ((b1 : Nat) : Int) * 256 = ((b1 * 256 : Nat) : Int) := by push_cast; rfl
  rw [e0, e1]
  have l1 : Int.lor ((b0 * 65536 : Nat) : Int) ((b1 * 256 : Nat) : Int)
      = ((b0 * 65536 ||| b1 * 256 : Nat) : Int) := rfl
  rw [l1]
  have l2 : Int.lor ((b0 * 65536 ||| b1 * 256 : Nat) : Int) ((b2 : Nat) : Int)
      = (((b0 * 65536 ||| b1 * 256) ||| b2 : Nat) : Int) := rfl
  rw [l2, u32_natCast]
  have o1 : b0 * 65536 ||| b1 * 256 = b0 * 65536 + b1 * 256 := by
    have := Nat.mul_add_lt_is_or (show b1 * 256 < 2 ^ 16 by omega) b0
    have e : b0 * 65536 = 2 ^ 16 * b0 := by ring
    rw [e]
    exact this.symm
  have o2 : (b0 * 65536 + b1 * 256) ||| b2 = b0 * 65536 + b1 * 256 + b2 := by
    have := Nat.mul_add_lt_is_or (show b2 < 2 ^ 8 by omega) (b0 * 256 + b1)
    have e : b0 * 65536 + b1 * 256 = 2 ^ 8 * (b0 * 256 + b1) := by ring
    rw [e]
    exact this.symm
  rw [o1, o2]
  omega

/-- The decoder on a tempo event. -/
theorem event_new_tempo (ev : midi_event) (data : List Nat) (pos rs b0 b1 b2 : Nat)
    (h : tempo_event_at data pos b0 b1 b2) :
    ∃ d, midi_event_new ev ⟨data, pos⟩ rs = Run.ret d ∧ d.event.status = 0xFF ∧
      d.event.meta_type = MetaSetTempo ∧ d.event.tempo = b0 * 65536 + b1 * 256 + b2 := by
  obtain ⟨d, m1, L, m2, hd, hFF, h51, hL, hb0, hb1, hb2, l0, l1, l2⟩ := h
  have hdata1 : m1.data = data := value_read_data _ _ hd
  have hdata2 : m2.data = data := value_read_data _ _ hL
  unfold midi_event_new
  rw [hd]
  simp only [Run.bind]
  rw [getc_some m1 0xFF (by rw [hdata1]; exact hFF)]
  simp only [u8_natCast, Nat.mod_mod, Nat.reduceMod, Nat.reduceLT, decide_False,
    Bool.false_eq_true, if_false]
  rw [if_neg (by decide), if_pos (by decide),
    if_neg (by decide), if_pos (by decide)]
  unfold midi_event_meta_new
  rw [getc_some _ 0x51 (by simp only [hdata1]; exact h51)]
  have e : ({ ({ m1 with pos := m1.pos + 1 } : FILE) with pos := m1.pos + 1 + 1 } : FILE)
      = ⟨data, m1.pos + 2⟩ := by rw [← hdata1]
  simp only [u8_natCast]
  rw [e, hL]
  simp only [Run.bind]
  rw [if_neg (by decide), if_pos (by decide)]
  rw [getc_some m2 b0 (by rw [hdata2]; exact hb0)]
  rw [getc_some _ b1 (by simp only [hdata2]; exact hb1)]
  rw [getc_some _ b2 (by simp only [hdata2]; exact hb2)]
  simp only [Nat.mod_eq_of_lt l0, Nat.mod_eq_of_lt l1, Nat.mod_eq_of_lt l2, tempo_bytes b0 b1 b2 l0 l1 l2]
  exact ⟨_, rfl, rfl, rfl, rfl⟩

theorem update_us_per_tick (self : midi_parser_t) (ev : midi_event) (q : midi_parser_t)
    (h : midi_parser_update self ev = Run.ret q) :
    q.us_per_tick = if ev.status = 0xFF ∧ ev.meta_type = MetaSetTempo then
      ev.tempo / self.ticks_per_quarter else self.us_per_tick := by
  unfold midi_parser_update at h
  split at h
  · split at h
    · rename_i hFF
      split at h
      · rename_i hT
        split at h
        · cases h
        · cases h
          rw [if_pos ⟨hFF, hT⟩]
      · rename_i hT
        cases h
        rw [if_neg (fun hc => hT hc.2)]
    · rename_i hFF
      cases h
      rw [if_neg (fun hc => hFF hc.1)]
  · rename_i hF0
    cases h
    rw [if_neg]
    intro hc
    apply hF0
    rw [hc.1]
    decide

theorem track_next_event (t : midi_track) (f : FILE) (ev : midi_event) (r : next_result)
    (d : decode_result)
    (hd : midi_event_new ev ⟨f.data, t.current_position⟩ t.running_status = Run.ret d)
    (h : midi_track_next t f ev = Run.ret r) : r.event = d.event := by
  rw [midi_track_next_eq] at h
  have e : fseek_set f t.current_position = ⟨f.data, t.current_position⟩ := rfl
  rw [e, hd] at h
  simp only [Run.bind] at h
  obtain ⟨r', h1, _, _, _, h5, _⟩ := track_lookahead_frame _ _ rfl d.event d.event d.midi
    (ftell f) (ftell f) r h
  rw [h] at h1
  cases h1
  exact h5

/-- C12 (tempo conversion).  Take a parser with `ticks_per_quarter` > 0, not at end of file,
in which the track `t` at index `A.length` is the first unfinished track due, and a call of
`midi_parser_next` whose assertion holds and in which `midi_track_next` returns `r` on `t`.
Then the call returns the event of `r`; if the bytes at the cursor of `t` are a tempo event
with payload `b0 b1 b2`, the event is a `MetaSetTempo` with tempo
`b0 * 65536 + b1 * 256 + b2` and the call leaves `us_per_tick` equal to that tempo divided
by `ticks_per_quarter` (integer quotient); and if the event is not a `MetaSetTempo`, the
call leaves `us_per_tick` as it was. -/
theorem tempo_conversion (ndebug : Bool) (p : midi_parser_t) (midi : FILE) (event : midi_event)
    (midi_status : Nat) (heof : p.end_of_file = 0) (hn : p.track_count ≤ p.tracks.length)
    (hlen : p.track_count < 65536)
    (A B : List midi_track) (t : midi_track)
    (hsplit : p.tracks.take p.track_count = A ++ t :: B)
    (hA : ∀ u ∈ A, midi_track_over u = false →
      (ndebug = true ∨ (p.timestamp + p.dtime) % U32 ≤ u.next_event_timestamp) ∧
        (p.timestamp + p.dtime) % U32 ≠ u.next_event_timestamp)
    (hB : ∀ u ∈ B, midi_track_over u = false →
      (ndebug = true ∨ (p.timestamp + p.dtime) % U32 ≤ u.next_event_timestamp))
    (hov : midi_track_over t = false)
    (hdue : (p.timestamp + p.dtime) % U32 = t.next_event_timestamp)
    (r : next_result) (hr : midi_track_next t midi event = Run.ret r)
    (hq : 0 < p.ticks_per_quarter) :
    ∃ res, midi_parser_next ndebug p midi event midi_status = Run.ret res ∧
      res.returned = true ∧ res.fired = some A.length ∧ res.event = r.event ∧
      (∀ b0 b1 b2, tempo_event_at midi.data t.current_position b0 b1 b2 →
        res.event.status = 0xFF ∧ res.event.meta_type = MetaSetTempo ∧
          res.event.tempo = b0 * 65536 + b1 * 256 + b2 ∧
          res.parser.us_per_tick = (b0 * 65536 + b1 * 256 + b2) / p.ticks_per_quarter) ∧
      (¬ (res.event.status = 0xFF ∧ res.event.meta_type = MetaSetTempo) →
        res.parser.us_per_tick = p.us_per_tick) := by
  obtain ⟨q, hq'⟩ := midi_parser_update_returns
    { p with timestamp := (p.timestamp + p.dtime) % U32,
             dtime := min_wait ((p.timestamp + p.dtime) % U32) A 0xFFFFFFFF } r.event
    (Or.inl (by show p.ticks_per_quarter ≠ 0; omega))
  have hcall := call_fire ndebug p midi event midi_status heof hn hlen A B t hsplit hA hB hov
    hdue r hr q hq'
  have hus := update_us_per_tick _ _ _ hq'
  simp only at hus
  refine ⟨_, hcall, rfl, rfl, rfl, ?_, ?_⟩
  · intro b0 b1 b2 hb
    obtain ⟨d, hd, h1, h2, h3⟩ := event_new_tempo event midi.data t.current_position
      t.running_status b0 b1 b2 hb
    have he := track_next_event t midi event r d hd hr
    simp only [parser_after]
    rw [he] at hus ⊢
    rw [hus, if_pos ⟨h1, h2⟩, h3]
    exact ⟨h1, h2, rfl, rfl⟩
  · intro hne
    simp only [parser_after] at hne ⊢
    rw [hus, if_neg hne]

set_option maxRecDepth 100000 in
/-- The theorem `tempo_conversion` at `tempo_file` (480 ticks per quarter note, tempo bytes
`07 A1 20`): the first call yields the tempo 500000 and leaves `us_per_tick` = 1041; and at
`tie_waiting`, where the call yields a NoteOn: `us_per_tick` is left as it was. -/
theorem tempo_conversion_witness :
    (midi_parser_new false none ⟨tempo_file, 0⟩ =
        Run.ret ⟨some tempo_opened, MIDI_Success, ⟨tempo_file, 14⟩⟩ ∧
      tempo_event_at tempo_file 22 0x07 0xA1 0x20 ∧
      ∃ res, midi_parser_next false tempo_opened ⟨tempo_file, 14⟩ midi_event_zero 0 = Run.ret res ∧
        res.event.tempo = 500000 ∧ res.parser.us_per_tick = 1041) ∧
    (∃ res, midi_parser_next false tie_waiting ⟨tie_file, 14⟩ midi_event_zero 0 = Run.ret res ∧
      res.event.status = 0x90 ∧ res.parser.us_per_tick = tie_waiting.us_per_tick) := by
  have hte : tempo_event_at tempo_file 22 0x07 0xA1 0x20 :=
    ⟨0, ⟨tempo_file, 23⟩, 3, ⟨tempo_file, 26⟩, by decide, by decide, by decide, by decide,
      by decide, by decide, by decide, by decide, by decide, by decide⟩
  refine ⟨⟨by decide, hte, ?_⟩, ?_⟩
  · obtain ⟨res, h1, _, _, _, h5, _⟩ := tempo_conversion false tempo_opened ⟨tempo_file, 14⟩
      midi_event_zero 0 rfl (by decide) (by decide) [] []
      ⟨14, 22, 11, 500000, 0, 0, 0⟩ (by decide) (by simp) (by simp) (by decide) (by decide)
      _ rfl (by decide)
    obtain ⟨_, _, h8, h9⟩ := h5 0x07 0xA1 0x20 hte
    exact ⟨res, h1, h8, h9⟩
  · obtain ⟨res, h1, _, _, h4, _, h6⟩ := tempo_conversion false tie_waiting ⟨tie_file, 14⟩
      midi_event_zero 0 rfl (by decide) (by decide) [] [tie_track1] tie_track0 (by decide)
      (by simp) (by decide) (by decide) (by decide) _ rfl (by decide)
    have hst : res.event.status = 0x90 := by rw [h4]; decide
    exact ⟨res, h1, hst, h6 (fun hc => absurd (hst.symm.trans hc.1) (by decide))⟩

/-! ### Track indexing -/

theorem and_shiftLeft_mask (x m k : Nat) : x &&& (m <<< k) = ((x >>> k) &&& m) <<< k := by
  apply Nat.eq_of_testBit_eq
  intro i
  simp only [Nat.testBit_and, Nat.testBit_shiftLeft, Nat.testBit_shiftRight]
  by_cases h : k ≤ i
  · have e : k + (i - k) = i := by omega
    simp [h, e]
  · simp [h]

theorem and_FF (x : Nat) : x &&& 0xFF = x % 256 := by
  have := Nat.and_pow_two_sub_one_eq_mod x 8
  simpa using this

theorem reverse32_le_load (a b c d : Nat) (ha : a < 256) (hb : b < 256) (hc : c < 256)
    (hd : d < 256) :
    reverse32 (le_load [a, b, c, d]) = a * 16777216 + b * 65536 + c * 256 + d := by
  have h0 : le_load [a, b, c, d] = a + 256 * (b + 256 * (c + 256 * d)) := by simp [le_load]
  rw [h0]
  generalize hn : a + 256 * (b + 256 * (c + 256 * d)) = n
  unfold reverse32
  have m1 : (0xFF000000 : Nat) = 0xFF <<< 24 := by decide
  have m2 : (0x00FF0000 : Nat) = 0xFF <<< 16 := by decide
  have m3 : (0x0000FF00 : Nat) = 0xFF <<< 8 := by decide
  rw [m1, m2, m3, and_shiftLeft_mask, and_shiftLeft_mask, and_shiftLeft_mask]
  simp only [and_FF, Nat.shiftLeft_eq, Nat.shiftRight_eq_div_pow]
  have p1 : n * 2 ^ 24 / 2 ^ 24 % 256 = a := by omega
  have p2 : n * 2 ^ 8 / 2 ^ 16 % 256 = b := by omega
  have p3 : n / 2 ^ 8 / 2 ^ 8 % 256 = c := by omega
  have p4 : n / 2 ^ 24 % 256 = d := by omega
  rw [p1, p2, p3, p4]
  have o1 : a * 2 ^ 24 ||| b * 2 ^ 16 = a * 2 ^ 24 + b * 2 ^ 16 := by
    have := Nat.mul_add_lt_is_or (show b * 2 ^ 16 < 2 ^ 24 by omega) a
    have e : a * 2 ^ 24 = 2 ^ 24 * a := by ring
    rw [e]; exact this.symm
  have o2 : (a * 2 ^ 24 + b * 2 ^ 16) ||| c * 2 ^ 8 = a * 2 ^ 24 + b * 2 ^ 16 + c * 2 ^ 8 := by
    have := Nat.mul_add_lt_is_or (show c * 2 ^ 8 < 2 ^ 16 by omega) (a * 2 ^ 8 + b)
    have e : a * 2 ^ 24 + b * 2 ^ 16 = 2 ^ 16 * (a * 2 ^ 8 + b) := by ring
    rw [e]; exact this.symm
  have o3 : (a * 2 ^ 24 + b * 2 ^ 16 + c * 2 ^ 8) ||| d
      = a * 2 ^ 24 + b * 2 ^ 16 + c * 2 ^ 8 + d := by
    have := Nat.mul_add_lt_is_or (show d < 2 ^ 8 by omega) (a * 2 ^ 16 + b * 2 ^ 8 + c)
    have e : a * 2 ^ 24 + b * 2 ^ 16 + c * 2 ^ 8 = 2 ^ 8 * (a * 2 ^ 16 + b * 2 ^ 8 + c) := by
      ring
    rw [e]; exact this.symm
  rw [o1, o2, o3]
  norm_num

theorem reverse32_be32 (n : Nat) (h : n < U32) :
    reverse32 (le_load (be32_bytes n)) = n := by
  unfold be32_bytes
  rw [reverse32_le_load _ _ _ _ (Nat.mod_lt _ (by decide)) (Nat.mod_lt _ (by decide))
    (Nat.mod_lt _ (by decide)) (Nat.mod_lt _ (by decide))]
  unfold U32 at h
  omega

theorem chunk_bytes_length (c : List Nat) :
    (chunk_bytes c).length = MIDI_TRACK_HEADER_SIZE + c.length := by
  simp only [chunk_bytes, MTrk, be32_bytes, List.length_append, List.length_cons,
    List.length_nil, MIDI_TRACK_HEADER_SIZE]

theorem chunk_start_succ (chunks : List (List Nat)) (n : Nat) (h : n < chunks.length) :
    chunk_start chunks (n + 1) = chunk_start chunks n + MIDI_TRACK_HEADER_SIZE + chunks[n].length := by
  unfold chunk_start
  rw [List.take_succ, List.getElem?_eq_getElem h]
  simp only [Option.toList, List.map_append, List.sum_append, List.map_cons, List.map_nil,
    List.sum_cons, List.sum_nil]
  omega

theorem drop_chunks : ∀ (chunks : List (List Nat)) (n : Nat), n ≤ chunks.length →
    (chunks.map chunk_bytes).flatten.drop
        ((chunks.take n).map (fun c => MIDI_TRACK_HEADER_SIZE + c.length)).sum
      = ((chunks.drop n).map chunk_bytes).flatten := by
  intro chunks
  induction chunks with
  | nil => intro n _; simp
  | cons c cs ih =>
    intro n hn
    cases n with
    | zero => simp
    | succ n =>
      simp only [List.take_succ_cons, List.map_cons, List.sum_cons, List.flatten_cons,
        List.drop_succ_cons]
      rw [← chunk_bytes_length c, ← List.drop_drop, List.drop_left]
      exact ih n (by simpa using hn)

/-- The bytes of the file from the start of chunk `n` on. -/
theorem drop_chunk_start (hdr : List Nat) (chunks : List (List Nat)) (post : List Nat) (n : Nat)
    (hh : hdr.length = MIDI_HEADER_SIZE) (hn : n < chunks.length) :
    (hdr ++ (chunks.map chunk_bytes).flatten ++ post).drop (chunk_start chunks n) =
      MTrk ++ (be32_bytes chunks[n].length ++ (chunks[n] ++
        (((chunks.drop (n + 1)).map chunk_bytes).flatten ++ post))) := by
  unfold chunk_start
  rw [← hh, List.append_assoc, ← List.drop_drop, List.drop_left,
    List.drop_append_of_le_length, drop_chunks chunks n (by omega),
    List.drop_eq_getElem_cons hn]
  · simp only [List.map_cons, List.flatten_cons, chunk_bytes, List.append_assoc]
  · have := congrArg List.length (drop_chunks chunks n (by omega))
    rw [List.length_drop] at this
    by_contra hc
    have h0 : ((chunks.drop n).map chunk_bytes).flatten.length = 0 := by omega
    rw [List.drop_eq_getElem_cons hn] at h0
    simp only [List.map_cons, List.flatten_cons, List.length_append, chunk_bytes_length,
      MIDI_TRACK_HEADER_SIZE] at h0
    omega

theorem fread_leading (data : List Nat) (p : Nat) (bs tail : List Nat)
    (h : data.drop p = bs ++ tail) (hb : bs.map (fun b => b % 256) = bs) :
    fread ⟨data, p⟩ bs.length = (bs, ⟨data, p + bs.length⟩) := by
  unfold fread
  simp only [h, List.take_left, hb]

theorem be32_bytes_mod (n : Nat) : (be32_bytes n).map (fun b => b % 256) = be32_bytes n := by
  simp [be32_bytes]

theorem track_new_loop_step (ndebug : Bool) (k : Nat) (magic : Option (List Nat))
    (ts : Option Nat) (data : List Nat) (p len : Nat) (tail : List Nat)
    (hdrop : data.drop p = MTrk ++ (be32_bytes len ++ tail)) (hlen : len < U32) :
    midi_track_new_loop ndebug (k + 1) magic ts ⟨data, p⟩ =
      midi_track_new_loop ndebug k (some MTrk) (some len)
        ⟨data, p + MIDI_TRACK_HEADER_SIZE + len⟩ := by
  have h1 : fread ⟨data, p⟩ 4 = (MTrk, ⟨data, p + 4⟩) :=
    fread_leading data p MTrk _ hdrop (by decide)
  have hdrop2 : data.drop (p + 4) = be32_bytes len ++ tail := by
    rw [← List.drop_drop, hdrop]
    rfl
  have h2 : fread ⟨data, p + 4⟩ 4 = (be32_bytes len, ⟨data, p + 4 + 4⟩) :=
    fread_leading data (p + 4) (be32_bytes len) _ hdrop2 (be32_bytes_mod len)
  simp only [midi_track_new_loop, h1, h2]
  have l4 : MTrk.length = 4 := rfl
  have l4' : (be32_bytes len).length = 4 := rfl
  simp only [l4, l4', if_true, ne_eq, not_true_eq_false, if_false, reverse32_be32 len hlen]
  have hs : fseek_cur ⟨data, p + 4 + 4⟩ (len : Int)
      = ⟨data, p + MIDI_TRACK_HEADER_SIZE + len⟩ := by
    unfold fseek_cur
    simp only
    rw [if_pos (by omega)]
    simp only [MIDI_TRACK_HEADER_SIZE, FILE.mk.injEq, true_and]
    omega
  rw [hs]

/-- The chunk-skipping loop of `midi_track_new`, started at chunk `j` with `k + 1`
iterations left, ends after chunk `j + k` with that chunk's length in `track_size`. -/
theorem track_new_loop_chunks (ndebug : Bool) (hdr : List Nat) (chunks : List (List Nat))
    (post : List Nat) (hh : hdr.length = MIDI_HEADER_SIZE)
    (hsmall : (hdr ++ (chunks.map chunk_bytes).flatten ++ post).length < U32) :
    ∀ (k j : Nat) (magic : Option (List Nat)) (ts : Option Nat) (hjk : j + k < chunks.length),
    midi_track_new_loop ndebug (k + 1) magic ts
        ⟨hdr ++ (chunks.map chunk_bytes).flatten ++ post, chunk_start chunks j⟩ =
      Run.ret (some (chunks[j + k]).length,
        ⟨hdr ++ (chunks.map chunk_bytes).flatten ++ post, chunk_start chunks (j + k + 1)⟩) := by
  intro k
  induction k with
  | zero =>
    intro j magic ts hjk
    have hj : j < chunks.length := by omega
    have hd := drop_chunk_start hdr chunks post j hh hj
    have hl := congrArg List.length hd
    simp only [List.length_drop, List.length_append] at hl
    have hlen : (chunks[j]).length < U32 := by
      simp only [List.length_append] at hsmall
      omega
    rw [track_new_loop_step ndebug 0 magic ts _ _ _ _ hd hlen]
    simp only [midi_track_new_loop, Nat.add_zero]
    rw [chunk_start_succ chunks j hj]
  | succ k ih =>
    intro j magic ts hjk
    have hj : j < chunks.length := by omega
    have hd := drop_chunk_start hdr chunks post j hh hj
    have hl := congrArg List.length hd
    simp only [List.length_drop, List.length_append] at hl
    have hlen : (chunks[j]).length < U32 := by
      simp only [List.length_append] at hsmall
      omega
    rw [track_new_loop_step ndebug (k + 1) magic ts _ _ _ _ hd hlen]
    rw [← chunk_start_succ chunks j hj]
    rw [ih (j + 1) _ _ (by omega)]
    have e : j + 1 + k = j + (k + 1) := by omega
    simp only [e]

/-- C16 (track indexing).  Let the source be a 14 byte header followed by the chunks
`chunks`, each tagged `MTrk` with its length in big-endian, and by any bytes `post`; let it
be shorter than 2^32 bytes, let `n` be below the number of chunks, and let `midi_value_read`
decode the quantity `v` at the first payload byte of chunk `n`.  Then `midi_track_new` for
track `n`, called at any read position, returns a track with `start_position` = 14 plus the
sum of 8 + length over the chunks before `n`, `current_position` = `start_position` + 8,
`size` = the length of chunk `n`, tempo 500000, `end_of_track` = 0, `running_status` = 0 and
`next_event_timestamp` = `v`, with `MIDI_Success`, and leaves the read position where it
was. -/
theorem track_indexing (ndebug : Bool) (hdr : List Nat) (chunks : List (List Nat))
    (post : List Nat) (n pos0 v : Nat) (m : FILE)
    (hh : hdr.length = MIDI_HEADER_SIZE) (hn : n < chunks.length)
    (hsmall : (hdr ++ (chunks.map chunk_bytes).flatten ++ post).length < U32)
    (hv : midi_value_read ⟨hdr ++ (chunks.map chunk_bytes).flatten ++ post,
      chunk_start chunks n + MIDI_TRACK_HEADER_SIZE⟩ = Run.ret (v, m)) :
    midi_track_new ndebug ⟨hdr ++ (chunks.map chunk_bytes).flatten ++ post, pos0⟩ n =
      Run.ret ⟨some
        { start_position := chunk_start chunks n,
          current_position := chunk_start chunks n + MIDI_TRACK_HEADER_SIZE,
          size := (chunks.getD n []).length, tempo := 500000, end_of_track := 0,
          running_status := 0, next_event_timestamp := v },
        MIDI_Success, ⟨hdr ++ (chunks.map chunk_bytes).flatten ++ post, pos0⟩⟩ := by
  generalize hdata : hdr ++ (chunks.map chunk_bytes).flatten ++ post = data at hsmall hv ⊢
  have hloop := track_new_loop_chunks ndebug hdr chunks post hh (by rw [hdata]; exact hsmall)
    n 0 none none (by omega)
  rw [hdata] at hloop
  simp only [Nat.zero_add] at hloop
  have h0 : chunk_start chunks 0 = MIDI_HEADER_SIZE := by simp [chunk_start]
  rw [h0] at hloop
  have hd := drop_chunk_start hdr chunks post n hh hn
  rw [hdata] at hd
  have hl := congrArg List.length hd
  simp only [List.length_drop, List.length_append] at hl
  have l4 : MTrk.length = 4 := rfl
  have l4' : (be32_bytes (chunks[n]).length).length = 4 := rfl
  rw [l4, l4'] at hl
  have hsucc := chunk_start_succ chunks n hn
  have hgetD : (chunks.getD n []).length = (chunks[n]).length := by
    rw [List.getD_eq_getElem _ _ hn]
  unfold U32 at hsmall
  simp only [MIDI_TRACK_HEADER_SIZE] at hsucc hv ⊢
  have hstart : u32 ((chunk_start chunks (n + 1) : Int) - ((chunks[n]).length : Int) - (8 : Nat))
      = chunk_start chunks n := by
    unfold u32
    omega
  have hcur : (chunk_start chunks n + 8) % U32 = chunk_start chunks n + 8 := by
    unfold U32
    omega
  have hpeek : midi_value_peek ⟨data, chunk_start chunks n + 8⟩ =
      Run.ret (v, fseek_cur m (-1 * (((0 + (m.pos - (chunk_start chunks n + 8))) % 256 : Nat) : Int))) := by
    unfold midi_value_peek
    unfold midi_value_read at hv
    rw [peek_loop_eq, hv]
    rfl
  have hmd : m.data = data := value_read_data _ _ hv
  unfold midi_track_new
  simp only [fseek_set, ftell, hloop, Run.bind, MIDI_TRACK_HEADER_SIZE, hstart, hcur, hpeek,
    hgetD, fseek_cur_data, hmd]

set_option maxRecDepth 100000 in
/-- The theorem `track_indexing` at track 1 of `tie_file`, whose chunks have 8 bytes each:
the track starts at 14 + (8 + 8) = 30, its cursor is 38, its size 8 and its first
delta-time 100. -/
theorem track_indexing_witness :
    midi_value_read ⟨tie_file, 38⟩ = Run.ret (100, ⟨tie_file, 39⟩) ∧
      midi_track_new false ⟨tie_file, 14⟩ 1 =
        Run.ret ⟨some ⟨30, 38, 8, 500000, 0, 0, 100⟩, MIDI_Success, ⟨tie_file, 14⟩⟩ := by
  have e : tie_file.take 14 ++
      (List.map chunk_bytes [[0x64, 0x90, 60, 64, 0x0A, 0xFF, 0x2F, 0x00],
        [0x64, 0x90, 62, 64, 0x00, 0xFF, 0x2F, 0x00]]).flatten ++ [] = tie_file := by decide
  have h := track_indexing false (tie_file.take 14)
    [[0x64, 0x90, 60, 64, 0x0A, 0xFF, 0x2F, 0x00], [0x64, 0x90, 62, 64, 0x00, 0xFF, 0x2F, 0x00]]
    [] 1 14 100 ⟨tie_file, 39⟩ (by decide) (by decide) (by decide) (by rw [e]; decide)
  rw [e] at h
  exact ⟨by decide, h⟩

/-! ### Reachable states -/

theorem call_entry_nil (r res : parser_result) (h : call_entry r res = []) :
    res.fired = none := by
  unfold call_entry at h
  split at h
  · cases h
  · rename_i hn
    exact hn

theorem call_entry_tick (r res : parser_result) (e : fired_event)
    (h : call_entry r res = [e]) : e.tick = res.parser.timestamp := by
  unfold call_entry at h
  split at h
  · cases h
    rfl
  · cases h

/-- One call of `midi_parser_next` from a state satisfying the invariant of the
scheduler. -/
theorem inv_step (ndebug : Bool) (data : List Nat) (n : Nat) (r : parser_result)
    (rem : Nat → List fired_event) (hinv : sched_inv data n r.parser r.midi rem) :
    ∃ res, midi_parser_next ndebug r.parser r.midi r.event r.midi_status = Run.ret res ∧
      reach_ok data n res ∧ wait_ok n res := by
  rcases first_split (fun u : midi_track => midi_track_over u = false ∧
      u.next_event_timestamp = (r.parser.timestamp + r.parser.dtime) % U32)
      (r.parser.tracks.take n) with hno | ⟨A, t, B, hsplit, hA, ht⟩
  · obtain ⟨res, hcall, hentry, hall, hsome⟩ := idle_step ndebug data n r rem hinv hno
    obtain ⟨_, hlen, hfr, hcount, _, hrest⟩ := next_frame ndebug _ _ _ _ _ hcall
    obtain ⟨_, hts, hdt⟩ := hrest hinv.eof
    have hfired := call_entry_nil r res hentry
    have hsame : ∀ j, res.parser.tracks.getD j midi_track_zero
        = r.parser.tracks.getD j midi_track_zero := by
      intro j
      by_contra hne
      have := (hfr j hne).2.1
      rw [hfired] at this
      cases this
    have hmem : ∀ u ∈ res.parser.tracks.take n, u ∈ r.parser.tracks.take n := by
      intro u hu
      obtain ⟨j, hj, rfl⟩ := take_mem_getD _ n midi_track_zero u hu
      rw [hsame j]
      exact getD_mem_take _ n midi_track_zero j hj hinv.count_le
    refine ⟨res, hcall, ?_, ?_⟩
    · by_cases hex : ∃ u ∈ r.parser.tracks.take n, midi_track_over u = false
      · exact Or.inl ⟨rem, (hsome hex).1⟩
      · have hover : ∀ u ∈ r.parser.tracks.take n, midi_track_over u = true := by
          intro u hu
          cases h : midi_track_over u with
          | true => rfl
          | false => exact absurd ⟨u, hu, h⟩ hex
        refine Or.inr ⟨by rw [hall hover]; decide, by rw [hcount, hinv.count_eq], ?_⟩
        intro u hu
        exact hover u (hmem u hu)
    · intro hex
      obtain ⟨u0, hu0, hov0⟩ := hex
      have hinv' := (hsome ⟨u0, hmem u0 hu0, hov0⟩).1
      refine ⟨by rw [hdt, hinv.count_eq], ?_⟩
      intro u hu hov
      obtain ⟨j, hj, rfl⟩ := take_mem_getD _ n midi_track_zero u hu
      have hlt := (live_track_facts data j _ _ (hinv'.tracks j hj) hov (hinv'.ticks j hj)).1
      refine ⟨?_, hlt⟩
      rw [hts, hsame j]
      rw [hsame j] at hov
      exact hinv.ahead j hj hov
  · obtain ⟨res, e, es', hcall, hentry, _, _, _, hinv', hle⟩ :=
      fire_step ndebug data n r rem hinv A B t hsplit hA ht
    obtain ⟨_, _, _, _, _, hrest⟩ := next_frame ndebug _ _ _ _ _ hcall
    obtain ⟨_, _, hdt⟩ := hrest hinv.eof
    refine ⟨res, hcall, Or.inl ⟨_, hinv'⟩, fun _ => ⟨by rw [hdt, hinv.count_eq], ?_⟩⟩
    intro u hu hov
    obtain ⟨j, hj, rfl⟩ := take_mem_getD _ n midi_track_zero u hu
    have hlt := (live_track_facts data j _ _ (hinv'.tracks j hj) hov (hinv'.ticks j hj)).1
    refine ⟨?_, hlt⟩
    obtain ⟨_, _, _, es'', _, _, _, _, hrem⟩ :=
      track_matches_live data j _ _ (hinv'.tracks j hj) hov
    have := hle j hj _ (by rw [hrem]; exact List.mem_cons_self _ _)
    rw [← call_entry_tick r res e hentry]
    unfold fired_le at this
    simp only at this
    omega

/-- Every state reached by calls of `midi_parser_next` from a state satisfying `reach_ok`
satisfies it, and no call fails. -/
theorem calls_reach (ndebug : Bool) (data : List Nat) (n : Nat) (start : parser_result)
    (h0 : reach_ok data n start) : ∀ k, ∃ r, midi_parser_calls ndebug k start = Run.ret r ∧
      reach_ok data n r ∧ (0 < k → wait_ok n r) := by
  intro k
  induction k with
  | zero => exact ⟨start, rfl, h0, fun h => absurd h (Nat.lt_irrefl 0)⟩
  | succ k ih =>
    obtain ⟨r, hr, hok, _⟩ := ih
    simp only [midi_parser_calls, hr, Run.bind]
    rcases hok with ⟨rem, hinv⟩ | ⟨heof, hcount, hover⟩
    · obtain ⟨res, hcall, h1, h2⟩ := inv_step ndebug data n r rem hinv
      exact ⟨res, hcall, h1, fun _ => h2⟩
    · refine ⟨⟨r.parser, r.event, false, r.midi_status, r.midi, 0, none⟩, ?_,
        Or.inr ⟨heof, hcount, hover⟩, fun _ hex => ?_⟩
      · unfold midi_parser_next
        rw [if_pos heof]
      · obtain ⟨u, hu, hov⟩ := hex
        rw [hover u hu] at hov
        cases hov

/-! ### Termination of the variable-length decoder -/

theorem drop_cons_file (f : FILE) (b : Nat) (rest : List Nat)
    (h : f.data.drop f.pos = b :: rest) :
    f.data[f.pos]? = some b ∧ f.data.drop (f.pos + 1) = rest := by
  have hlt : f.pos < f.data.length := by
    by_contra hc
    rw [List.drop_eq_nil_of_le (by omega)] at h
    cases h
  rw [List.drop_eq_getElem_cons hlt] at h
  cases h
  exact ⟨List.getElem?_eq_getElem hlt, rfl⟩

theorem read_step (fuel : Nat) (f : FILE) (v b : Nat) (h : f.data[f.pos]? = some b) :
    midi_value_read_loop (fuel + 1) f v =
      if 128 ≤ b % 256 then
        midi_value_read_loop fuel { f with pos := f.pos + 1 }
          (((v <<< 7) % U32) ||| (b % 256 &&& 0x7F))
      else Run.ret (((v <<< 7) % U32) ||| (b % 256 &&& 0x7F), { f with pos := f.pos + 1 }) := by
  simp only [midi_value_read_loop, getc_some f b h, u8_natCast, Nat.mod_mod]
  have := byte_top_bit (b % 256) (Nat.mod_lt _ (by decide))
  by_cases hb : 128 ≤ b % 256
  · rw [if_pos (this.mpr hb), if_pos hb]
  · rw [if_neg (fun hc => hb (this.mp hc)), if_neg hb]

/-- The loop of `midi_value_read` exits when a byte with its top bit clear lies ahead. -/
theorem read_loop_returns : ∀ (l : List Nat) (f : FILE), f.data.drop f.pos = l →
    (l.any fun b => decide (b % 256 < 128)) = true →
    ∀ fuel v, l.length < fuel → ∃ r, midi_value_read_loop fuel f v = Run.ret r := by
  intro l
  induction l with
  | nil => intro f _ h; simp at h
  | cons b rest ih =>
    intro f hd hany fuel v hfuel
    obtain ⟨hb, hrest⟩ := drop_cons_file f b rest hd
    obtain ⟨k, rfl⟩ : ∃ k, fuel = k + 1 := ⟨fuel - 1, by simp at hfuel; omega⟩
    rw [read_step k f v b hb]
    by_cases hc : 128 ≤ b % 256
    · rw [if_pos hc]
      have hany' : (rest.any fun b => decide (b % 256 < 128)) = true := by
        simp only [List.any_cons, Bool.or_eq_true, decide_eq_true_eq] at hany
        rcases hany with h | h
        · omega
        · exact h
      exact ih { f with pos := f.pos + 1 } hrest hany' k _
        (by simp only [List.length_cons] at hfuel; omega)
    · rw [if_neg hc]
      exact ⟨_, rfl⟩

/-- The loop of `midi_value_read` never exits when no byte with its top bit clear lies
ahead: whatever the fuel, it is still running when the fuel is spent. -/
theorem read_loop_diverges : ∀ (l : List Nat) (f : FILE), f.data.drop f.pos = l →
    (l.any fun b => decide (b % 256 < 128)) = false →
    ∀ fuel v, midi_value_read_loop fuel f v = Run.diverges := by
  intro l
  induction l with
  | nil =>
    intro f hd _ fuel v
    exact read_loop_eof f (List.drop_eq_nil_iff.mp hd) fuel v
  | cons b rest ih =>
    intro f hd hany fuel v
    obtain ⟨hb, hrest⟩ := drop_cons_file f b rest hd
    simp only [List.any_cons, Bool.or_eq_false_iff, decide_eq_false_iff_not] at hany
    cases fuel with
    | zero => rfl
    | succ k =>
      rw [read_step k f v b hb, if_pos (by omega)]
      exact ih { f with pos := f.pos + 1 } hrest hany.2 k _

theorem midi_track_over_note (t : midi_track) (d : decode_result)
    (h : ¬ (d.event.status = 0xFF ∧ d.event.meta_type = MetaEndOfTrack)) :
    midi_track_over (track_note_event t d) = midi_track_over t := by
  unfold track_note_event
  dsimp only
  split
  · rename_i hFF
    split
    · rename_i hE
      exact absurd ⟨hFF, hE⟩ h
    · split <;> rfl
  · rfl

/-- C21 (termination of variable-length decoding).  For every source and read position:
if some byte at or after the position has its top bit clear, `midi_value_read` and
`midi_value_peek` return; if none has (every remaining byte has its top bit set, or the
position is at the end of the input, where `getc` yields `EOF`, stored as `0xFF`), their
loops are still running after any number of iterations, and both calls diverge.  And when
`midi_track_next` is called on a track that is not over, `midi_event_new` decodes an event
other than `MetaEndOfTrack` and leaves the read position at the end of the input, then
`midi_track_next` diverges, in the lookahead for the next delta-time. -/
theorem vlq_termination (f : FILE) :
    (clear_byte_ahead f = true →
      (∃ r, midi_value_read f = Run.ret r) ∧ ∃ r, midi_value_peek f = Run.ret r) ∧
    (clear_byte_ahead f = false →
      (∀ fuel v, midi_value_read_loop fuel f v = Run.diverges) ∧
      (∀ fuel v c, midi_value_peek_loop fuel f v c = Run.diverges) ∧
      midi_value_read f = Run.diverges ∧ midi_value_peek f = Run.diverges) ∧
    (∀ (t : midi_track) (ev : midi_event) (d : decode_result),
      midi_track_over t = false →
      midi_event_new ev (fseek_set f t.current_position) t.running_status = Run.ret d →
      ¬ (d.event.status = 0xFF ∧ d.event.meta_type = MetaEndOfTrack) →
      d.midi.data.length ≤ d.midi.pos →
      midi_track_next t f ev = Run.diverges) := by
  refine ⟨fun h => ?_, fun h => ?_, fun t ev d hov hd hne heof => ?_⟩
  · obtain ⟨r, hr⟩ := read_loop_returns _ f rfl h (loop_fuel f) 0
      (by simp only [List.length_drop, loop_fuel]; omega)
    refine ⟨⟨r, hr⟩, ?_⟩
    unfold midi_value_peek
    rw [peek_loop_eq, hr]
    exact ⟨_, rfl⟩
  · have hr := read_loop_diverges _ f rfl h
    have hp : ∀ fuel v c, midi_value_peek_loop fuel f v c = Run.diverges := by
      intro fuel v c
      rw [peek_loop_eq, hr]
      rfl
    refine ⟨hr, hp, hr _ _, ?_⟩
    unfold midi_value_peek
    rw [hp]
    rfl
  · rw [midi_track_next_eq, hd]
    simp only [Run.bind]
    unfold track_lookahead
    rw [midi_track_over_note t d hne, hov]
    simp only [Bool.not_false, if_true]
    unfold midi_value_peek
    rw [peek_loop_eof d.midi heof]
    rfl

set_option maxRecDepth 100000 in
/-- The theorem `vlq_termination` at three inputs: `81 80 05 90` read from its start, where
the third byte ends the quantity; `05 81 80` read from offset 1, where the source ends
first; and `unterminated_file`, whose track holds one NoteOn and ends with the file:
`midi_track_next` on its track diverges, and so does the second call of
`midi_parser_next`. -/
theorem vlq_termination_witness :
    (clear_byte_ahead ⟨[0x81, 0x80, 0x05, 0x90], 0⟩ = true ∧
      midi_value_read ⟨[0x81, 0x80, 0x05, 0x90], 0⟩ =
        Run.ret (16389, ⟨[0x81, 0x80, 0x05, 0x90], 3⟩) ∧
      ∃ r, midi_value_peek ⟨[0x81, 0x80, 0x05, 0x90], 0⟩ = Run.ret r) ∧
    (clear_byte_ahead ⟨[0x05, 0x81, 0x80], 1⟩ = false ∧
      midi_value_read ⟨[0x05, 0x81, 0x80], 1⟩ = Run.diverges ∧
      midi_value_peek ⟨[0x05, 0x81, 0x80], 1⟩ = Run.diverges) ∧
    (midi_parser_new false none ⟨unterminated_file, 0⟩ =
        Run.ret ⟨some { tempo_opened with
          tracks := ⟨14, 22, 4, 500000, 0, 0, 100⟩ :: List.replicate 15 midi_track_zero },
          MIDI_Success, ⟨unterminated_file, 14⟩⟩ ∧
      midi_track_next ⟨14, 22, 4, 500000, 0, 0, 100⟩ ⟨unterminated_file, 14⟩ midi_event_zero
        = Run.diverges ∧
      midi_session false unterminated_file 2 = Run.diverges) := by
  refine ⟨⟨by decide, by decide, ?_⟩, ⟨by decide, ?_, ?_⟩, ⟨by decide, ?_, by decide⟩⟩
  · exact ((vlq_termination ⟨[0x81, 0x80, 0x05, 0x90], 0⟩).1 (by decide)).2
  · exact ((vlq_termination ⟨[0x05, 0x81, 0x80], 1⟩).2.1 (by decide)).2.2.1
  · exact ((vlq_termination ⟨[0x05, 0x81, 0x80], 1⟩).2.1 (by decide)).2.2.2
  · exact (vlq_termination ⟨unterminated_file, 14⟩).2.2 ⟨14, 22, 4, 500000, 0, 0, 100⟩
      midi_event_zero _ (by decide) rfl (by decide) (by decide)

/-! ### The divisor of the tempo update -/

set_option maxRecDepth 100000 in
/-- C22 does not hold of the code.  The header of `zero_division_file` has time division 0,
which is below `0x8000`: `midi_parser_new` accepts it and returns a parser with
`ticks_per_quarter` = 0.  The first event of the track is a `MetaSetTempo` with tempo
500000; `midi_track_next` decodes it, and `midi_parser_update` on that event with a zero
`ticks_per_quarter` divides by zero.  So the first call of `midi_parser_next` has undefined
behaviour, with assertions compiled in or not. -/
theorem tempo_update_divides_by_zero :
    (∃ p, midi_parser_new false none ⟨zero_division_file, 0⟩ =
        Run.ret ⟨some p, MIDI_Success, ⟨zero_division_file, 14⟩⟩ ∧
      p.time_division = 0 ∧ p.ticks_per_quarter = 0) ∧
    (∃ r, midi_track_next ⟨14, 22, 11, 500000, 0, 0, 0⟩ ⟨zero_division_file, 14⟩
        midi_event_zero = Run.ret r ∧
      r.event.status = 0xFF ∧ r.event.meta_type = MetaSetTempo ∧ r.event.tempo = 500000 ∧
      ∀ q : midi_parser_t, q.ticks_per_quarter = 0 →
        midi_parser_update q r.event = Run.undefined) ∧
    midi_session false zero_division_file 1 = Run.undefined ∧
    midi_session true zero_division_file 1 = Run.undefined := by
  refine ⟨⟨_, rfl, by decide⟩, ⟨_, rfl, by decide, by decide, by decide, ?_⟩, by decide,
    by decide⟩
  intro q hq
  unfold midi_parser_update
  rw [if_pos (by decide), if_pos (by decide), if_pos (by decide), if_pos hq]

/-! ### The lookahead and the decoded delta-times -/

theorem midi_new_dtime (ev : midi_event) (m : FILE) (s : Nat) :
    (midi_event_midi_new ev m s).event.dtime = ev.dtime := by
  unfold midi_event_midi_new
  dsimp only
  split
  · rfl
  · split <;> rfl

theorem sysex_new_dtime (ev : midi_event) (m : FILE) (r : event_result)
    (h : midi_event_sysex_new ev m = Run.ret r) : r.event.dtime = ev.dtime := by
  unfold midi_event_sysex_new at h
  obtain ⟨v, _, h⟩ := bind_eq_ret _ _ _ h
  cases h
  rfl

theorem meta_new_dtime (ev : midi_event) (m : FILE) (r : event_result)
    (h : midi_event_meta_new ev m = Run.ret r) : r.event.dtime = ev.dtime := by
  unfold midi_event_meta_new at h
  dsimp only at h
  obtain ⟨v, _, h⟩ := bind_eq_ret _ _ _ h
  generalize u8 (getc m).1 = t at h
  by_cases c0 : t = MetaEndOfTrack
  · rw [if_pos c0] at h; cases h; rfl
  rw [if_neg c0] at h
  by_cases c1 : t = MetaSetTempo
  · rw [if_pos c1] at h; cases h; rfl
  rw [if_neg c1] at h
  by_cases c2 : t = MetaSequence
  · rw [if_pos c2] at h; cases h; rfl
  rw [if_neg c2] at h
  by_cases c3 : t = MetaChannelPrefix
  · rw [if_pos c3] at h; cases h; rfl
  rw [if_neg c3] at h
  by_cases c4 : t = MetaTimeSignature
  · rw [if_pos c4] at h; cases h; rfl
  rw [if_neg c4] at h
  by_cases c5 : t = MetaKeySignature
  · rw [if_pos c5] at h; cases h; rfl
  rw [if_neg c5] at h
  by_cases c6 : t = MetaSMPTEOffset
  · rw [if_pos c6] at h; cases h; rfl
  rw [if_neg c6] at h
  by_cases c7 : t = MetaSequencerSpecific
  · rw [if_pos c7] at h; cases h; rfl
  rw [if_neg c7] at h
  by_cases c8 : t = MetaText ∨ t = MetaCopyright ∨ t = MetaTrackName ∨ t = MetaInstrumentName
      ∨ t = MetaLyrics ∨ t = MetaMarker ∨ t = MetaCuePoint
  · rw [if_pos c8] at h; cases h; rfl
  rw [if_neg c8] at h
  cases h
  rfl

/-- The delta-time of a decoded event is the quantity `midi_value_read` decodes at the
position where `midi_event_new` starts. -/
theorem event_new_dtime (ev : midi_event) (m : FILE) (rs : Nat) (d : decode_result)
    (h : midi_event_new ev m rs = Run.ret d) :
    ∃ m', midi_value_read m = Run.ret (d.event.dtime, m') := by
  unfold midi_event_new at h
  obtain ⟨v, hv, h⟩ := bind_eq_ret _ _ _ h
  refine ⟨v.2, ?_⟩
  rw [hv]
  suffices hd : d.event.dtime = v.1 by rw [hd]
  dsimp only at h
  generalize hself : (if decide (u8 (getc v.2).1 < 128) = true then
      ({ ({ ev with dtime := v.1 } : midi_event) with status := rs } : midi_event)
    else { ({ ev with dtime := v.1 } : midi_event) with status := u8 (getc v.2).1 }) = self at h
  have hsd : self.dtime = v.1 := by
    rw [← hself]
    split <;> rfl
  generalize (if decide (u8 (getc v.2).1 < 128) = true then fseek_cur (getc v.2).2 (-1)
    else (getc v.2).2) = m2 at h
  split at h
  · split at h
    · cases h
      exact (midi_new_dtime _ _ _).trans hsd
    · cases h
      exact (midi_new_dtime _ _ _).trans hsd
  · split at h
    · split at h
      · obtain ⟨r, hr, h⟩ := bind_eq_ret _ _ _ h
        cases h
        exact (sysex_new_dtime _ _ _ hr).trans hsd
      · split at h
        · obtain ⟨r, hr, h⟩ := bind_eq_ret _ _ _ h
          cases h
          exact (meta_new_dtime _ _ _ hr).trans hsd
        · cases h
          exact hsd
    · cases h
      exact hsd

theorem read_inside (f : FILE) (r : Nat × FILE) (h : midi_value_read f = Run.ret r) :
    f.pos < f.data.length := by
  by_contra hc
  unfold midi_value_read at h
  rw [read_loop_eof f (by omega)] at h
  cases h

theorem event_new_data_ret (ev : midi_event) (m : FILE) (rs : Nat) (d : decode_result)
    (h : midi_event_new ev m rs = Run.ret d) : d.midi.data = m.data := by
  have := event_new_data ev m rs
  rw [h] at this
  simp only [Run.bind] at this
  exact Run.ret.inj this

theorem midi_track_over_end (s t : midi_track) (hc : s.current_position = t.current_position)
    (hs : s.start_position = t.start_position) (hz : s.size = t.size)
    (hov : midi_track_over t = false) (hs' : midi_track_over s = true) :
    s.end_of_track ≠ 0 := by
  simp only [midi_track_over, Bool.or_eq_false_iff, decide_eq_false_iff_not, ne_eq, not_not,
    Bool.or_eq_true, decide_eq_true_eq, ge_iff_le, not_le] at hov hs'
  rw [hc, hs, hz] at hs'
  rcases hs' with h | h
  · exact h
  · omega

/-- What one call of `midi_track_next` on a track that is not over does for the lookahead,
in a source shorter than 2^32 bytes in which no variable-length quantity is longer than 255
bytes: the delta-time it decodes is the quantity found at the cursor, and the track it
leaves has its lookahead in step with the bytes. -/
theorem track_next_lookahead (data : List Nat) (hsize : data.length < U32)
    (hvlq : ∀ pos v m, midi_value_read ⟨data, pos⟩ = Run.ret (v, m) → m.pos - pos ≤ 255)
    (t : midi_track) (ev : midi_event) (r : next_result)
    (hov : midi_track_over t = false)
    (hr : midi_track_next t ⟨data, 0⟩ ev = Run.ret r) :
    (∃ m, midi_value_read ⟨data, t.current_position⟩ = Run.ret (r.event.dtime, m)) ∧
      lookahead_ok data r.track := by
  rw [midi_track_next_eq] at hr
  obtain ⟨d, hd, hl⟩ := bind_eq_ret _ _ _ hr
  have hdata : d.midi.data = data := event_new_data_ret _ _ _ _ hd
  obtain ⟨m', hm'⟩ := event_new_dtime _ _ _ _ hd
  obtain ⟨hf1, hf2, hf3⟩ := track_note_event_fields t d
  unfold track_lookahead at hl
  cases hs : midi_track_over (track_note_event t d) with
  | false =>
    rw [hs] at hl
    simp only [Bool.not_false, if_true] at hl
    obtain ⟨p, hp, hl⟩ := bind_eq_ret _ _ _ hl
    cases hl
    refine ⟨⟨m', hm'⟩, ?_⟩
    -- the peek returned, so a quantity is read at the position the decoder left
    have hread : ∃ rr, midi_value_read d.midi = Run.ret rr := by
      unfold midi_value_peek at hp
      rw [peek_loop_eq] at hp
      obtain ⟨a, ha, _⟩ := bind_eq_ret _ _ _ hp
      obtain ⟨rr, hrr, _⟩ := bind_eq_ret _ _ _ ha
      exact ⟨rr, hrr⟩
    obtain ⟨rr, hrr⟩ := hread
    have hin := read_inside _ _ hrr
    have hfile : d.midi = ⟨data, d.midi.pos⟩ := by rw [← hdata]
    have hlen : rr.2.pos - d.midi.pos ≤ 255 := by
      have := hvlq d.midi.pos rr.1 rr.2 (by rw [← hfile]; exact hrr)
      exact this
    have hpk := value_peek_restores d.midi rr.1 rr.2 hrr hlen
    rw [hpk] at hp
    cases hp
    intro _
    refine ⟨rr.2, ?_⟩
    simp only [ftell]
    have hmod : d.midi.pos % U32 = d.midi.pos := by
      rw [hdata] at hin
      exact Nat.mod_eq_of_lt (by omega)
    rw [hmod, ← hfile]
    exact hrr
  | true =>
    rw [hs] at hl
    simp only [Bool.not_true, Bool.false_eq_true, if_false] at hl
    cases hl
    refine ⟨⟨m', hm'⟩, ?_⟩
    intro hov'
    exfalso
    have hne := midi_track_over_end _ t hf1 hf2 hf3 hov hs
    simp only [midi_track_over, Bool.or_eq_false_iff, decide_eq_false_iff_not, ne_eq,
      not_not] at hov'
    exact hne hov'.1

/-- The two timings of a track agree: in a source shorter than 2^32 bytes in which no
variable-length quantity is longer than 255 bytes, a track whose lookahead is in step with
the bytes yields, timed by the lookahead, the very events it yields timed by the sums of
the decoded delta-times. -/
theorem schedule_eq_events (data : List Nat) (hsize : data.length < U32)
    (hvlq : ∀ pos v m, midi_value_read ⟨data, pos⟩ = Run.ret (v, m) → m.pos - pos ≤ 255)
    (i : Nat) : ∀ (fuel : Nat) (t : midi_track) (base : Nat) (es : List fired_event),
    lookahead_ok data t → track_events data i fuel t base = Run.ret es →
    track_schedule data i fuel t base = Run.ret es := by
  intro fuel
  induction fuel with
  | zero => intro t base es _ h; cases h
  | succ k ih =>
    intro t base es hlook h
    simp only [track_events] at h
    simp only [track_schedule]
    cases hov : midi_track_over t with
    | true =>
      rw [hov] at h
      simp only [if_true] at h ⊢
      exact h
    | false =>
      rw [hov] at h
      simp only [Bool.false_eq_true, if_false] at h ⊢
      obtain ⟨r, hr, h⟩ := bind_eq_ret _ _ _ h
      obtain ⟨es', hes', h⟩ := bind_eq_ret _ _ _ h
      obtain ⟨⟨m1, hm1⟩, hlook'⟩ := track_next_lookahead data hsize hvlq t _ r hov hr
      obtain ⟨m2, hm2⟩ := hlook hov
      have hd : r.event.dtime = t.next_event_timestamp := by
        rw [hm1] at hm2
        exact congrArg Prod.fst (Run.ret.inj hm2)
      rw [hd] at hes'
      rw [hr]
      simp only [Run.bind]
      rw [ih r.track _ es' hlook' hes']
      simp only [← hd]
      exact h

theorem peek_read (f : FILE) (p : Nat × FILE) (h : midi_value_peek f = Run.ret p) :
    ∃ m, midi_value_read f = Run.ret (p.1, m) := by
  unfold midi_value_peek at h
  rw [peek_loop_eq] at h
  obtain ⟨a, ha, h⟩ := bind_eq_ret _ _ _ h
  obtain ⟨rr, hrr, ha⟩ := bind_eq_ret _ _ _ ha
  cases ha
  cases h
  exact ⟨rr.2, hrr⟩

/-- A track loaded by `midi_track_new` has its lookahead in step with the bytes. -/
theorem track_new_lookahead (ndebug : Bool) (m : FILE) (i : Nat) (r : track_result)
    (tr : midi_track) (h : midi_track_new ndebug m i = Run.ret r) (htr : r.track = some tr) :
    lookahead_ok m.data tr := by
  unfold midi_track_new at h
  dsimp only at h
  obtain ⟨l, hl, h⟩ := bind_eq_ret _ _ _ h
  have hd := track_new_loop_data ndebug _ _ _ _ _ hl
  split at h
  · cases h
    cases htr
  · obtain ⟨pk, hpk, h⟩ := bind_eq_ret _ _ _ h
    cases h
    cases htr
    intro _
    obtain ⟨m', hm'⟩ := peek_read _ _ hpk
    refine ⟨m', ?_⟩
    simp only [fseek_set] at hm' hd ⊢
    rw [← hd]
    exact hm'

/-- The track `midi_track_new` loads does not depend on the read position at the call. -/
theorem track_new_at (ndebug : Bool) (data : List Nat) (a b i : Nat) (r : track_result)
    (tr : midi_track) (h : midi_track_new ndebug ⟨data, a⟩ i = Run.ret r)
    (htr : r.track = some tr) :
    midi_track_new ndebug ⟨data, b⟩ i = Run.ret ⟨some tr, MIDI_Success, ⟨data, b⟩⟩ := by
  unfold midi_track_new at h ⊢
  dsimp only [fseek_set, ftell] at h ⊢
  obtain ⟨l, hl, h⟩ := bind_eq_ret _ _ _ h
  have hd := track_new_loop_data ndebug _ _ _ _ _ hl
  rw [hl]
  simp only [Run.bind] at h ⊢
  split at h
  · cases h
    cases htr
  · rename_i v hv
    obtain ⟨pk, hpk, h⟩ := bind_eq_ret _ _ _ h
    cases h
    cases htr
    have hpd := value_peek_data _ _ hpk
    simp only [hv, hpk]
    simp only at hpd hd
    rw [hpd, hd]

theorem getD_set_ne {α : Type} (l : List α) (i j : Nat) (a d : α) (h : i ≠ j) :
    (l.set i a).getD j d = l.getD j d := by
  simp [List.getD_eq_getElem?_getD, List.getElem?_set_ne h]

theorem getD_set_self {α : Type} (l : List α) (i : Nat) (a d : α) (h : i < l.length) :
    (l.set i a).getD i d = a := by
  simp [List.getD_eq_getElem?_getD, h]

/-- The track-loading loop of `midi_parser_new`, when every track it is to load can be
loaded: it leaves the earlier entries of the array alone and fills the others with tracks
whose lookahead is in step with the bytes. -/
theorem parser_new_loop_loaded (ndebug : Bool) (data : List Nat) (N : Nat)
    (hload : ∀ j < N, ∃ r tr, midi_track_new ndebug ⟨data, 0⟩ j = Run.ret r ∧
      r.track = some tr) :
    ∀ (n i : Nat) (tracks : List midi_track) (st : Nat) (m : FILE)
      (l : List midi_track × Nat × FILE),
    m.data = data → i + n ≤ N →
    midi_parser_new_loop ndebug n i tracks st m = Run.ret l →
    (∀ j < i, l.1.getD j midi_track_zero = tracks.getD j midi_track_zero) ∧
      (∀ j, i ≤ j → j < i + n → j < tracks.length →
        lookahead_ok data (l.1.getD j midi_track_zero)) := by
  intro n
  induction n with
  | zero =>
    intro i tracks st m l _ _ h
    simp only [midi_parser_new_loop] at h
    cases h
    exact ⟨fun _ _ => rfl, fun j h1 h2 _ => by omega⟩
  | succ k ih =>
    intro i tracks st m l hm hN h
    simp only [midi_parser_new_loop] at h
    split at h
    · cases h
    · obtain ⟨r', hr', h⟩ := bind_eq_ret _ _ _ h
      obtain ⟨r0, tr, hr0, htr0⟩ := hload i (by omega)
      have hfile : m = ⟨data, m.pos⟩ := by rw [← hm]
      have hat := track_new_at ndebug data 0 m.pos i r0 tr hr0 htr0
      rw [← hfile, hr'] at hat
      cases hat
      simp only at h
      have hlook : lookahead_ok data tr := by
        have := track_new_lookahead ndebug ⟨data, 0⟩ i r0 tr hr0 htr0
        exact this
      obtain ⟨h1, h2⟩ := ih (i + 1) (tracks.set i tr) _ _ l hm (by omega) h
      refine ⟨fun j hj => ?_, fun j hj1 hj2 hj3 => ?_⟩
      · rw [h1 j (by omega), getD_set_ne _ _ _ _ _ (by omega)]
      · rcases Nat.eq_or_lt_of_le hj1 with rfl | hlt
        · rw [h1 i (by omega), getD_set_self _ _ _ _ hj3]
          exact hlook
        · exact h2 j (by omega) (by omega) (by rw [List.length_set]; exact hj3)

/-- The state in which `midi_parser_new` leaves a parser it returns, whether the parser
memory comes from `calloc` or from the caller, when every declared track can be loaded. -/
theorem parser_new_opened (ndebug : Bool) (self : Option midi_parser_t) (data : List Nat)
    (p : midi_parser_t) (st : Nat) (f : FILE)
    (h : midi_parser_new ndebug self ⟨data, 0⟩ = Run.ret ⟨some p, st, f⟩)
    (hload : ∀ j < p.track_count, ∃ r tr, midi_track_new ndebug ⟨data, 0⟩ j = Run.ret r ∧
      r.track = some tr)
    (harr : p.tracks.length = 16) :
    p.end_of_file = (self.getD midi_parser_zero).end_of_file ∧
      p.us_per_tick = (self.getD midi_parser_zero).us_per_tick ∧
      p.timestamp = 0 ∧ p.dtime = 0 ∧ p.track_count ≤ 16 ∧ f.data = data ∧
      ∀ i < p.track_count, lookahead_ok data (p.tracks.getD i midi_track_zero) := by
  unfold midi_parser_new at h
  split at h
  · cases h
  · obtain ⟨hd, hh, h⟩ := bind_eq_ret _ _ _ h
    have hdata := header_new_data _ hd hh
    split at h
    · cases h
    · rename_i header hhe
      split at h
      · cases h
      · obtain ⟨l, hl, h⟩ := bind_eq_ret _ _ _ h
        cases h
        have hload' : ∀ j < header.track_count, ∃ r tr,
            midi_track_new ndebug ⟨data, 0⟩ j = Run.ret r ∧ r.track = some tr := hload
        have harr' : l.1.length = 16 := harr
        obtain ⟨h1, h2, h3⟩ := parser_new_loop_spec ndebug _ _ _ _ _ _ hl
        obtain ⟨_, h5⟩ := parser_new_loop_loaded ndebug data header.track_count hload'
          _ _ _ _ _ _ hdata (Nat.le_of_eq (Nat.zero_add _)) hl
        have h1' : header.track_count = 0 ∨ 0 + header.track_count ≤ 16 := h1
        have hc16 : header.track_count ≤ 16 := by omega
        refine ⟨?_, ?_, rfl, rfl, hc16, ?_, ?_⟩
        · cases self <;> rfl
        · cases self <;> rfl
        · rw [h3, hdata]
        · intro i hi
          have hi' : i < header.track_count := hi
          exact h5 i (Nat.zero_le _) (by rw [Nat.zero_add]; exact hi')
            (by rw [← h2, harr']; exact lt_of_lt_of_le hi' hc16)

/-! ### Merge and pending wait when `end_of_file` is clear at the first call -/

theorem read_loop_bound : ∀ (fuel : Nat) (f : FILE) (v : Nat) (r : Nat × FILE),
    midi_value_read_loop fuel f v = Run.ret r → r.2.pos ≤ f.data.length := by
  intro fuel
  induction fuel with
  | zero => intro f v r h; simp [midi_value_read_loop] at h
  | succ k ih =>
    intro f v r h
    rcases getc_cases f with he | ⟨b, hb⟩
    · rw [read_loop_eof f he] at h; cases h
    · have hlt : f.pos < f.data.length := by
        by_contra hc
        rw [List.getElem?_eq_none (by omega)] at hb
        cases hb
      simp only [midi_value_read_loop, getc_some f b hb] at h
      split at h
      · have := ih _ _ _ h
        exact this
      · cases h
        exact hlt

/-- In a source of at most 255 bytes no variable-length quantity is longer than 255
bytes. -/
theorem vlq_short (data : List Nat) (h : data.length ≤ 255) :
    ∀ pos v m, midi_value_read ⟨data, pos⟩ = Run.ret (v, m) → m.pos - pos ≤ 255 := by
  intro pos v m hr
  have := read_loop_bound _ _ _ _ hr
  simp only at this
  omega

/-- The invariant of the scheduler holds when the first call is made, for a parser
`midi_parser_new` returned on memory whose `end_of_file` is clear. -/
theorem initial_inv (ndebug : Bool) (self : Option midi_parser_t) (data : List Nat)
    (p : midi_parser_t) (st : Nat) (f : FILE) (ev : midi_event)
    (evs : Nat → List fired_event)
    (hnew : midi_parser_new ndebug self ⟨data, 0⟩ = Run.ret ⟨some p, st, f⟩)
    (hmem : (self.getD midi_parser_zero).end_of_file = 0)
    (harr : p.tracks.length = 16)
    (htpq : p.ticks_per_quarter ≠ 0)
    (hsize : data.length < U32)
    (hvlq : ∀ pos v m, midi_value_read ⟨data, pos⟩ = Run.ret (v, m) → m.pos - pos ≤ 255)
    (hload : ∀ i < p.track_count, ∃ r tr, midi_track_new ndebug ⟨data, 0⟩ i = Run.ret r ∧
      r.track = some tr)
    (hev : ∀ i < p.track_count, ∃ fuel,
      track_events data i fuel (p.tracks.getD i midi_track_zero) 0 = Run.ret (evs i))
    (hticks : ∀ i < p.track_count, ∀ e ∈ evs i, e.tick < U32) :
    sched_inv data p.track_count (session_start p f ev st).parser
      (session_start p f ev st).midi evs := by
  obtain ⟨h1, _, h2, h3, h4, h6, h7⟩ := parser_new_opened ndebug self data p st f hnew hload harr
  refine ⟨h1.trans hmem, rfl, ?_, h4, htpq, h6, ?_, hticks, ?_⟩
  · show p.track_count ≤ p.tracks.length
    omega
  · intro i hi
    obtain ⟨fuel, hf⟩ := hev i hi
    exact ⟨_, 0, fuel, rfl, schedule_eq_events data hsize hvlq i fuel _ 0 _ (h7 i hi) hf,
      fun _ => (Nat.zero_add _).symm⟩
  · intro i _ _
    show (p.timestamp + p.dtime) % U32 ≤ _
    rw [h2, h3]
    exact Nat.zero_le _

theorem parser_new_array (ndebug : Bool) (self : Option midi_parser_t) (m : FILE)
    (p : midi_parser_t) (st : Nat) (f : FILE)
    (h : midi_parser_new ndebug self m = Run.ret ⟨some p, st, f⟩) :
    p.tracks.length = (self.getD midi_parser_zero).tracks.length := by
  unfold midi_parser_new at h
  split at h
  · cases h
  · obtain ⟨hd, hh, h⟩ := bind_eq_ret _ _ _ h
    split at h
    · cases h
    · split at h
      · cases h
      · obtain ⟨l, hl, h⟩ := bind_eq_ret _ _ _ h
        cases h
        obtain ⟨_, h2, _⟩ := parser_new_loop_spec ndebug _ _ _ _ _ _ hl
        show l.1.length = _
        rw [h2]
        cases self <;> rfl

/-- Merge correctness of `midi_parser_next` for a parser whose `end_of_file` is clear when
the first call is made.  Let `midi_parser_new` return a parser `p` for the bytes `data`,
on memory from `calloc` (`self` = `none`) or handed in by the caller, with `end_of_file`
clear and 16 track slots; let `ticks_per_quarter` be nonzero, the source shorter than 2^32
bytes with no variable-length quantity longer than 255 bytes, and every declared track be
loaded by `midi_track_new`.  Let `evs i` be the events of track `i`, each with the sum of
the decoded delta-times of the track up to and including it as its tick (`track_events`),
all ticks below 2^32.  Then the loop of `main.c`, which calls `midi_parser_next` until
`midi_parser_eof`, exits, and the events its calls decoded, in call order, are such that
the events of track `i` among them are exactly `evs i`, in that order, every one of them
belongs to a track below `track_count`, and they are sorted by tick and, at equal ticks,
by track index.  Without the hypothesis on `end_of_file` this fails: see
`stale_end_of_file_skips_merge`. -/
theorem merge_correct (ndebug : Bool) (self : Option midi_parser_t) (data : List Nat)
    (p : midi_parser_t) (st : Nat) (f : FILE) (ev : midi_event)
    (evs : Nat → List fired_event)
    (hnew : midi_parser_new ndebug self ⟨data, 0⟩ = Run.ret ⟨some p, st, f⟩)
    (hmem : (self.getD midi_parser_zero).end_of_file = 0)
    (harr : (self.getD midi_parser_zero).tracks.length = 16)
    (htpq : p.ticks_per_quarter ≠ 0)
    (hsize : data.length < U32)
    (hvlq : ∀ pos v m, midi_value_read ⟨data, pos⟩ = Run.ret (v, m) → m.pos - pos ≤ 255)
    (hload : ∀ i < p.track_count, ∃ r tr, midi_track_new ndebug ⟨data, 0⟩ i = Run.ret r ∧
      r.track = some tr)
    (hev : ∀ i < p.track_count, ∃ fuel,
      track_events data i fuel (p.tracks.getD i midi_track_zero) 0 = Run.ret (evs i))
    (hticks : ∀ i < p.track_count, ∀ e ∈ evs i, e.tick < U32) :
    ∃ n tr rf, midi_parser_trace ndebug n (session_start p f ev st) = Run.ret (tr, rf) ∧
      midi_parser_eof rf.parser = true ∧
      (∀ i < p.track_count, tr.filter (fun e => e.track = i) = evs i) ∧
      (∀ e ∈ tr, e.track < p.track_count) ∧ tr.Pairwise fired_le := by
  have harr' := (parser_new_array ndebug self _ p st f hnew).trans harr
  have hinv := initial_inv ndebug self data p st f ev evs hnew hmem harr' htpq hsize hvlq
    hload hev hticks
  obtain ⟨n, tr, rf, hrun, heof, hm⟩ :=
    run_merges ndebug data p.track_count _ _ evs hinv rfl
  exact ⟨n, tr, rf, hrun, by simp [midi_parser_eof, heof], hm⟩

set_option maxRecDepth 100000 in
/-- The theorem `merge_correct` at `tie_file`, opened on the caller's memory `used_memory`:
the file opens, both tracks decode alone to the events listed in `tie_events`, so the loop
exits with these four events merged.  The run itself: the seventh evaluation of the loop
condition finds `end_of_file` set, and the calls fired track 0 at tick 100, track 1 twice
at tick 100, then track 0 at tick 110. -/
theorem merge_correct_witness :
    midi_parser_new false (some used_memory) ⟨tie_file, 0⟩ =
        Run.ret ⟨some { tie_opened with us_per_tick := 7 }, MIDI_Success, ⟨tie_file, 14⟩⟩ ∧
      (∃ n tr rf, midi_parser_trace false n
          (session_start { tie_opened with us_per_tick := 7 } ⟨tie_file, 14⟩ midi_event_zero
            MIDI_Success) = Run.ret (tr, rf) ∧
        midi_parser_eof rf.parser = true ∧
        (∀ i < tie_opened.track_count, tr.filter (fun e => e.track = i) = tie_events i) ∧
        (∀ e ∈ tr, e.track < tie_opened.track_count) ∧ tr.Pairwise fired_le) ∧
      (∃ rf, midi_parser_trace false 7
          (session_start { tie_opened with us_per_tick := 7 } ⟨tie_file, 14⟩ midi_event_zero
            MIDI_Success) =
            Run.ret ([⟨100, 0, 22, 100, 0x90⟩, ⟨100, 1, 38, 100, 0x90⟩, ⟨100, 1, 42, 0, 0xFF⟩,
              ⟨110, 0, 26, 10, 0xFF⟩], rf)) := by
  refine ⟨by decide, ?_, ⟨_, rfl⟩⟩
  refine merge_correct false (some used_memory) tie_file { tie_opened with us_per_tick := 7 }
    MIDI_Success ⟨tie_file, 14⟩ midi_event_zero tie_events (by decide) (by decide) (by decide)
    (by decide) (by decide) (vlq_short tie_file (by decide)) ?_ ?_ ?_
  · intro i hi
    have hi2 : i < 2 := hi
    interval_cases i
    · exact ⟨_, _, rfl, rfl⟩
    · exact ⟨_, _, rfl, rfl⟩
  · intro i hi
    have hi2 : i < 2 := hi
    interval_cases i
    · exact ⟨3, by decide⟩
    · exact ⟨3, by decide⟩
  · intro i hi
    have hi2 : i < 2 := hi
    interval_cases i
    · decide
    · decide

set_option maxRecDepth 100000 in
/-- C1 does not hold of the code.  `midi_parser_new` does not assign `end_of_file`: on
parser memory handed in by the caller, as `main.c` does with an uninitialised local, the
field keeps what the memory held.  For `tie_file` opened on `stale_memory` the parser comes
back with `end_of_file` = 1, so the loop of `main.c` exits at its first test and no call of
`midi_parser_next` is made: no event is decoded, although track 0 alone decodes to the two
events of `tie_events 0` and track 1 to those of `tie_events 1`. -/
theorem stale_end_of_file_skips_merge :
    midi_parser_new false (some stale_memory) ⟨tie_file, 0⟩ =
        Run.ret ⟨some { tie_opened with end_of_file := 1 }, MIDI_Success, ⟨tie_file, 14⟩⟩ ∧
      (∀ n, midi_parser_trace false (n + 1)
          (session_start { tie_opened with end_of_file := 1 } ⟨tie_file, 14⟩ midi_event_zero
            MIDI_Success) =
        Run.ret ([], session_start { tie_opened with end_of_file := 1 } ⟨tie_file, 14⟩
          midi_event_zero MIDI_Success)) ∧
      track_events tie_file 0 3 tie_track0 0 =
        Run.ret [⟨100, 0, 22, 100, 0x90⟩, ⟨110, 0, 26, 10, 0xFF⟩] ∧
      track_events tie_file 1 3 tie_track1 0 =
        Run.ret [⟨100, 1, 38, 100, 0x90⟩, ⟨100, 1, 42, 0, 0xFF⟩] ∧
      midi_parser_next false { tie_opened with end_of_file := 1 } ⟨tie_file, 14⟩
          midi_event_zero MIDI_Success =
        Run.ret ⟨{ tie_opened with end_of_file := 1 }, midi_event_zero, false, MIDI_Success,
          ⟨tie_file, 14⟩, 0, none⟩ := by
  refine ⟨by decide, fun n => rfl, by decide, by decide, by decide⟩

/-- The assertion and the pending wait of the scheduler, for a parser whose `end_of_file`
is clear when the first call is made.  Under the hypotheses of `merge_correct`, any number
`k` of successive calls of `midi_parser_next` all return, with assertions compiled in or
not.  In the state `r` they reach: unless `end_of_file` is set, every unfinished track has
`next_event_timestamp` at or after the timestamp advanced by the pending wait, which is
what the next call asserts; and if `k` > 0 and some track is unfinished, every unfinished
track has `timestamp` ≤ `next_event_timestamp` and
`dtime` ≤ `next_event_timestamp - timestamp`, with equality for one of them.  Without the
hypothesis on `end_of_file` the second part fails: see `stale_end_of_file_leaves_wait`. -/
theorem assertion_valid (ndebug : Bool) (self : Option midi_parser_t) (data : List Nat)
    (p : midi_parser_t) (st : Nat) (f : FILE) (ev : midi_event)
    (evs : Nat → List fired_event)
    (hnew : midi_parser_new ndebug self ⟨data, 0⟩ = Run.ret ⟨some p, st, f⟩)
    (hmem : (self.getD midi_parser_zero).end_of_file = 0)
    (harr : (self.getD midi_parser_zero).tracks.length = 16)
    (htpq : p.ticks_per_quarter ≠ 0)
    (hsize : data.length < U32)
    (hvlq : ∀ pos v m, midi_value_read ⟨data, pos⟩ = Run.ret (v, m) → m.pos - pos ≤ 255)
    (hload : ∀ i < p.track_count, ∃ r tr, midi_track_new ndebug ⟨data, 0⟩ i = Run.ret r ∧
      r.track = some tr)
    (hev : ∀ i < p.track_count, ∃ fuel,
      track_events data i fuel (p.tracks.getD i midi_track_zero) 0 = Run.ret (evs i))
    (hticks : ∀ i < p.track_count, ∀ e ∈ evs i, e.tick < U32) (k : Nat) :
    ∃ r, midi_parser_calls ndebug k (session_start p f ev st) = Run.ret r ∧
      (r.parser.end_of_file = 0 →
        ∀ u ∈ r.parser.tracks.take r.parser.track_count, midi_track_over u = false →
          (r.parser.timestamp + r.parser.dtime) % U32 ≤ u.next_event_timestamp) ∧
      (0 < k → (∃ u ∈ r.parser.tracks.take r.parser.track_count, midi_track_over u = false) →
        (∀ u ∈ r.parser.tracks.take r.parser.track_count, midi_track_over u = false →
          r.parser.timestamp ≤ u.next_event_timestamp ∧
            r.parser.dtime ≤ u.next_event_timestamp - r.parser.timestamp) ∧
        ∃ u ∈ r.parser.tracks.take r.parser.track_count, midi_track_over u = false ∧
          r.parser.dtime = u.next_event_timestamp - r.parser.timestamp) := by
  have harr' := (parser_new_array ndebug self _ p st f hnew).trans harr
  have hinv := initial_inv ndebug self data p st f ev evs hnew hmem harr' htpq hsize hvlq
    hload hev hticks
  obtain ⟨r, hr, hok, hw⟩ := calls_reach ndebug data p.track_count _ (Or.inl ⟨evs, hinv⟩) k
  have hcount : r.parser.track_count = p.track_count := by
    rcases hok with ⟨rem, hi⟩ | ⟨_, hc, _⟩
    · exact hi.count_eq
    · exact hc
  refine ⟨r, hr, ?_, ?_⟩
  · rw [hcount]
    intro heof u hu hov
    rcases hok with ⟨rem, hi⟩ | ⟨hne, _, _⟩
    · obtain ⟨j, hj, rfl⟩ := take_mem_getD _ _ midi_track_zero u hu
      exact hi.ahead j hj hov
    · exact absurd heof hne
  · rw [hcount]
    intro hk hex
    obtain ⟨hd, hall⟩ := hw hk hex
    refine ⟨fun u hu hov => ?_, ?_⟩
    · obtain ⟨h1, h2⟩ := hall u hu hov
      refine ⟨h1, ?_⟩
      rw [hd, ← track_wait_eq _ u h1 h2]
      exact min_wait_le _ u hov _ _ hu
    · obtain ⟨u, hu, hov, he⟩ := min_wait_attained r.parser.timestamp _ hex
      obtain ⟨h1, h2⟩ := hall u hu hov
      exact ⟨u, hu, hov, by rw [hd, he, track_wait_eq _ u h1 h2]⟩

set_option maxRecDepth 100000 in
/-- The theorem `assertion_valid` at `tie_file` opened on memory from `calloc`, after four
calls: the timestamp is 100, the only unfinished track is track 0 with its next event at
tick 110, and `dtime` is 10. -/
theorem assertion_valid_witness :
    midi_parser_new false none ⟨tie_file, 0⟩ =
        Run.ret ⟨some tie_opened, MIDI_Success, ⟨tie_file, 14⟩⟩ ∧
      tie_opened.ticks_per_quarter ≠ 0 ∧
      ∃ r, midi_parser_calls false 4
          (session_start tie_opened ⟨tie_file, 14⟩ midi_event_zero MIDI_Success) = Run.ret r ∧
        r.parser.timestamp = 100 ∧ r.parser.dtime = 10 ∧
        (∃ u ∈ r.parser.tracks.take r.parser.track_count, midi_track_over u = false ∧
          r.parser.dtime = u.next_event_timestamp - r.parser.timestamp) := by
  refine ⟨by decide, by decide, ?_⟩
  obtain ⟨r, h1, _, h3⟩ := assertion_valid false none tie_file tie_opened MIDI_Success
    ⟨tie_file, 14⟩ midi_event_zero tie_events (by decide) (by decide) (by decide) (by decide)
    (by decide) (vlq_short tie_file (by decide))
    (fun i hi => by
      have hi2 : i < 2 := hi
      interval_cases i
      · exact ⟨_, _, rfl, rfl⟩
      · exact ⟨_, _, rfl, rfl⟩)
    (fun i hi => by
      have hi2 : i < 2 := hi
      interval_cases i
      · exact ⟨3, by decide⟩
      · exact ⟨3, by decide⟩)
    (fun i hi => by
      have hi2 : i < 2 := hi
      interval_cases i
      · decide
      · decide) 4
  have hval : midi_parser_calls false 4
      (session_start tie_opened ⟨tie_file, 14⟩ midi_event_zero MIDI_Success) = Run.ret r := h1
  have hex : ∃ r0, midi_parser_calls false 4
      (session_start tie_opened ⟨tie_file, 14⟩ midi_event_zero MIDI_Success) = Run.ret r0 ∧
      r0.parser.timestamp = 100 ∧ r0.parser.dtime = 10 ∧
      ∃ u ∈ r0.parser.tracks.take r0.parser.track_count, midi_track_over u = false :=
    ⟨_, rfl, by decide, by decide, by decide⟩
  obtain ⟨r0, e0, t0, d0, hlive⟩ := hex
  rw [hval] at e0
  cases e0
  exact ⟨r, h1, t0, d0, (h3 (by decide) hlive).2⟩

set_option maxRecDepth 100000 in
/-- C5, as the code behaves: on the single-track scenario file, opened by
`midi_parser_new` with a zeroed parser, `midi_parser_eof` is false before the first
call; the first call yields NoteOn note 60 at timestamp 0, the second NoteOff note 60 at
timestamp 100, the third the MetaEndOfTrack event at timestamp 100, each decoded from
track 0 with `midi_parser_eof` false afterwards; the fourth call decodes no event and sets
`end_of_file`. -/
theorem scenario_end_to_end :
    ∃ r0 r1 r2 r3 r4,
      midi_session false scenario_file 0 = Run.ret (some r0) ∧
      midi_session false scenario_file 1 = Run.ret (some r1) ∧
      midi_session false scenario_file 2 = Run.ret (some r2) ∧
      midi_session false scenario_file 3 = Run.ret (some r3) ∧
      midi_session false scenario_file 4 = Run.ret (some r4) ∧
      (r0.parser.format = 0 ∧ r0.parser.ticks_per_quarter = 480 ∧
        midi_parser_eof r0.parser = false) ∧
      (r1.returned = true ∧ r1.fired = some 0 ∧ midi_event_type r1.event = EventNoteOn ∧
        midi_event_channel r1.event = 0 ∧ r1.event.midi_data = [60, 64] ∧
        r1.parser.timestamp = 0 ∧ midi_parser_eof r1.parser = false) ∧
      (r2.returned = true ∧ r2.fired = some 0 ∧ midi_event_type r2.event = EventNoteOff ∧
        midi_event_channel r2.event = 0 ∧ r2.event.midi_data = [60, 0] ∧
        r2.parser.timestamp = 100 ∧ midi_parser_eof r2.parser = false) ∧
      (r3.returned = true ∧ r3.fired = some 0 ∧ r3.event.status = 0xFF ∧
        r3.event.meta_type = MetaEndOfTrack ∧
        r3.parser.timestamp = 100 ∧ midi_parser_eof r3.parser = false) ∧
      (r4.fired = none ∧ r4.chosen = 0 ∧ midi_parser_eof r4.parser = true) :=
  ⟨_, _, _, _, _, rfl, rfl, rfl, rfl, rfl, by decide, by decide, by decide, by decide,
    by decide⟩

set_option maxRecDepth 100000 in
/-- C5 fails as stated: the third call on the scenario file does not yield end of
stream.  It returns a non-`NULL` event, the MetaEndOfTrack it has just decoded from track
0, and `midi_parser_eof` is still false after it. -/
theorem scenario_third_call_yields_event :
    ∃ r3, midi_session false scenario_file 3 = Run.ret (some r3) ∧
      r3.returned = true ∧ r3.chosen = 1 ∧ r3.fired = some 0 ∧
      r3.event.status = 0xFF ∧ r3.event.meta_type = MetaEndOfTrack ∧
      ¬ (midi_parser_eof r3.parser = true) :=
  ⟨_, rfl, by decide⟩

set_option maxRecDepth 100000 in
/-- C2 fails on the code: on the scenario file the parser stands at timestamp 100 after the
third call, with `end_of_file` clear and `dtime` left at `~0`; the fourth call, the one
that detects the end of the stream, adds that `dtime` and leaves the timestamp at 99. -/
theorem timestamp_decreases_at_end_of_stream :
    ∃ r3 r4,
      midi_session false scenario_file 3 = Run.ret (some r3) ∧
      midi_session false scenario_file 4 = Run.ret (some r4) ∧
      r3.parser.end_of_file = 0 ∧ r3.parser.timestamp = 100 ∧ r3.parser.dtime = 0xFFFFFFFF ∧
      r4.parser.end_of_file = 1 ∧ r4.parser.timestamp = 99 ∧
      ¬ (r3.parser.timestamp ≤ r4.parser.timestamp) :=
  ⟨_, _, rfl, rfl, by decide⟩

set_option maxRecDepth 100000 in
/-- C3 fails on the code: after `midi_parser_new` on a file whose only track starts with
a delta-time of 100, the parser is not at end of stream and track 0 is unfinished, yet
the first call of `midi_parser_next` invokes the decoder on no track and returns the
caller's buffer as it received it. -/
theorem first_call_decodes_nothing :
    ∃ r0 r1,
      midi_session false late_start_file 0 = Run.ret (some r0) ∧
      midi_session false late_start_file 1 = Run.ret (some r1) ∧
      r0.parser.end_of_file = 0 ∧ r0.parser.track_count = 1 ∧
      (r0.parser.tracks.head?.map midi_track_over) = some false ∧
      r1.returned = true ∧ r1.chosen = 0 ∧ r1.fired = none ∧ r1.event = r0.event ∧
      r1.parser.tracks = r0.parser.tracks ∧ r1.parser.end_of_file = 0 :=
  ⟨_, _, rfl, rfl, by decide⟩

end Midi
